import Mathlib

/-!
Verification development for the gt4py iterator-IR middle-end
(constant folding, domain inference, as_fieldop fusion).

The expression data model and all transformation rules are shallow
embeddings of the Python sources:
  src/gt4py/next/iterator/transforms/constant_folding.py
  src/gt4py/next/iterator/transforms/infer_domain.py
  src/gt4py/next/iterator/transforms/fuse_as_fieldop.py
Python exceptions (IndexError from `args[i]`, ValueError from tuple
unpacking and from explicit raises, KeyError from dict lookups) are
modelled with an explicit error monad.  The generic fixed-point rewrite
engine (module `fixed_point_transformation`, not among the sources) is
modelled from the specification, with an explicit fuel bound standing
in for the unbounded Python loop: running out of fuel is reported as a
distinguished error, never silently absorbed.
-/

namespace GT4Py

/-- Expression nodes of the iterator IR (gt4py.next.iterator.ir):
`Literal(value, type)`, `SymRef(id)`, `Lambda(params, expr)` and
`FunCall(fun, args)`.  Structural equality is value equality, as for the
frozen eve nodes. -/
inductive Expr where
  | lit (value : String) (ty : String)
  | symRef (id : String)
  | lam (params : List String) (body : Expr)
  | funCall (fn : Expr) (args : List Expr)

mutual

/-- Structural (value) equality on expression trees, Python `==` on the
eve value nodes. -/
def Expr.beq : Expr → Expr → Bool
  | .lit v t, .lit w u => v == w && t == u
  | .symRef i, .symRef j => i == j
  | .lam ps b, .lam qs c => ps == qs && Expr.beq b c
  | .funCall f a, .funCall g b => Expr.beq f g && Expr.beqList a b
  | _, _ => false

def Expr.beqList : List Expr → List Expr → Bool
  | [], [] => true
  | x :: xs, y :: ys => Expr.beq x y && Expr.beqList xs ys
  | _, _ => false

end

mutual

theorem Expr.beq_iff : ∀ a b : Expr, Expr.beq a b = true ↔ a = b
  | .lit v t, b => by
    cases b <;> simp [Expr.beq]
  | .symRef i, b => by
    cases b <;> simp [Expr.beq]
  | .lam ps c, b => by
    cases b <;> simp [Expr.beq, Expr.beq_iff c]
  | .funCall f a, b => by
    cases b <;> simp [Expr.beq, Expr.beq_iff f, Expr.beqList_iff a]

theorem Expr.beqList_iff : ∀ a b : List Expr, Expr.beqList a b = true ↔ a = b
  | [], b => by cases b <;> simp [Expr.beqList]
  | x :: xs, b => by
    cases b <;> simp [Expr.beqList, Expr.beq_iff x, Expr.beqList_iff xs]

end

instance : DecidableEq Expr := fun a b => decidable_of_iff _ (Expr.beq_iff a b)

/-- Python exceptions and the fuel-exhaustion marker of the embedding. -/
inductive Err where
  | indexError
  | valueError (msg : String)
  | keyError (key : String)
  | assertionError
  | notImplementedError
  | outOfFuel
deriving DecidableEq, Repr

/-- Result monad for the embedded Python code. -/
abbrev Res (α : Type) := Except Err α

/-- Python `lst[i]`: raises IndexError when out of range. -/
def getArg (args : List Expr) (i : Nat) : Res Expr :=
  match args.get? i with
  | some a => Except.ok a
  | none => Except.error Err.indexError

/-- Python `a, b = lst`: raises ValueError unless the list has length two. -/
def unpack2 (args : List Expr) : Res (Expr × Expr) :=
  match args with
  | [a, b] => Except.ok (a, b)
  | _ => Except.error (Err.valueError "unpack")

/-- Embeds `common_pattern_matcher.is_call_to`: the node is a FunCall whose
callee is a SymRef with id among the given names. -/
def is_call_to (n : Expr) (names : List String) : Bool :=
  match n with
  | .funCall (.symRef i) _ => names.contains i
  | _ => false

/-- Embeds `common_pattern_matcher.is_ref_to`. -/
def is_ref_to (n : Expr) (name : String) : Bool :=
  match n with
  | .symRef i => i == name
  | _ => false

def isLit (n : Expr) : Bool :=
  match n with
  | .lit _ _ => true
  | _ => false

def isSymRef (n : Expr) : Bool :=
  match n with
  | .symRef _ => true
  | _ => false

def isFunCall (n : Expr) : Bool :=
  match n with
  | .funCall _ _ => true
  | _ => false

/-- Python `isinstance(x, (ir.SymRef, ir.FunCall))`. -/
def isSymRefOrFunCall (n : Expr) : Bool :=
  isSymRef n || isFunCall n

namespace im

/-- Builder `im.call(f)(args...)`. -/
def call (f : String) (args : List Expr) : Expr :=
  .funCall (.symRef f) args

/-- Builder `im.ref`. -/
def ref (id : String) : Expr := .symRef id

/-- Builder `im.plus`. -/
def plus (a b : Expr) : Expr := call "plus" [a, b]

/-- Builder `im.minus`. -/
def minus (a b : Expr) : Expr := call "minus" [a, b]

/-- Builder `im.multiplies_`. -/
def multiplies (a b : Expr) : Expr := call "multiplies" [a, b]

/-- Builder `im.maximum`. -/
def maximum (a b : Expr) : Expr := call "maximum" [a, b]

/-- Builder `im.minimum`. -/
def minimum (a b : Expr) : Expr := call "minimum" [a, b]

/-- Builder `im.if_`. -/
def if_ (c t f : Expr) : Expr := call "if_" [c, t, f]

/-- The literal produced by `im.literal_from_value(0)`: the int default
type of gt4py is int32. -/
def literalZero : Expr := .lit "0" "int32"

end im

/-- The family of binary builtins canonicalized by ConstantFolding
(the tuple `("plus", "multiplies", "minimum", "maximum")` appearing in
`transform_canonicalize_op_funcall_symref_literal`). -/
def opFamily : List String := ["plus", "multiplies", "minimum", "maximum"]

/-- Modelled from the spec: the arithmetic builtin name set
`builtins.ARITHMETIC_BUILTINS` (the `builtins` module is not among the
sources).  The spec calls it "the arithmetic builtin set" consumed by the
rule "fold arithmetic builtins on all-literal args". -/
def ARITHMETIC_BUILTINS : List String :=
  ["plus", "minus", "multiplies", "divides", "floordiv", "mod", "neg",
   "abs", "minimum", "maximum", "power"]

def charDigitVal (c : Char) : Option Nat :=
  if c.isDigit then some (c.toNat - 48) else none

def natOfDigitsAux : List Char → Nat → Option Nat
  | [], acc => some acc
  | c :: cs, acc =>
    match charDigitVal c with
    | some d => natOfDigitsAux cs (acc * 10 + d)
    | none => none

/-- Python `int(...)` on a nonempty all-digit string. -/
def pyToNat (s : String) : Option Nat :=
  if s.data.isEmpty then none else natOfDigitsAux s.data 0

/-- Python `int(...)` allowing an optional leading minus sign. -/
def pyToInt (s : String) : Option Int :=
  match s.data with
  | [] => none
  | c :: rest =>
    if c = '-' then
      if rest.isEmpty then none
      else (natOfDigitsAux rest 0).map (fun n => -(n : Int))
    else (natOfDigitsAux s.data 0).map (fun n => (n : Int))

/-- Decodes an integer literal value string, Python `int(...)` on the
decoded scalar. -/
def decodeIntLit (e : Expr) : Option Int :=
  match e with
  | .lit v ty => if ty == "int32" || ty == "int64" then pyToInt v else none
  | _ => none

/-- Result type of an integer operation under numpy promotion: int64 wins
over int32. -/
def promoteIntType (e₁ e₂ : Expr) : String :=
  match e₁, e₂ with
  | .lit _ "int64", _ => "int64"
  | _, .lit _ "int64" => "int64"
  | _, _ => "int32"

/-- Modelled from the spec: the builtin evaluation oracle ("given an
arithmetic/logical builtin name and concrete decoded literal operand
values, returns the concrete result value or signals a numeric error").
The `embedded` module and `im.literal_from_value` are not among the
sources.  The model evaluates the integer builtins exactly and signals
an error (`none`) in every other case — in particular for floating
operands and for results that cannot be represented, matching the
ValueError the source recovers from ("happens for inf and neginf"). -/
def arithEval (name : String) (args : List Expr) : Option Expr :=
  match args with
  | [a] =>
    match decodeIntLit a with
    | some x =>
      if name == "neg" then some (.lit (toString (-x)) (promoteIntType a a))
      else if name == "abs" then some (.lit (toString (if x < 0 then -x else x)) (promoteIntType a a))
      else none
    | none => none
  | [a, b] =>
    match decodeIntLit a, decodeIntLit b with
    | some x, some y =>
      let ty := promoteIntType a b
      if name == "plus" then some (.lit (toString (x + y)) ty)
      else if name == "minus" then some (.lit (toString (x - y)) ty)
      else if name == "multiplies" then some (.lit (toString (x * y)) ty)
      else if name == "minimum" then some (.lit (toString (min x y)) ty)
      else if name == "maximum" then some (.lit (toString (max x y)) ty)
      else none
    | _, _ => none
  | _ => none

/-- Python `s.isdigit()`: nonempty and all characters decimal digits. -/
def pyIsDigit (s : String) : Bool :=
  !s.data.isEmpty && s.data.all Char.isDigit

/-- The guard `node.args[1].value.isdigit() and int(node.args[1].value) == k`
of `transform_fold_neutral_op`. -/
def isDigitValue (s : String) (k : Nat) : Bool :=
  pyIsDigit s && pyToNat s == some k

/-- Rule CANONICALIZE_OP_FUNCALL_SYMREF_LITERAL
(`transform_canonicalize_op_funcall_symref_literal`): swaps the operands
of a family call when position 0 holds a literal and position 1 does
not, or position 0 is no family call while position 1 is.  Short-circuit
evaluation of the Python condition is preserved, so `node.args[1]` is
only touched (and can only raise IndexError) on the branches that touch
it in the source. -/
def transform_canonicalize_op_funcall_symref_literal (n : Expr) : Res (Option Expr) :=
  match n with
  | .funCall fn args =>
    if is_call_to (.funCall fn args) opFamily then do
      let a0 ← getArg args 0
      if isLit a0 then do
        let a1 ← getArg args 1
        if !isLit a1 then
          pure (some (.funCall fn [a1, a0]))
        else
          pure none
      else if is_call_to a0 opFamily then
        pure none
      else do
        let a1 ← getArg args 1
        if is_call_to a1 opFamily then
          pure (some (.funCall fn [a1, a0]))
        else
          pure none
    else pure none
  | _ => pure none

/-- Rule CANONICALIZE_MINUS (`transform_canonicalize_minus`):
`a - b` becomes `a + (-b)`, re-folding the fresh `neg` subtree. -/
def transform_canonicalize_minus (fp : Expr → Res Expr) (n : Expr) : Res (Option Expr) :=
  match n with
  | .funCall _ args =>
    if is_call_to n ["minus"] then do
      let a0 ← getArg args 0
      let a1 ← getArg args 1
      let r ← fp (im.call "neg" [a1])
      pure (some (im.plus a0 r))
    else pure none
  | _ => pure none

/-- Rule CANONICALIZE_MIN_MAX (`transform_canonicalize_min_max`):
`op(a, op(...))` becomes `op(op(...), a)` when position 0 is not already
a call to the same operation. -/
def transform_canonicalize_min_max (n : Expr) : Res (Option Expr) :=
  match n with
  | .funCall (.symRef op) args =>
    if op == "maximum" || op == "minimum" then do
      let a1 ← getArg args 1
      if is_call_to a1 [op] then do
        let a0 ← getArg args 0
        if !is_call_to a0 [op] then
          pure (some (im.call op [a1, a0]))
        else pure none
      else pure none
    else pure none
  | _ => pure none

/-- Rule FOLD_FUNCALL_LITERAL (`transform_fold_funcall_literal`):
`(x + y) + lit` becomes `x + fold(y + lit)` when `x` is a SymRef or
FunCall and `y` a literal.  The tuple unpacking `fun_call, literal =
node.args` requires exactly two arguments (otherwise ValueError). -/
def transform_fold_funcall_literal (fp : Expr → Res Expr) (n : Expr) : Res (Option Expr) :=
  match n with
  | .funCall _ args =>
    if is_call_to n ["plus"] then do
      let a0 ← getArg args 0
      if is_call_to a0 ["plus"] then do
        let a1 ← getArg args 1
        if isLit a1 then do
          let p ← unpack2 args
          match p.1 with
          | .funCall _ fcArgs => do
            let f0 ← getArg fcArgs 0
            if isSymRefOrFunCall f0 then do
              let f1 ← getArg fcArgs 1
              if isLit f1 then do
                let r ← fp (im.plus f1 p.2)
                pure (some (im.plus f0 r))
              else pure none
            else pure none
          | _ => pure none
        else pure none
      else pure none
    else pure none
  | _ => pure none

/-- Rule FOLD_MIN_MAX (`transform_fold_min_max`): `op(op(a, b), c)`
collapses to `op(a, b)` when `c` occurs among the inner arguments. -/
def transform_fold_min_max (n : Expr) : Res (Option Expr) :=
  match n with
  | .funCall (.symRef op) args =>
    if op == "minimum" || op == "maximum" then do
      let a0 ← getArg args 0
      if is_call_to a0 [op] then do
        let p ← unpack2 args
        match p.1 with
        | .funCall fc fcArgs =>
          if fcArgs.contains p.2 then pure (some (.funCall fc fcArgs)) else pure none
        | _ => pure none
      else pure none
    else pure none
  | _ => pure none

/-- Rule FOLD_MIN_MAX_PLUS (`transform_fold_min_max_plus`):
`op(plus(a, k1), a)` becomes `plus(a, fold(op(k1, 0)))` and
`op(plus(a, k1), plus(a, k2))` becomes `plus(a, fold(op(k1, k2)))`. -/
def transform_fold_min_max_plus (fp : Expr → Res Expr) (n : Expr) : Res (Option Expr) :=
  match n with
  | .funCall (.symRef op) args =>
    if op == "minimum" || op == "maximum" then do
      let p ← unpack2 args
      if is_call_to p.1 ["plus"] then do
        match p.1 with
        | .funCall _ a0Args => do
          let x ← getArg a0Args 0
          if x == p.2 then do
            let k1 ← getArg a0Args 1
            let r ← fp (im.call op [k1, im.literalZero])
            pure (some (im.plus x r))
          else
            if is_call_to p.2 ["plus"] then
              match p.2 with
              | .funCall _ a1Args => do
                let y ← getArg a1Args 0
                if x == y then do
                  let k1 ← getArg a0Args 1
                  let k2 ← getArg a1Args 1
                  let r ← fp (im.call op [k1, k2])
                  pure (some (im.plus x r))
                else pure none
              | _ => pure none
            else pure none
        | _ => pure none
      else pure none
    else pure none
  | _ => pure none

/-- Rule FOLD_NEUTRAL_OP (`transform_fold_neutral_op`): `a + 0` becomes
`a` and `a * 1` becomes `a`, but only when the right-hand literal's
value string satisfies Python `str.isdigit` and decodes to 0 resp. 1. -/
def transform_fold_neutral_op (n : Expr) : Res (Option Expr) :=
  match n with
  | .funCall _ args =>
    if is_call_to n ["plus"] then do
      let a1 ← getArg args 1
      match a1 with
      | .lit v _ =>
        if isDigitValue v 0 then do
          let a0 ← getArg args 0
          pure (some a0)
        else pure none
      | _ => pure none
    else if is_call_to n ["multiplies"] then do
      let a1 ← getArg args 1
      match a1 with
      | .lit v _ =>
        if isDigitValue v 1 then do
          let a0 ← getArg args 0
          pure (some a0)
        else pure none
      | _ => pure none
    else pure none
  | _ => pure none

/-- Rule FOLD_ARITHMETIC_BUILTINS (`transform_fold_arithmetic_builtins`):
a call of an arithmetic builtin on all-literal arguments folds to the
literal the evaluation oracle produces; an oracle error is swallowed
(the Python `except ValueError: pass`) and the rule declines. -/
def transform_fold_arithmetic_builtins (n : Expr) : Res (Option Expr) :=
  match n with
  | .funCall (.symRef f) args =>
    if args.length > 0 && args.all isLit then
      if ARITHMETIC_BUILTINS.contains f then
        match arithEval f args with
        | some l => pure (some l)
        | none => pure none
      else pure none
    else pure none
  | _ => pure none

/-- Rule FOLD_MIN_MAX_LITERALS (`transform_fold_min_max_literals`):
`op(a, a)` collapses to `a`. -/
def transform_fold_min_max_literals (n : Expr) : Res (Option Expr) :=
  match n with
  | .funCall _ args =>
    if is_call_to n ["minimum", "maximum"] then do
      let a0 ← getArg args 0
      let a1 ← getArg args 1
      if a0 == a1 then pure (some a0) else pure none
    else pure none
  | _ => pure none

/-- Rule FOLD_IF (`transform_fold_if`): a conditional with a literal
condition reduces to the second argument exactly when the condition's
value string equals "True", and to the third argument otherwise. -/
def transform_fold_if (n : Expr) : Res (Option Expr) :=
  match n with
  | .funCall _ args =>
    if is_call_to n ["if_"] then do
      let a0 ← getArg args 0
      match a0 with
      | .lit v _ =>
        if v == "True" then do
          let a1 ← getArg args 1
          pure (some a1)
        else do
          let a2 ← getArg args 2
          pure (some a2)
      | _ => pure none
    else pure none
  | _ => pure none

/-- Modelled from the spec: one pass of the fixed-point engine over a
node ("the engine tries every enabled named rule in a fixed declaration
order; each rule either returns a replacement node or declines").  All
transformations are enabled, matching `Transformation.all()`.  The first
matching rule wins. -/
def tryRules (fp : Expr → Res Expr) (n : Expr) : Res (Option Expr) := do
  match ← transform_canonicalize_op_funcall_symref_literal n with
  | some r => pure (some r)
  | none =>
    match ← transform_canonicalize_minus fp n with
    | some r => pure (some r)
    | none =>
      match ← transform_canonicalize_min_max n with
      | some r => pure (some r)
      | none =>
        match ← transform_fold_funcall_literal fp n with
        | some r => pure (some r)
        | none =>
          match ← transform_fold_min_max n with
          | some r => pure (some r)
          | none =>
            match ← transform_fold_min_max_plus fp n with
            | some r => pure (some r)
            | none =>
              match ← transform_fold_neutral_op n with
              | some r => pure (some r)
              | none =>
                match ← transform_fold_arithmetic_builtins n with
                | some r => pure (some r)
                | none =>
                  match ← transform_fold_min_max_literals n with
                  | some r => pure (some r)
                  | none => transform_fold_if n

/-- Modelled from the spec: the per-node fixed-point loop of the engine
("on the first rule that matches, the node is replaced and the entire
rule list is retried from the top on the new node"; `fp_transform`).
The fuel argument bounds the number of rule applications, including the
applications the fired rules themselves request through self-application
on fresh subtrees; exhausting it yields the distinguished
`Err.outOfFuel`, never a wrong tree. -/
def fpTransform : Nat → Expr → Res Expr
  | 0, _ => Except.error Err.outOfFuel
  | f + 1, n => do
    match ← tryRules (fpTransform f) n with
    | none => pure n
    | some n₁ => fpTransform f n₁

mutual

/-- Modelled from the spec: the post-order traversal of the engine
("post-order: children fully rewritten first", then the per-node
fixed-point loop; rules fire on FunCall nodes only). -/
def visitExpr (F : Nat) : Expr → Res Expr
  | .lit v t => pure (.lit v t)
  | .symRef i => pure (.symRef i)
  | .lam ps b => do
    let b₁ ← visitExpr F b
    pure (.lam ps b₁)
  | .funCall fn args => do
    let fn₁ ← visitExpr F fn
    let args₁ ← visitArgs F args
    fpTransform F (.funCall fn₁ args₁)

def visitArgs (F : Nat) : List Expr → Res (List Expr)
  | [] => pure []
  | a :: rest => do
    let a₁ ← visitExpr F a
    let rest₁ ← visitArgs F rest
    pure (a₁ :: rest₁)

end

/-- Embeds `ConstantFolding.apply` (with the explicit fuel bound of the
fixed-point engine model). -/
def ConstantFolding.apply (F : Nat) (node : Expr) : Res Expr :=
  visitExpr F node

/-! Auxiliary lemmas about the engine. -/

/-- No expression equals `plus` of itself with something (size argument),
used to discharge the first pattern of FOLD_MIN_MAX_PLUS when analysing
the second. -/
theorem ne_plus_self (a k : Expr) : a ≠ Expr.funCall (.symRef "plus") [a, k] := by
  intro h
  have hs := congrArg sizeOf h
  simp at hs
  omega

/-- Reduction of a successful bind in the result monad. -/
theorem resBindOk {α β : Type} (a : α) (f : α → Res β) :
    (Except.ok a >>= f : Res β) = f a := rfl

/-- Reduction of a failed bind in the result monad. -/
theorem resBindErr {α β : Type} (e : Err) (f : α → Res β) :
    (Except.error e >>= f : Res β) = Except.error e := rfl

/-- Visiting a list of literal arguments reproduces it unchanged. -/
theorem visitArgs_all_lit (F : Nat) (args : List Expr) (h : args.all isLit = true) :
    visitArgs F args = .ok args := by
  induction args with
  | nil => simp [visitArgs, pure, Except.pure]
  | cons a rest ih =>
    simp only [List.all_cons, Bool.and_eq_true] at h
    obtain ⟨ha, hrest⟩ := h
    match a, ha with
    | .lit v t, _ =>
      simp [visitArgs, visitExpr, ih hrest, Except.bind]

/-! Claim C10: constant conditional folding. -/

/-- Claim C10: for every pair of expressions t and f and every literal
condition, the conditional fold of ConstantFolding selects the true
branch t exactly when the literal's value string is "True"; every other
literal condition (including the non-boolean integer literal 1) reduces
`if_(c, t, f)` to the false branch f. -/
theorem C10_fold_if_literal_condition (v ty : String) (t f : Expr) :
    (v = "True" → transform_fold_if (im.if_ (.lit v ty) t f) = .ok (some t)) ∧
    (v ≠ "True" → transform_fold_if (im.if_ (.lit v ty) t f) = .ok (some f)) := by
  refine ⟨fun h => ?_, fun h => ?_⟩ <;>
    simp [transform_fold_if, im.if_, im.call, is_call_to, getArg, h,
      List.get?, resBindOk]

/-- Witness for C10 at the literal conditions "True" and the integer
literal 1. -/
theorem C10_fold_if_literal_condition_witness :
    transform_fold_if (im.if_ (.lit "True" "bool") (.symRef "a") (.symRef "b"))
        = .ok (some (.symRef "a")) ∧
    transform_fold_if (im.if_ (.lit "1" "int32") (.symRef "a") (.symRef "b"))
        = .ok (some (.symRef "b")) :=
  ⟨(C10_fold_if_literal_condition "True" "bool" (.symRef "a") (.symRef "b")).1 rfl,
   (C10_fold_if_literal_condition "1" "int32" (.symRef "a") (.symRef "b")).2 (by decide)⟩

/-! Claim C4: neutral-element folding. -/

/-- Counterexample for C4 as stated: the float literal "0.0" has value
zero, yet `plus(a, literal "0.0")` is not rewritten to `a` — the whole
ConstantFolding pass returns the tree unchanged, because the rule guard
demands `value.isdigit()`. -/
theorem C4_counterexample_float_zero_not_stripped :
    ConstantFolding.apply 30 (im.plus (.symRef "a") (.lit "0.0" "float64"))
        = .ok (im.plus (.symRef "a") (.lit "0.0" "float64")) ∧
    im.plus (.symRef "a") (.lit "0.0" "float64") ≠ Expr.symRef "a" := by
  exact ⟨rfl, by simp [im.plus, im.call]⟩

/-- Claim C4 (amended): for every expression a, the neutral-element rule
rewrites `plus(a, lit)` to `a` exactly when the literal's value string
is all digits with numeric value 0, and `multiplies(a, lit)` to `a`
exactly when it is all digits with numeric value 1; in every other
literal case the rule declines. -/
theorem C4_fold_neutral_op_digit_guard (a : Expr) (v ty : String) :
    (isDigitValue v 0 = true →
      transform_fold_neutral_op (im.plus a (.lit v ty)) = .ok (some a)) ∧
    (isDigitValue v 0 = false →
      transform_fold_neutral_op (im.plus a (.lit v ty)) = .ok none) ∧
    (isDigitValue v 1 = true →
      transform_fold_neutral_op (im.multiplies a (.lit v ty)) = .ok (some a)) ∧
    (isDigitValue v 1 = false →
      transform_fold_neutral_op (im.multiplies a (.lit v ty)) = .ok none) := by
  refine ⟨fun h => ?_, fun h => ?_, fun h => ?_, fun h => ?_⟩ <;>
    simp [transform_fold_neutral_op, im.plus, im.multiplies, im.call, is_call_to,
      getArg, List.get?, h, resBindOk, pure, Except.pure]

/-- Witness for C4 (amended): literal "0" is stripped from a plus,
literal "0.0" is not. -/
theorem C4_fold_neutral_op_digit_guard_witness :
    transform_fold_neutral_op (im.plus (.symRef "a") (.lit "0" "int32"))
        = .ok (some (.symRef "a")) ∧
    transform_fold_neutral_op (im.plus (.symRef "a") (.lit "0.0" "float64"))
        = .ok none :=
  ⟨(C4_fold_neutral_op_digit_guard (.symRef "a") "0" "int32").1 (by decide),
   (C4_fold_neutral_op_digit_guard (.symRef "a") "0.0" "float64").2.1 (by decide)⟩

/-! Claim C5: min/max over plus folding. -/

/-- Claim C5: ConstantFolding.apply rewrites
`maximum(plus(ref "x", literal 1), ref "x")` to `plus(ref "x", literal 1)`;
and in general, for op among minimum and maximum, the FOLD_MIN_MAX_PLUS
rule rewrites `op(plus(a, k1), a)` to `plus(a, X)` with X the fixed-point
fold of `op(k1, 0)`, and `op(plus(a, k1), plus(a, k2))` to `plus(a, Y)`
with Y the fixed-point fold of `op(k1, k2)`. -/
theorem C5_fold_min_max_plus (f : Nat) (op : String) (a k1 k2 X Y : Expr)
    (hop : op = "minimum" ∨ op = "maximum")
    (hX : fpTransform f (im.call op [k1, im.literalZero]) = .ok X)
    (hY : fpTransform f (im.call op [k1, k2]) = .ok Y) :
    ConstantFolding.apply 9 (im.maximum (im.plus (im.ref "x") (.lit "1" "int32")) (im.ref "x"))
        = .ok (im.plus (im.ref "x") (.lit "1" "int32")) ∧
    transform_fold_min_max_plus (fpTransform f) (im.call op [im.plus a k1, a])
        = .ok (some (im.plus a X)) ∧
    transform_fold_min_max_plus (fpTransform f) (im.call op [im.plus a k1, im.plus a k2])
        = .ok (some (im.plus a Y)) := by
  refine ⟨rfl, ?_, ?_⟩ <;>
    rcases hop with h | h <;> subst h <;>
      simp only [im.call, im.plus] at hX hY <;>
      simp [transform_fold_min_max_plus, unpack2, is_call_to, getArg, List.get?,
        resBindOk, hX, hY, ne_plus_self a k2, Except.map, pure, Except.pure,
        im.call, im.plus]

/-- Witness for C5 with op maximum, a the reference "y", k1 the literal 1
and k2 the literal 2 (the inner folds evaluate through the oracle). -/
theorem C5_fold_min_max_plus_witness :
    fpTransform 5 (im.call "maximum" [Expr.lit "1" "int32", im.literalZero])
        = .ok (.lit "1" "int32") ∧
    fpTransform 5 (im.call "maximum" [Expr.lit "1" "int32", Expr.lit "2" "int32"])
        = .ok (.lit "2" "int32") ∧
    (ConstantFolding.apply 9 (im.maximum (im.plus (im.ref "x") (.lit "1" "int32")) (im.ref "x"))
        = .ok (im.plus (im.ref "x") (.lit "1" "int32")) ∧
     transform_fold_min_max_plus (fpTransform 5)
        (im.call "maximum" [im.plus (im.ref "y") (.lit "1" "int32"), im.ref "y"])
        = .ok (some (im.plus (im.ref "y") (.lit "1" "int32"))) ∧
     transform_fold_min_max_plus (fpTransform 5)
        (im.call "maximum" [im.plus (im.ref "y") (.lit "1" "int32"),
                            im.plus (im.ref "y") (.lit "2" "int32")])
        = .ok (some (im.plus (im.ref "y") (.lit "2" "int32")))) :=
  ⟨rfl, rfl,
   C5_fold_min_max_plus 5 "maximum" (im.ref "y") (.lit "1" "int32") (.lit "2" "int32")
     (.lit "1" "int32") (.lit "2" "int32") (Or.inr rfl) rfl rfl⟩

/-! Claim C3: arithmetic folding skipped on evaluation errors. -/

/-- Counterexample for C3 as stated: `plus(literal "inf" float64,
literal "0" int32)` is an arithmetic builtin call on all-literal
arguments whose evaluation signals an error, yet ConstantFolding does
not return the original expression unchanged — the neutral-element rule
still rewrites the node to the bare literal "inf". -/
theorem C3_counterexample_error_yet_rewritten :
    ([Expr.lit "inf" "float64", Expr.lit "0" "int32"].all isLit = true) ∧
    ARITHMETIC_BUILTINS.contains "plus" = true ∧
    arithEval "plus" [Expr.lit "inf" "float64", Expr.lit "0" "int32"] = none ∧
    ConstantFolding.apply 30 (im.plus (.lit "inf" "float64") (.lit "0" "int32"))
        = .ok (.lit "inf" "float64") ∧
    (Except.ok (Expr.lit "inf" "float64") : Res Expr)
        ≠ .ok (im.plus (.lit "inf" "float64") (.lit "0" "int32")) := by
  refine ⟨rfl, rfl, rfl, rfl, ?_⟩
  simp [im.plus, im.call]

/-- Claim C3 (amended): when the builtin of an all-literal call signals
an evaluation error, its fold is skipped (the arithmetic rule declines)
and no wrong literal is produced; when in addition the builtin is not
subject to any of the structural rules (not one of the canonicalized
family, minus, or if_), the whole pass returns the original expression
unchanged. -/
theorem C3_eval_error_skips_fold (F : Nat) (f : String) (args : List Expr)
    (hf : ARITHMETIC_BUILTINS.contains f = true)
    (hfam : opFamily.contains f = false)
    (hminus : f ≠ "minus") (hif : f ≠ "if_")
    (hne : args ≠ []) (hlit : args.all isLit = true)
    (herr : arithEval f args = none) :
    transform_fold_arithmetic_builtins (.funCall (.symRef f) args) = .ok none ∧
    ConstantFolding.apply (F + 1) (.funCall (.symRef f) args)
        = .ok (.funCall (.symRef f) args) := by
  have hlen : args.length > 0 := by
    cases args with
    | nil => simp at hne
    | cons a rest => simp
  have hfam4 : ¬("plus" = f) ∧ ¬("multiplies" = f) ∧ ¬("minimum" = f) ∧ ¬("maximum" = f) := by
    simp only [opFamily, List.contains, List.elem_eq_mem, decide_eq_false_iff_not,
      List.mem_cons, List.not_mem_nil] at hfam
    tauto
  obtain ⟨h1, h2, h3, h4⟩ := hfam4
  constructor
  · simp [transform_fold_arithmetic_builtins, hlen, hlit, hf, herr, pure, Except.pure]
  · show visitExpr (F + 1) _ = _
    rw [visitExpr]
    rw [visitArgs_all_lit _ _ hlit]
    rw [show visitExpr (F + 1) (.symRef f) = .ok (.symRef f) from rfl]
    rw [resBindOk, resBindOk]
    rw [fpTransform]
    have hrules : tryRules (fpTransform F) (.funCall (.symRef f) args) = .ok none := by
      simp [tryRules,
        transform_canonicalize_op_funcall_symref_literal,
        transform_canonicalize_minus,
        transform_canonicalize_min_max,
        transform_fold_funcall_literal,
        transform_fold_min_max,
        transform_fold_min_max_plus,
        transform_fold_neutral_op,
        transform_fold_arithmetic_builtins,
        transform_fold_min_max_literals,
        transform_fold_if,
        is_call_to, opFamily, hlen, hlit, hf, herr, resBindOk, pure, Except.pure,
        Ne.symm h1, Ne.symm h2, Ne.symm h3, Ne.symm h4, hminus, hif]
    rw [hrules]
    rfl

/-- Witness for C3 (amended) at `divides(literal "1.0" float64,
literal "0.0" float64)`: a division whose evaluation signals a numeric
error is left completely unfolded. -/
theorem C3_eval_error_skips_fold_witness :
    transform_fold_arithmetic_builtins
        (.funCall (.symRef "divides") [.lit "1.0" "float64", .lit "0.0" "float64"]) = .ok none ∧
    ConstantFolding.apply 10
        (.funCall (.symRef "divides") [.lit "1.0" "float64", .lit "0.0" "float64"])
        = .ok (.funCall (.symRef "divides") [.lit "1.0" "float64", .lit "0.0" "float64"]) :=
  C3_eval_error_skips_fold 9 "divides" [.lit "1.0" "float64", .lit "0.0" "float64"]
    rfl rfl (by decide) (by decide) (by simp) rfl rfl


/-! Normal forms of the fixed-point engine (for the idempotence claim). -/

/-- An expression on which every rule declines, whatever self-application
function the engine supplies to the rules. -/
def declines (n : Expr) : Prop :=
  ∀ fp : Expr → Res Expr, tryRules fp n = .ok none

/-- Normal forms: every sub-node is normal and (for FunCall nodes) the
whole rule list declines. -/
inductive NF : Expr → Prop where
  | lit : ∀ v t, NF (.lit v t)
  | symRef : ∀ i, NF (.symRef i)
  | lam : ∀ ps b, NF b → NF (.lam ps b)
  | funCall : ∀ fn args, NF fn → (∀ a ∈ args, NF a) →
      declines (.funCall fn args) → NF (.funCall fn args)

/-- Component normality: the invariant of the per-node loop — the callee
and the arguments are normal (the node itself may still be rewritable). -/
def compNF : Expr → Prop
  | .funCall fn args => NF fn ∧ ∀ a ∈ args, NF a
  | e => NF e

theorem NF.compNF {n : Expr} (h : NF n) : compNF n := by
  cases h with
  | funCall fn args hfn hargs hd => exact ⟨hfn, hargs⟩
  | lit v t => exact NF.lit v t
  | symRef i => exact NF.symRef i
  | lam ps b hb => exact NF.lam ps b hb

theorem getArg_mem {args : List Expr} {i : Nat} {a : Expr}
    (h : getArg args i = .ok a) : a ∈ args := by
  unfold getArg at h
  cases hg : args.get? i with
  | none => rw [hg] at h; exact absurd h (by simp)
  | some b =>
    rw [hg] at h
    cases h
    exact List.get?_mem hg

theorem unpack2_eq {args : List Expr} {p : Expr × Expr}
    (h : unpack2 args = .ok p) : args = [p.1, p.2] := by
  unfold unpack2 at h
  match args, h with
  | [a, b], h => cases h; rfl

theorem NF_of_isLit {l : Expr} (h : isLit l = true) : NF l := by
  cases l with
  | lit v t => exact NF.lit v t
  | symRef i => simp [isLit] at h
  | lam ps b => simp [isLit] at h
  | funCall fn args => simp [isLit] at h

theorem arithEval_isLit {f : String} {args : List Expr} {l : Expr}
    (h : arithEval f args = some l) : isLit l = true := by
  unfold arithEval at h
  repeat' split at h
  all_goals simp_all [isLit]
  all_goals (cases h; rfl)

/-- A bind that produces a declining result must have succeeded. -/
theorem bind_eq_ok_none {α : Type} {x : Res α} {g : α → Res (Option Expr)}
    (h : (x >>= g) = .ok none) : ∃ a, x = .ok a ∧ g a = .ok none := by
  cases x with
  | error e => rw [resBindErr] at h; exact absurd h (by simp)
  | ok a => exact ⟨a, rfl, by rwa [resBindOk] at h⟩

/-- Declining is independent of the self-application function for
CANONICALIZE_MINUS: a decline happens before the rule ever invokes it. -/
theorem canonMinus_none_transfer (fp fp' : Expr → Res Expr) {n : Expr}
    (h : transform_canonicalize_minus fp n = .ok none) :
    transform_canonicalize_minus fp' n = .ok none := by
  cases n with
  | lit v t => exact h
  | symRef i => exact h
  | lam ps b => exact h
  | funCall fn args =>
    unfold transform_canonicalize_minus at h ⊢
    by_cases hg : is_call_to (Expr.funCall fn args) ["minus"] = true
    case neg => simp only [Bool.not_eq_true] at hg; simp [hg, pure, Except.pure]
    simp only [hg, if_true] at h ⊢
    obtain ⟨a0, ha0, h⟩ := bind_eq_ok_none h
    obtain ⟨a1, ha1, h⟩ := bind_eq_ok_none h
    obtain ⟨r, hr, h⟩ := bind_eq_ok_none h
    exact absurd h (by simp [pure, Except.pure])


/-- Declining is independent of the self-application function for
FOLD_FUNCALL_LITERAL. -/
theorem foldFuncallLit_none_transfer (fp fp' : Expr → Res Expr) {n : Expr}
    (h : transform_fold_funcall_literal fp n = .ok none) :
    transform_fold_funcall_literal fp' n = .ok none := by
  cases n with
  | lit v t => exact h
  | symRef i => exact h
  | lam ps b => exact h
  | funCall fn args =>
    unfold transform_fold_funcall_literal at h ⊢
    by_cases hg : is_call_to (Expr.funCall fn args) ["plus"] = true
    case neg => simp only [Bool.not_eq_true] at hg; simp [hg, pure, Except.pure]
    simp only [hg, if_true] at h ⊢
    obtain ⟨a0, ha0, h⟩ := bind_eq_ok_none h
    rw [ha0, resBindOk]
    by_cases h0 : is_call_to a0 ["plus"] = true
    case neg => simp only [Bool.not_eq_true] at h0; simp [h0, pure, Except.pure]
    simp only [h0, if_true] at h ⊢
    obtain ⟨a1, ha1, h⟩ := bind_eq_ok_none h
    rw [ha1, resBindOk]
    by_cases h1 : isLit a1 = true
    case neg => simp only [Bool.not_eq_true] at h1; simp [h1, pure, Except.pure]
    simp only [h1, if_true] at h ⊢
    obtain ⟨p, hp, h⟩ := bind_eq_ok_none h
    rw [hp, resBindOk]
    obtain ⟨p1, p2⟩ := p
    cases p1 with
    | funCall fn2 fcArgs =>
      dsimp only at h ⊢
      obtain ⟨f0, hf0, h⟩ := bind_eq_ok_none h
      rw [hf0, resBindOk]
      by_cases h2 : isSymRefOrFunCall f0 = true
      case neg => simp only [Bool.not_eq_true] at h2; simp [h2, pure, Except.pure]
      simp only [h2, if_true] at h ⊢
      obtain ⟨f1, hf1, h⟩ := bind_eq_ok_none h
      rw [hf1, resBindOk]
      by_cases h3 : isLit f1 = true
      case neg => simp only [Bool.not_eq_true] at h3; simp [h3, pure, Except.pure]
      simp only [h3, if_true] at h
      obtain ⟨r, hr, h⟩ := bind_eq_ok_none h
      exact absurd h (by simp [pure, Except.pure])
    | lit v t => exact h
    | symRef i => exact h
    | lam ps b => exact h

/-- Declining is independent of the self-application function for
FOLD_MIN_MAX_PLUS. -/
theorem foldMinMaxPlus_none_transfer (fp fp' : Expr → Res Expr) {n : Expr}
    (h : transform_fold_min_max_plus fp n = .ok none) :
    transform_fold_min_max_plus fp' n = .ok none := by
  cases n with
  | lit v t => exact h
  | symRef i => exact h
  | lam ps b => exact h
  | funCall fn args =>
    cases fn with
    | symRef op =>
      unfold transform_fold_min_max_plus at h ⊢
      by_cases hg : (op == "minimum" || op == "maximum") = true
      case neg => simp only [Bool.not_eq_true] at hg; simp [hg, pure, Except.pure]
      simp only [hg, if_true] at h ⊢
      obtain ⟨p, hp, h⟩ := bind_eq_ok_none h
      rw [hp, resBindOk]
      obtain ⟨p1, p2⟩ := p
      by_cases h0 : is_call_to p1 ["plus"] = true
      case neg => simp only [Bool.not_eq_true] at h0; simp [h0, pure, Except.pure]
      simp only [h0, if_true] at h ⊢
      cases p1 with
      | funCall fn2 a0Args =>
        dsimp only at h ⊢
        obtain ⟨x, hx, h⟩ := bind_eq_ok_none h
        rw [hx, resBindOk]
        by_cases hxy : (x == p2) = true
        · exfalso
          simp only [hxy, if_true] at h
          obtain ⟨k1, hk1, h⟩ := bind_eq_ok_none h
          obtain ⟨r, hr, h⟩ := bind_eq_ok_none h
          exact absurd h (by simp [pure, Except.pure])
        · simp only [Bool.not_eq_true] at hxy
          simp only [hxy, Bool.false_eq_true, if_false] at h ⊢
          by_cases h2 : is_call_to p2 ["plus"] = true
          case neg => simp only [Bool.not_eq_true] at h2; simp [h2, pure, Except.pure]
          simp only [h2, if_true] at h ⊢
          cases p2 with
          | funCall fn3 a1Args =>
            dsimp only at h ⊢
            obtain ⟨y, hy, h⟩ := bind_eq_ok_none h
            rw [hy, resBindOk]
            by_cases hxy2 : (x == y) = true
            · exfalso
              simp only [hxy2, if_true] at h
              obtain ⟨k1, hk1, h⟩ := bind_eq_ok_none h
              obtain ⟨k2, hk2, h⟩ := bind_eq_ok_none h
              obtain ⟨r, hr, h⟩ := bind_eq_ok_none h
              exact absurd h (by simp [pure, Except.pure])
            · simp only [Bool.not_eq_true] at hxy2
              simp [hxy2, pure, Except.pure]
          | lit v t => exact h
          | symRef i => exact h
          | lam ps b => exact h
      | lit v t => exact h
      | symRef i => exact h
      | lam ps b => exact h
    | lit v t => exact h
    | funCall f2 a2 => exact h
    | lam ps b => exact h



/-- Declining of the whole rule list is independent of the
self-application function supplied to the rules. -/
theorem tryRules_none_transfer (fp fp' : Expr → Res Expr) {n : Expr}
    (h : tryRules fp n = .ok none) : tryRules fp' n = .ok none := by
  unfold tryRules at h ⊢
  cases h1 : transform_canonicalize_op_funcall_symref_literal n with
  | error e => rw [h1, resBindErr] at h; exact absurd h (by simp)
  | ok o =>
    rw [h1, resBindOk] at h
    rw [resBindOk]
    cases o with
    | some r => exact absurd h (by simp [pure, Except.pure])
    | none =>
      dsimp only at h ⊢
      cases h2 : transform_canonicalize_minus fp n with
      | error e => rw [h2, resBindErr] at h; exact absurd h (by simp)
      | ok o =>
        rw [h2, resBindOk] at h
        cases o with
        | some r => exact absurd h (by simp [pure, Except.pure])
        | none =>
          rw [canonMinus_none_transfer fp fp' h2, resBindOk]
          dsimp only at h ⊢
          cases h3 : transform_canonicalize_min_max n with
          | error e => rw [h3, resBindErr] at h; exact absurd h (by simp)
          | ok o =>
            rw [h3, resBindOk] at h
            rw [resBindOk]
            cases o with
            | some r => exact absurd h (by simp [pure, Except.pure])
            | none =>
              dsimp only at h ⊢
              cases h4 : transform_fold_funcall_literal fp n with
              | error e => rw [h4, resBindErr] at h; exact absurd h (by simp)
              | ok o =>
                rw [h4, resBindOk] at h
                cases o with
                | some r => exact absurd h (by simp [pure, Except.pure])
                | none =>
                  rw [foldFuncallLit_none_transfer fp fp' h4, resBindOk]
                  dsimp only at h ⊢
                  cases h5 : transform_fold_min_max n with
                  | error e => rw [h5, resBindErr] at h; exact absurd h (by simp)
                  | ok o =>
                    rw [h5, resBindOk] at h
                    rw [resBindOk]
                    cases o with
                    | some r => exact absurd h (by simp [pure, Except.pure])
                    | none =>
                      dsimp only at h ⊢
                      cases h6 : transform_fold_min_max_plus fp n with
                      | error e => rw [h6, resBindErr] at h; exact absurd h (by simp)
                      | ok o =>
                        rw [h6, resBindOk] at h
                        cases o with
                        | some r => exact absurd h (by simp [pure, Except.pure])
                        | none =>
                          rw [foldMinMaxPlus_none_transfer fp fp' h6, resBindOk]
                          dsimp only at h ⊢
                          cases h7 : transform_fold_neutral_op n with
                          | error e => rw [h7, resBindErr] at h; exact absurd h (by simp)
                          | ok o =>
                            rw [h7, resBindOk] at h
                            rw [resBindOk]
                            cases o with
                            | some r => exact absurd h (by simp [pure, Except.pure])
                            | none =>
                              dsimp only at h ⊢
                              cases h8 : transform_fold_arithmetic_builtins n with
                              | error e => rw [h8, resBindErr] at h; exact absurd h (by simp)
                              | ok o =>
                                rw [h8, resBindOk] at h
                                rw [resBindOk]
                                cases o with
                                | some r => exact absurd h (by simp [pure, Except.pure])
                                | none =>
                                  dsimp only at h ⊢
                                  cases h9 : transform_fold_min_max_literals n with
                                  | error e => rw [h9, resBindErr] at h; exact absurd h (by simp)
                                  | ok o =>
                                    rw [h9, resBindOk] at h
                                    rw [resBindOk]
                                    cases o with
                                    | some r => exact absurd h (by simp [pure, Except.pure])
                                    | none =>
                                      dsimp only at h ⊢
                                      exact h


/-- A bind that produces any successful result must have succeeded. -/
theorem bind_eq_ok {α β : Type} {x : Res α} {g : α → Res β} {b : β}
    (h : (x >>= g) = .ok b) : ∃ a, x = .ok a ∧ g a = .ok b := by
  cases x with
  | error e => rw [resBindErr] at h; exact absurd h (by simp)
  | ok a => exact ⟨a, rfl, by rwa [resBindOk] at h⟩

theorem compNF_call1 {fn a : Expr} (h1 : NF fn) (h2 : NF a) :
    compNF (.funCall fn [a]) := by
  refine ⟨h1, fun x hx => ?_⟩
  rcases List.mem_cons.mp hx with rfl | hx
  · exact h2
  exact absurd hx (List.not_mem_nil x)

theorem compNF_call2 {fn a b : Expr} (h1 : NF fn) (h2 : NF a) (h3 : NF b) :
    compNF (.funCall fn [a, b]) := by
  refine ⟨h1, fun x hx => ?_⟩
  rcases List.mem_cons.mp hx with rfl | hx
  · exact h2
  rcases List.mem_cons.mp hx with rfl | hx
  · exact h3
  exact absurd hx (List.not_mem_nil x)

theorem NF.funCall_inv {fn : Expr} {args : List Expr} (h : NF (.funCall fn args)) :
    NF fn ∧ (∀ a ∈ args, NF a) ∧ declines (.funCall fn args) := by
  cases h with
  | funCall _ _ h1 h2 h3 => exact ⟨h1, h2, h3⟩

/-- CANONICALIZE_OP_FUNCALL_SYMREF_LITERAL preserves component
normality: the swapped node is built from normal pieces. -/
theorem canonOp_preserve {n n' : Expr} (hc : compNF n)
    (h : transform_canonicalize_op_funcall_symref_literal n = .ok (some n')) :
    compNF n' := by
  cases n with
  | lit v t => simp [transform_canonicalize_op_funcall_symref_literal, pure, Except.pure] at h
  | symRef i => simp [transform_canonicalize_op_funcall_symref_literal, pure, Except.pure] at h
  | lam ps b => simp [transform_canonicalize_op_funcall_symref_literal, pure, Except.pure] at h
  | funCall fn args =>
    obtain ⟨hfn, hargs⟩ := hc
    unfold transform_canonicalize_op_funcall_symref_literal at h
    by_cases hg : is_call_to (Expr.funCall fn args) opFamily = true
    case neg => simp only [Bool.not_eq_true] at hg; simp [hg, pure, Except.pure] at h
    simp only [hg, if_true] at h
    obtain ⟨a0, ha0, h⟩ := bind_eq_ok h
    have hNa0 : NF a0 := hargs _ (getArg_mem ha0)
    by_cases hl0 : isLit a0 = true
    · simp only [hl0, if_true] at h
      obtain ⟨a1, ha1, h⟩ := bind_eq_ok h
      have hNa1 : NF a1 := hargs _ (getArg_mem ha1)
      by_cases hl1 : (!isLit a1) = true
      · simp only [hl1, if_true, pure, Except.pure, Except.ok.injEq, Option.some.injEq] at h
        subst h
        exact compNF_call2 hfn hNa1 hNa0
      · simp [hl1, pure, Except.pure] at h
    · simp only [hl0, Bool.false_eq_true, if_false] at h
      by_cases hc0 : is_call_to a0 opFamily = true
      · simp [hc0, pure, Except.pure] at h
      · simp only [hc0, Bool.false_eq_true, if_false] at h
        obtain ⟨a1, ha1, h⟩ := bind_eq_ok h
        have hNa1 : NF a1 := hargs _ (getArg_mem ha1)
        by_cases hc1 : is_call_to a1 opFamily = true
        · simp only [hc1, if_true, pure, Except.pure, Except.ok.injEq, Option.some.injEq] at h
          subst h
          exact compNF_call2 hfn hNa1 hNa0
        · simp [hc1, pure, Except.pure] at h

/-- CANONICALIZE_MINUS preserves component normality: the constructed
plus node pairs a normal argument with a self-applied (hence normal)
neg subtree. -/
theorem canonMinus_preserve {fp : Expr → Res Expr}
    (Hfp : ∀ m r, compNF m → fp m = .ok r → NF r) {n n' : Expr} (hc : compNF n)
    (h : transform_canonicalize_minus fp n = .ok (some n')) :
    compNF n' := by
  cases n with
  | lit v t => simp [transform_canonicalize_minus, pure, Except.pure] at h
  | symRef i => simp [transform_canonicalize_minus, pure, Except.pure] at h
  | lam ps b => simp [transform_canonicalize_minus, pure, Except.pure] at h
  | funCall fn args =>
    obtain ⟨hfn, hargs⟩ := hc
    unfold transform_canonicalize_minus at h
    by_cases hg : is_call_to (Expr.funCall fn args) ["minus"] = true
    case neg => simp only [Bool.not_eq_true] at hg; simp [hg, pure, Except.pure] at h
    simp only [hg, if_true] at h
    obtain ⟨a0, ha0, h⟩ := bind_eq_ok h
    obtain ⟨a1, ha1, h⟩ := bind_eq_ok h
    obtain ⟨r, hr, h⟩ := bind_eq_ok h
    have hNr : NF r :=
      Hfp _ _ (compNF_call1 (NF.symRef "neg") (hargs _ (getArg_mem ha1))) hr
    simp only [pure, Except.pure, im.plus, im.call, Except.ok.injEq, Option.some.injEq] at h
    subst h
    exact compNF_call2 (NF.symRef "plus") (hargs _ (getArg_mem ha0)) hNr

/-- CANONICALIZE_MIN_MAX preserves component normality. -/
theorem canonMinMax_preserve {n n' : Expr} (hc : compNF n)
    (h : transform_canonicalize_min_max n = .ok (some n')) :
    compNF n' := by
  cases n with
  | lit v t => simp [transform_canonicalize_min_max, pure, Except.pure] at h
  | symRef i => simp [transform_canonicalize_min_max, pure, Except.pure] at h
  | lam ps b => simp [transform_canonicalize_min_max, pure, Except.pure] at h
  | funCall fn args =>
    obtain ⟨hfn, hargs⟩ := hc
    cases fn with
    | symRef op =>
      unfold transform_canonicalize_min_max at h
      by_cases hg : (op == "maximum" || op == "minimum") = true
      case neg => simp only [Bool.not_eq_true] at hg; simp [hg, pure, Except.pure] at h
      simp only [hg, if_true] at h
      obtain ⟨a1, ha1, h⟩ := bind_eq_ok h
      have hNa1 : NF a1 := hargs _ (getArg_mem ha1)
      by_cases hc1 : is_call_to a1 [op] = true
      case neg => simp only [Bool.not_eq_true] at hc1; simp [hc1, pure, Except.pure] at h
      simp only [hc1, if_true] at h
      obtain ⟨a0, ha0, h⟩ := bind_eq_ok h
      have hNa0 : NF a0 := hargs _ (getArg_mem ha0)
      by_cases hc0 : (!is_call_to a0 [op]) = true
      case neg => simp only [Bool.not_eq_true] at hc0; simp [hc0, pure, Except.pure] at h
      simp only [hc0, if_true, pure, Except.pure, im.call,
        Except.ok.injEq, Option.some.injEq] at h
      subst h
      exact compNF_call2 (NF.symRef op) hNa1 hNa0
    | lit v t => simp [transform_canonicalize_min_max, pure, Except.pure] at h
    | lam ps b => simp [transform_canonicalize_min_max, pure, Except.pure] at h
    | funCall f2 a2 => simp [transform_canonicalize_min_max, pure, Except.pure] at h


/-- FOLD_FUNCALL_LITERAL preserves component normality. -/
theorem foldFuncallLit_preserve {fp : Expr → Res Expr}
    (Hfp : ∀ m r, compNF m → fp m = .ok r → NF r) {n n' : Expr} (hc : compNF n)
    (h : transform_fold_funcall_literal fp n = .ok (some n')) :
    compNF n' := by
  cases n with
  | lit v t => simp [transform_fold_funcall_literal, pure, Except.pure] at h
  | symRef i => simp [transform_fold_funcall_literal, pure, Except.pure] at h
  | lam ps b => simp [transform_fold_funcall_literal, pure, Except.pure] at h
  | funCall fn args =>
    obtain ⟨hfn, hargs⟩ := hc
    unfold transform_fold_funcall_literal at h
    by_cases hg : is_call_to (Expr.funCall fn args) ["plus"] = true
    case neg => simp only [Bool.not_eq_true] at hg; simp [hg, pure, Except.pure] at h
    simp only [hg, if_true] at h
    obtain ⟨a0, ha0, h⟩ := bind_eq_ok h
    by_cases h0 : is_call_to a0 ["plus"] = true
    case neg => simp only [Bool.not_eq_true] at h0; simp [h0, pure, Except.pure] at h
    simp only [h0, if_true] at h
    obtain ⟨a1, ha1, h⟩ := bind_eq_ok h
    by_cases h1 : isLit a1 = true
    case neg => simp only [Bool.not_eq_true] at h1; simp [h1, pure, Except.pure] at h
    simp only [h1, if_true] at h
    obtain ⟨p, hp, h⟩ := bind_eq_ok h
    have hmem := unpack2_eq hp
    obtain ⟨p1, p2⟩ := p
    simp only at hmem
    have hNp1 : NF p1 := hargs _ (by rw [hmem]; exact List.mem_cons_self _ _)
    have hNp2 : NF p2 := hargs _ (by rw [hmem]; exact List.mem_cons_of_mem _ (List.mem_cons_self _ _))
    cases p1 with
    | funCall fn2 fcArgs =>
      dsimp only at h
      obtain ⟨hNfn2, hfc, _⟩ := hNp1.funCall_inv
      obtain ⟨f0, hf0, h⟩ := bind_eq_ok h
      have hNf0 : NF f0 := hfc _ (getArg_mem hf0)
      by_cases h2 : isSymRefOrFunCall f0 = true
      case neg => simp only [Bool.not_eq_true] at h2; simp [h2, pure, Except.pure] at h
      simp only [h2, if_true] at h
      obtain ⟨f1, hf1, h⟩ := bind_eq_ok h
      have hNf1 : NF f1 := hfc _ (getArg_mem hf1)
      by_cases h3 : isLit f1 = true
      case neg => simp only [Bool.not_eq_true] at h3; simp [h3, pure, Except.pure] at h
      simp only [h3, if_true] at h
      obtain ⟨r, hr, h⟩ := bind_eq_ok h
      have hNr : NF r :=
        Hfp _ _ (compNF_call2 (NF.symRef "plus") hNf1 hNp2) hr
      simp only [pure, Except.pure, im.plus, im.call, Except.ok.injEq, Option.some.injEq] at h
      subst h
      exact compNF_call2 (NF.symRef "plus") hNf0 hNr
    | lit v t => simp [pure, Except.pure] at h
    | symRef i => simp [pure, Except.pure] at h
    | lam ps b => simp [pure, Except.pure] at h

/-- FOLD_MIN_MAX preserves component normality: the collapsed node is a
normal subtree of the input. -/
theorem foldMinMax_preserve {n n' : Expr} (hc : compNF n)
    (h : transform_fold_min_max n = .ok (some n')) :
    compNF n' := by
  cases n with
  | lit v t => simp [transform_fold_min_max, pure, Except.pure] at h
  | symRef i => simp [transform_fold_min_max, pure, Except.pure] at h
  | lam ps b => simp [transform_fold_min_max, pure, Except.pure] at h
  | funCall fn args =>
    obtain ⟨hfn, hargs⟩ := hc
    cases fn with
    | symRef op =>
      unfold transform_fold_min_max at h
      by_cases hg : (op == "minimum" || op == "maximum") = true
      case neg => simp only [Bool.not_eq_true] at hg; simp [hg, pure, Except.pure] at h
      simp only [hg, if_true] at h
      obtain ⟨a0, ha0, h⟩ := bind_eq_ok h
      by_cases h0 : is_call_to a0 [op] = true
      case neg => simp only [Bool.not_eq_true] at h0; simp [h0, pure, Except.pure] at h
      simp only [h0, if_true] at h
      obtain ⟨p, hp, h⟩ := bind_eq_ok h
      have hmem := unpack2_eq hp
      obtain ⟨p1, p2⟩ := p
      simp only at hmem
      have hNp1 : NF p1 := hargs _ (by rw [hmem]; exact List.mem_cons_self _ _)
      cases p1 with
      | funCall fc fcArgs =>
        dsimp only at h
        by_cases hm : fcArgs.contains p2 = true
        case neg => simp at hm; simp [hm, pure, Except.pure] at h
        simp only [hm, if_true, pure, Except.pure, Except.ok.injEq, Option.some.injEq] at h
        subst h
        exact hNp1.compNF
      | lit v t => simp [pure, Except.pure] at h
      | symRef i => simp [pure, Except.pure] at h
      | lam ps b => simp [pure, Except.pure] at h
    | lit v t => simp [transform_fold_min_max, pure, Except.pure] at h
    | lam ps b => simp [transform_fold_min_max, pure, Except.pure] at h
    | funCall f2 a2 => simp [transform_fold_min_max, pure, Except.pure] at h

/-- FOLD_MIN_MAX_PLUS preserves component normality. -/
theorem foldMinMaxPlus_preserve {fp : Expr → Res Expr}
    (Hfp : ∀ m r, compNF m → fp m = .ok r → NF r) {n n' : Expr} (hc : compNF n)
    (h : transform_fold_min_max_plus fp n = .ok (some n')) :
    compNF n' := by
  cases n with
  | lit v t => simp [transform_fold_min_max_plus, pure, Except.pure] at h
  | symRef i => simp [transform_fold_min_max_plus, pure, Except.pure] at h
  | lam ps b => simp [transform_fold_min_max_plus, pure, Except.pure] at h
  | funCall fn args =>
    obtain ⟨hfn, hargs⟩ := hc
    cases fn with
    | symRef op =>
      unfold transform_fold_min_max_plus at h
      by_cases hg : (op == "minimum" || op == "maximum") = true
      case neg => simp only [Bool.not_eq_true] at hg; simp [hg, pure, Except.pure] at h
      simp only [hg, if_true] at h
      obtain ⟨p, hp, h⟩ := bind_eq_ok h
      have hmem := unpack2_eq hp
      obtain ⟨p1, p2⟩ := p
      simp only at hmem
      have hNp1 : NF p1 := hargs _ (by rw [hmem]; exact List.mem_cons_self _ _)
      have hNp2 : NF p2 := hargs _ (by rw [hmem]; exact List.mem_cons_of_mem _ (List.mem_cons_self _ _))
      by_cases h0 : is_call_to p1 ["plus"] = true
      case neg => simp only [Bool.not_eq_true] at h0; simp [h0, pure, Except.pure] at h
      simp only [h0, if_true] at h
      cases p1 with
      | funCall fn2 a0Args =>
        dsimp only at h
        obtain ⟨hNfn2, hA0, _⟩ := hNp1.funCall_inv
        obtain ⟨x, hx, h⟩ := bind_eq_ok h
        have hNx : NF x := hA0 _ (getArg_mem hx)
        by_cases hxy : (x == p2) = true
        · simp only [hxy, if_true] at h
          obtain ⟨k1, hk1, h⟩ := bind_eq_ok h
          have hNk1 : NF k1 := hA0 _ (getArg_mem hk1)
          obtain ⟨r, hr, h⟩ := bind_eq_ok h
          have hNr : NF r := Hfp _ _
            (compNF_call2 (NF.symRef op) hNk1 (NF.lit "0" "int32")) hr
          simp only [pure, Except.pure, im.plus, im.call,
            Except.ok.injEq, Option.some.injEq] at h
          subst h
          exact compNF_call2 (NF.symRef "plus") hNx hNr
        · simp only [Bool.not_eq_true] at hxy
          simp only [hxy, Bool.false_eq_true, if_false] at h
          by_cases h2 : is_call_to p2 ["plus"] = true
          case neg => simp only [Bool.not_eq_true] at h2; simp [h2, pure, Except.pure] at h
          simp only [h2, if_true] at h
          cases p2 with
          | funCall fn3 a1Args =>
            dsimp only at h
            obtain ⟨hNfn3, hA1, _⟩ := hNp2.funCall_inv
            obtain ⟨y, hy, h⟩ := bind_eq_ok h
            by_cases hxy2 : (x == y) = true
            · simp only [hxy2, if_true] at h
              obtain ⟨k1, hk1, h⟩ := bind_eq_ok h
              have hNk1 : NF k1 := hA0 _ (getArg_mem hk1)
              obtain ⟨k2, hk2, h⟩ := bind_eq_ok h
              have hNk2 : NF k2 := hA1 _ (getArg_mem hk2)
              obtain ⟨r, hr, h⟩ := bind_eq_ok h
              have hNr : NF r := Hfp _ _
                (compNF_call2 (NF.symRef op) hNk1 hNk2) hr
              simp only [pure, Except.pure, im.plus, im.call,
                Except.ok.injEq, Option.some.injEq] at h
              subst h
              exact compNF_call2 (NF.symRef "plus") hNx hNr
            · simp only [Bool.not_eq_true] at hxy2
              simp [hxy2, pure, Except.pure] at h
          | lit v t => simp [pure, Except.pure] at h
          | symRef i => simp [pure, Except.pure] at h
          | lam ps b => simp [pure, Except.pure] at h
      | lit v t => simp [pure, Except.pure] at h
      | symRef i => simp [pure, Except.pure] at h
      | lam ps b => simp [pure, Except.pure] at h
    | lit v t => simp [transform_fold_min_max_plus, pure, Except.pure] at h
    | lam ps b => simp [transform_fold_min_max_plus, pure, Except.pure] at h
    | funCall f2 a2 => simp [transform_fold_min_max_plus, pure, Except.pure] at h


/-- FOLD_NEUTRAL_OP preserves component normality. -/
theorem foldNeutral_preserve {n n' : Expr} (hc : compNF n)
    (h : transform_fold_neutral_op n = .ok (some n')) :
    compNF n' := by
  cases n with
  | lit v t => simp [transform_fold_neutral_op, pure, Except.pure] at h
  | symRef i => simp [transform_fold_neutral_op, pure, Except.pure] at h
  | lam ps b => simp [transform_fold_neutral_op, pure, Except.pure] at h
  | funCall fn args =>
    obtain ⟨hfn, hargs⟩ := hc
    unfold transform_fold_neutral_op at h
    by_cases hg : is_call_to (Expr.funCall fn args) ["plus"] = true
    · simp only [hg, if_true] at h
      obtain ⟨a1, ha1, h⟩ := bind_eq_ok h
      cases a1 with
      | lit v t =>
        dsimp only at h
        by_cases hd : isDigitValue v 0 = true
        case neg => simp only [Bool.not_eq_true] at hd; simp [hd, pure, Except.pure] at h
        simp only [hd, if_true] at h
        obtain ⟨a0, ha0, h⟩ := bind_eq_ok h
        simp only [pure, Except.pure, Except.ok.injEq, Option.some.injEq] at h
        subst h
        exact (hargs _ (getArg_mem ha0)).compNF
      | symRef i => simp [pure, Except.pure] at h
      | lam ps b => simp [pure, Except.pure] at h
      | funCall f2 a2 => simp [pure, Except.pure] at h
    · simp only [Bool.not_eq_true] at hg
      simp only [hg, Bool.false_eq_true, if_false] at h
      by_cases hm : is_call_to (Expr.funCall fn args) ["multiplies"] = true
      case neg => simp only [Bool.not_eq_true] at hm; simp [hm, pure, Except.pure] at h
      simp only [hm, if_true] at h
      obtain ⟨a1, ha1, h⟩ := bind_eq_ok h
      cases a1 with
      | lit v t =>
        dsimp only at h
        by_cases hd : isDigitValue v 1 = true
        case neg => simp only [Bool.not_eq_true] at hd; simp [hd, pure, Except.pure] at h
        simp only [hd, if_true] at h
        obtain ⟨a0, ha0, h⟩ := bind_eq_ok h
        simp only [pure, Except.pure, Except.ok.injEq, Option.some.injEq] at h
        subst h
        exact (hargs _ (getArg_mem ha0)).compNF
      | symRef i => simp [pure, Except.pure] at h
      | lam ps b => simp [pure, Except.pure] at h
      | funCall f2 a2 => simp [pure, Except.pure] at h

/-- FOLD_ARITHMETIC_BUILTINS preserves component normality: the oracle
produces a literal. -/
theorem foldArith_preserve {n n' : Expr}
    (h : transform_fold_arithmetic_builtins n = .ok (some n')) :
    compNF n' := by
  cases n with
  | lit v t => simp [transform_fold_arithmetic_builtins, pure, Except.pure] at h
  | symRef i => simp [transform_fold_arithmetic_builtins, pure, Except.pure] at h
  | lam ps b => simp [transform_fold_arithmetic_builtins, pure, Except.pure] at h
  | funCall fn args =>
    cases fn with
    | symRef f =>
      unfold transform_fold_arithmetic_builtins at h
      by_cases hg : (args.length > 0 && args.all isLit) = true
      case neg => simp only [Bool.not_eq_true] at hg; simp [hg, pure, Except.pure] at h
      simp only [hg, if_true] at h
      by_cases hf : ARITHMETIC_BUILTINS.contains f = true
      case neg => simp at hf; simp [hf, pure, Except.pure] at h
      simp only [hf, if_true] at h
      cases he : arithEval f args with
      | none => rw [he] at h; simp [pure, Except.pure] at h
      | some l =>
        rw [he] at h
        simp only [pure, Except.pure, Except.ok.injEq, Option.some.injEq] at h
        subst h
        exact (NF_of_isLit (arithEval_isLit he)).compNF
    | lit v t => simp [transform_fold_arithmetic_builtins, pure, Except.pure] at h
    | lam ps b => simp [transform_fold_arithmetic_builtins, pure, Except.pure] at h
    | funCall f2 a2 => simp [transform_fold_arithmetic_builtins, pure, Except.pure] at h

/-- FOLD_MIN_MAX_LITERALS preserves component normality. -/
theorem foldMinMaxLit_preserve {n n' : Expr} (hc : compNF n)
    (h : transform_fold_min_max_literals n = .ok (some n')) :
    compNF n' := by
  cases n with
  | lit v t => simp [transform_fold_min_max_literals, pure, Except.pure] at h
  | symRef i => simp [transform_fold_min_max_literals, pure, Except.pure] at h
  | lam ps b => simp [transform_fold_min_max_literals, pure, Except.pure] at h
  | funCall fn args =>
    obtain ⟨hfn, hargs⟩ := hc
    unfold transform_fold_min_max_literals at h
    by_cases hg : is_call_to (Expr.funCall fn args) ["minimum", "maximum"] = true
    case neg => simp only [Bool.not_eq_true] at hg; simp [hg, pure, Except.pure] at h
    simp only [hg, if_true] at h
    obtain ⟨a0, ha0, h⟩ := bind_eq_ok h
    obtain ⟨a1, ha1, h⟩ := bind_eq_ok h
    by_cases he : (a0 == a1) = true
    case neg => simp only [Bool.not_eq_true] at he; simp [he, pure, Except.pure] at h
    simp only [he, if_true, pure, Except.pure, Except.ok.injEq, Option.some.injEq] at h
    subst h
    exact (hargs _ (getArg_mem ha0)).compNF

/-- FOLD_IF preserves component normality: the selected branch is a
normal subtree of the input. -/
theorem foldIf_preserve {n n' : Expr} (hc : compNF n)
    (h : transform_fold_if n = .ok (some n')) :
    compNF n' := by
  cases n with
  | lit v t => simp [transform_fold_if, pure, Except.pure] at h
  | symRef i => simp [transform_fold_if, pure, Except.pure] at h
  | lam ps b => simp [transform_fold_if, pure, Except.pure] at h
  | funCall fn args =>
    obtain ⟨hfn, hargs⟩ := hc
    unfold transform_fold_if at h
    by_cases hg : is_call_to (Expr.funCall fn args) ["if_"] = true
    case neg => simp only [Bool.not_eq_true] at hg; simp [hg, pure, Except.pure] at h
    simp only [hg, if_true] at h
    obtain ⟨a0, ha0, h⟩ := bind_eq_ok h
    cases a0 with
    | lit v t =>
      dsimp only at h
      by_cases hv : (v == "True") = true
      · simp only [hv, if_true] at h
        obtain ⟨a1, ha1, h⟩ := bind_eq_ok h
        simp only [pure, Except.pure, Except.ok.injEq, Option.some.injEq] at h
        subst h
        exact (hargs _ (getArg_mem ha1)).compNF
      · simp only [Bool.not_eq_true] at hv
        simp only [hv, Bool.false_eq_true, if_false] at h
        obtain ⟨a2, ha2, h⟩ := bind_eq_ok h
        simp only [pure, Except.pure, Except.ok.injEq, Option.some.injEq] at h
        subst h
        exact (hargs _ (getArg_mem ha2)).compNF
    | symRef i => simp [pure, Except.pure] at h
    | lam ps b => simp [pure, Except.pure] at h
    | funCall f2 a2 => simp [pure, Except.pure] at h


/-- One firing of the rule list on a node with normal components
produces a node with normal components, provided the self-application
function normalizes nodes with normal components. -/
theorem tryRules_preserve {fp : Expr → Res Expr}
    (Hfp : ∀ m r, compNF m → fp m = .ok r → NF r) {n n' : Expr} (hc : compNF n)
    (h : tryRules fp n = .ok (some n')) : compNF n' := by
  unfold tryRules at h
  cases h1 : transform_canonicalize_op_funcall_symref_literal n with
  | error e => rw [h1, resBindErr] at h; exact absurd h (by simp)
  | ok o =>
    rw [h1, resBindOk] at h
    cases o with
    | some r0 =>
      simp only [pure, Except.pure, Except.ok.injEq, Option.some.injEq] at h
      subst h
      exact canonOp_preserve hc h1
    | none =>
      dsimp only at h
      cases h2 : transform_canonicalize_minus fp n with
      | error e => rw [h2, resBindErr] at h; exact absurd h (by simp)
      | ok o =>
        rw [h2, resBindOk] at h
        cases o with
        | some r0 =>
          simp only [pure, Except.pure, Except.ok.injEq, Option.some.injEq] at h
          subst h
          exact canonMinus_preserve Hfp hc h2
        | none =>
          dsimp only at h
          cases h3 : transform_canonicalize_min_max n with
          | error e => rw [h3, resBindErr] at h; exact absurd h (by simp)
          | ok o =>
            rw [h3, resBindOk] at h
            cases o with
            | some r0 =>
              simp only [pure, Except.pure, Except.ok.injEq, Option.some.injEq] at h
              subst h
              exact canonMinMax_preserve hc h3
            | none =>
              dsimp only at h
              cases h4 : transform_fold_funcall_literal fp n with
              | error e => rw [h4, resBindErr] at h; exact absurd h (by simp)
              | ok o =>
                rw [h4, resBindOk] at h
                cases o with
                | some r0 =>
                  simp only [pure, Except.pure, Except.ok.injEq, Option.some.injEq] at h
                  subst h
                  exact foldFuncallLit_preserve Hfp hc h4
                | none =>
                  dsimp only at h
                  cases h5 : transform_fold_min_max n with
                  | error e => rw [h5, resBindErr] at h; exact absurd h (by simp)
                  | ok o =>
                    rw [h5, resBindOk] at h
                    cases o with
                    | some r0 =>
                      simp only [pure, Except.pure, Except.ok.injEq, Option.some.injEq] at h
                      subst h
                      exact foldMinMax_preserve hc h5
                    | none =>
                      dsimp only at h
                      cases h6 : transform_fold_min_max_plus fp n with
                      | error e => rw [h6, resBindErr] at h; exact absurd h (by simp)
                      | ok o =>
                        rw [h6, resBindOk] at h
                        cases o with
                        | some r0 =>
                          simp only [pure, Except.pure, Except.ok.injEq, Option.some.injEq] at h
                          subst h
                          exact foldMinMaxPlus_preserve Hfp hc h6
                        | none =>
                          dsimp only at h
                          cases h7 : transform_fold_neutral_op n with
                          | error e => rw [h7, resBindErr] at h; exact absurd h (by simp)
                          | ok o =>
                            rw [h7, resBindOk] at h
                            cases o with
                            | some r0 =>
                              simp only [pure, Except.pure, Except.ok.injEq, Option.some.injEq] at h
                              subst h
                              exact foldNeutral_preserve hc h7
                            | none =>
                              dsimp only at h
                              cases h8 : transform_fold_arithmetic_builtins n with
                              | error e => rw [h8, resBindErr] at h; exact absurd h (by simp)
                              | ok o =>
                                rw [h8, resBindOk] at h
                                cases o with
                                | some r0 =>
                                  simp only [pure, Except.pure, Except.ok.injEq, Option.some.injEq] at h
                                  subst h
                                  exact foldArith_preserve h8
                                | none =>
                                  dsimp only at h
                                  cases h9 : transform_fold_min_max_literals n with
                                  | error e => rw [h9, resBindErr] at h; exact absurd h (by simp)
                                  | ok o =>
                                    rw [h9, resBindOk] at h
                                    cases o with
                                    | some r0 =>
                                      simp only [pure, Except.pure, Except.ok.injEq, Option.some.injEq] at h
                                      subst h
                                      exact foldMinMaxLit_preserve hc h9
                                    | none =>
                                      dsimp only at h
                                      exact foldIf_preserve hc h

/-- Fuel induction: a successful run of the per-node loop on a node with
normal components yields a normal form. -/
theorem fpTransform_NF : ∀ f : Nat, ∀ n r : Expr, compNF n →
    fpTransform f n = .ok r → NF r := by
  intro f
  induction f with
  | zero => intro n r _ h; simp [fpTransform] at h
  | succ f ih =>
    intro n r hc h
    rw [fpTransform] at h
    cases ht : tryRules (fpTransform f) n with
    | error e => rw [ht, resBindErr] at h; exact absurd h (by simp)
    | ok o =>
      rw [ht, resBindOk] at h
      cases o with
      | none =>
        dsimp only at h
        simp only [pure, Except.pure, Except.ok.injEq] at h
        subst h
        cases n with
        | funCall fn args =>
          exact NF.funCall fn args hc.1 hc.2 (fun fp' => tryRules_none_transfer _ fp' ht)
        | lit v t => exact hc
        | symRef i => exact hc
        | lam ps b => exact hc
      | some n1 =>
        dsimp only at h
        have hc1 : compNF n1 := tryRules_preserve (fun m r hm hr => ih m r hm hr) hc ht
        exact ih n1 r hc1 h

mutual

/-- The post-order pass always returns normal forms. -/
theorem visitExpr_NF : ∀ (F : Nat) (t r : Expr), visitExpr F t = .ok r → NF r
  | F, .lit v ty, r => fun h => by
      simp only [visitExpr, pure, Except.pure, Except.ok.injEq] at h
      subst h; exact NF.lit v ty
  | F, .symRef i, r => fun h => by
      simp only [visitExpr, pure, Except.pure, Except.ok.injEq] at h
      subst h; exact NF.symRef i
  | F, .lam ps b, r => fun h => by
      rw [visitExpr] at h
      obtain ⟨b₁, hb, h⟩ := bind_eq_ok h
      simp only [pure, Except.pure, Except.ok.injEq] at h
      subst h
      exact NF.lam ps b₁ (visitExpr_NF F b b₁ hb)
  | F, .funCall fn args, r => fun h => by
      rw [visitExpr] at h
      obtain ⟨fn₁, hfn, h⟩ := bind_eq_ok h
      obtain ⟨args₁, hargs, h⟩ := bind_eq_ok h
      exact fpTransform_NF F (.funCall fn₁ args₁) r
        (show compNF (.funCall fn₁ args₁) from
          ⟨visitExpr_NF F fn fn₁ hfn, visitArgs_NF F args args₁ hargs⟩) h

theorem visitArgs_NF : ∀ (F : Nat) (l l₁ : List Expr),
    visitArgs F l = .ok l₁ → ∀ a ∈ l₁, NF a
  | F, [], l₁ => fun h => by
      simp only [visitArgs, pure, Except.pure, Except.ok.injEq] at h
      subst h; intro a ha; exact absurd ha (List.not_mem_nil a)
  | F, a :: rest, l₁ => fun h => by
      rw [visitArgs] at h
      obtain ⟨a₁, ha, h⟩ := bind_eq_ok h
      obtain ⟨rest₁, hrest, h⟩ := bind_eq_ok h
      simp only [pure, Except.pure, Except.ok.injEq] at h
      subst h
      intro x hx
      rcases List.mem_cons.mp hx with rfl | hx
      · exact visitExpr_NF F a _ ha
      · exact visitArgs_NF F rest rest₁ hrest x hx

end

/-- A declining node passes through the loop untouched, with any fuel. -/
theorem declines_no_step {n : Expr} (hd : declines n) (G : Nat) :
    fpTransform (G + 1) n = .ok n := by
  rw [fpTransform, hd (fpTransform G)]
  rfl

theorem declines_lit (v t : String) : declines (.lit v t) := fun _ => rfl

theorem declines_symRef (i : String) : declines (.symRef i) := fun _ => rfl

theorem declines_lam (ps : List String) (b : Expr) : declines (.lam ps b) := fun _ => rfl

/-- The elementwise-identity pass on a list of arguments. -/
theorem visitArgs_id {F : Nat} {l : List Expr}
    (h : ∀ a ∈ l, visitExpr F a = .ok a) : visitArgs F l = .ok l := by
  induction l with
  | nil => simp [visitArgs, pure, Except.pure]
  | cons a rest ih =>
    rw [visitArgs, h a (List.mem_cons_self a rest), resBindOk,
      ih (fun x hx => h x (List.mem_cons_of_mem a hx)), resBindOk]
    rfl

/-- Normal forms are fixed points of the whole pass (with any nonzero
fuel). -/
theorem NF_visit_id : ∀ {t : Expr}, NF t → ∀ G : Nat, visitExpr (G + 1) t = .ok t := by
  intro t h
  induction h with
  | lit v ty => intro G; rfl
  | symRef i => intro G; rfl
  | lam ps b hb ih =>
    intro G
    rw [visitExpr, ih G, resBindOk]
    rfl
  | funCall fn args hfn hargs hd ihfn ihargs =>
    intro G
    rw [visitExpr, ihfn G, resBindOk,
      visitArgs_id (fun a ha => ihargs a ha G), resBindOk]
    exact declines_no_step hd G

/-- Claim C1: ConstantFolding.apply is idempotent — whenever a run of
the pass returns a tree r, running the pass again on r (with any fuel
bound) returns r itself, structurally equal. -/
theorem C1_apply_idempotent (F G : Nat) (t r : Expr)
    (h : ConstantFolding.apply F t = .ok r) :
    ConstantFolding.apply (G + 1) r = .ok r :=
  NF_visit_id (visitExpr_NF F t r h) G

/-- Witness for C1: folding `plus(1, 1)` gives the literal 2, and a
second run of the pass reproduces it. -/
theorem C1_apply_idempotent_witness :
    ConstantFolding.apply 30 (im.plus (.lit "1" "int32") (.lit "1" "int32"))
        = .ok (.lit "2" "int32") ∧
    ConstantFolding.apply 5 (.lit "2" "int32") = .ok (.lit "2" "int32") :=
  ⟨rfl, C1_apply_idempotent 30 4 (im.plus (.lit "1" "int32") (.lit "1" "int32"))
    (.lit "2" "int32") rfl⟩


/-! Domain inference (infer_domain.py). -/

/-- Character-list membership helpers (kernel-reducible replacements for
the String library functions). -/
def pfxCheck : List Char → List Char → Bool
  | [], _ => true
  | _ :: _, [] => false
  | a :: as, b :: bs => a == b && pfxCheck as bs

def subCheck : List Char → List Char → Bool
  | needle, [] => needle.isEmpty
  | needle, h :: t => pfxCheck needle (h :: t) || subCheck needle t

/-- Python `s.startswith(p)`. -/
def strStartsWith (s p : String) : Bool := pfxCheck p.data s.data

/-- Python `name in msg` on strings (substring containment). -/
def strContains (msg name : String) : Bool := subCheck name.data msg.data

/-- itir.Temporary: a declared temporary carrying a domain field
(initially the AUTO_DOMAIN placeholder). -/
structure Temporary where
  id : String
  domain : Expr
deriving DecidableEq

/-- itir.SetAt: an assignment of a field expression into a target over a
domain. -/
structure SetAt where
  expr : Expr
  domain : Expr
  target : String
deriving DecidableEq

/-- itir.Program, restricted to the fields the domain-inference pass
consumes; function definitions and parameters are carried through
opaquely. -/
structure Program where
  id : String
  function_definitions : List Expr
  params : List String
  declarations : List Temporary
  body : List SetAt
deriving DecidableEq

/-- Modelled from the spec: the AUTO_DOMAIN placeholder sentinel for
temporary declarations (`global_tmps` is not among the sources; the spec
calls it "an explicit AUTO_DOMAIN sentinel"). -/
def AUTO_DOMAIN : Expr := im.call "auto_domain" []

/-- Modelled from the spec: offset-provider metadata — "mapping from
offset-tag string to either a plain dimension descriptor or a
connectivity descriptor with source and target dimensions". -/
inductive OffsetProviderEntry where
  | dimension (dim : String)
  | connectivity (source_dim target_dim : String)
deriving DecidableEq

abbrev OffsetProvider := List (String × OffsetProviderEntry)

/-- Modelled from the spec: a symbolic Domain — "a named kind (cartesian
or unstructured) plus a mapping from dimension-name to a half-open
interval, each bound itself an expression" (`SymbolicDomain` of
`global_tmps` is not among the sources). -/
structure SymbolicDomain where
  grid_type : String
  ranges : List (String × Expr × Expr)
deriving DecidableEq

/-- Modelled from the spec: the expression form of a symbolic domain. -/
def SymbolicDomain.as_expr (d : SymbolicDomain) : Expr :=
  .funCall (.symRef d.grid_type)
    (d.ranges.map fun r => .funCall (.symRef "named_range") [.symRef r.1, r.2.1, r.2.2])

def parseRanges : List Expr → Res (List (String × Expr × Expr))
  | [] => pure []
  | .funCall (.symRef "named_range") [.symRef d, lo, hi] :: rest => do
    let rs ← parseRanges rest
    pure ((d, lo, hi) :: rs)
  | _ => throw Err.assertionError

/-- Modelled from the spec: parsing a domain expression back into its
symbolic form (`SymbolicDomain.from_expr`). -/
def SymbolicDomain.from_expr : Expr → Res SymbolicDomain
  | .funCall (.symRef g) args =>
    if g == "cartesian_domain" || g == "unstructured_domain" then do
      let rs ← parseRanges args
      pure ⟨g, rs⟩
    else throw Err.assertionError
  | _ => throw Err.assertionError

/-- Modelled from the spec: union of two domains — "per shared dimension,
the smallest start and the largest stop", as symbolic min/max bounds. -/
def SymbolicDomain.union2 (a b : SymbolicDomain) : SymbolicDomain :=
  ⟨a.grid_type,
    (a.ranges.map fun r =>
      match b.ranges.find? (fun s => s.1 == r.1) with
      | some s => (r.1, im.minimum r.2.1 s.2.1, im.maximum r.2.2 s.2.2)
      | none => r) ++
    b.ranges.filter (fun s => !(a.ranges.any (fun r => r.1 == s.1)))⟩

/-- Embeds `domain_union` (reduction over the nonempty list; the Python
reduce fails on an empty list, modelled as an assertion error). -/
def domain_union : List SymbolicDomain → Res SymbolicDomain
  | [] => throw Err.assertionError
  | d :: rest => pure (rest.foldl SymbolicDomain.union2 d)

/-- A single shift: a list of offset-tag/value pairs. -/
abbrev ShiftSeq := List (String × Expr)

/-- Modelled from the spec: translating a domain through one offset-tag:
a plain dimension translates that dimension interval symbolically by the
offset expression; a connectivity replaces the source dimension with the
target dimension, unbounded by default. -/
def translateOne (d : SymbolicDomain) (tag : String) (val : Expr)
    (op : OffsetProvider) : SymbolicDomain :=
  match op.find? (fun e => e.1 == tag) with
  | some (_, .dimension dim) =>
    ⟨d.grid_type, d.ranges.map fun r =>
      if r.1 == dim then (r.1, im.minus r.2.1 val, im.minus r.2.2 val) else r⟩
  | some (_, .connectivity src tgt) =>
    ⟨d.grid_type,
      (d.ranges.filter (fun r => !(r.1 == src))) ++ [(tgt, .symRef "unbounded", .symRef "unbounded")]⟩
  | none => d

/-- Modelled from the spec: translating a domain through a shift
sequence, tags processed in reverse application order. -/
def SymbolicDomain.translate (d : SymbolicDomain) (shift : ShiftSeq)
    (op : OffsetProvider) : SymbolicDomain :=
  shift.reverse.foldl (fun acc tv => translateOne acc tv.1 tv.2 op) d

/-- Modelled from the spec: the shift-tracing oracle over a stencil (the
`trace_shifts` module is not among the sources): per input id, the set
of shift sequences applied to that input in the stencil body.  The model
covers shift-free stencils, where every input carries the singleton
empty shift sequence. -/
def trace_shifts_model (stencil : Expr) (input_ids : List String)
    (domain : Expr) : String → List ShiftSeq :=
  fun _ => [[]]

abbrev DomMap := List (String × SymbolicDomain)

def lookupA (m : DomMap) (k : String) : Option SymbolicDomain :=
  match m with
  | [] => none
  | (q, v) :: rest => if q == k then some v else lookupA rest k

def upsertA (m : DomMap) (k : String) (v : SymbolicDomain) : DomMap :=
  match m with
  | [] => [(k, v)]
  | (q, w) :: rest => if q == k then (k, v) :: rest else (q, w) :: upsertA rest k v

/-- Python `d[k]`: raises KeyError naming the missing key. -/
def getKey (m : DomMap) (k : String) : Res SymbolicDomain :=
  match lookupA m k with
  | some v => pure v
  | none => throw (Err.keyError k)

/-- Embeds `_merge_domains`: entries of the second mapping are unioned
into the first. -/
def _merge_domains : DomMap → DomMap → Res DomMap
  | acc, [] => pure acc
  | acc, (k, v) :: rest => do
    let acc1 ←
      (match lookupA acc k with
       | some old => do
         let u ← domain_union [old, v]
         pure (upsertA acc k u)
       | none => pure (upsertA acc k v))
    _merge_domains acc1 rest

/-- The uid generator of `infer_as_fieldop` (`eve.UIDGenerator` with
prefix "__dom_inf", counting from 1). -/
def dom_inf_pfx : String := "__dom_inf"

/-- Embeds the input-id assignment loop of `infer_as_fieldop`: SymRef
inputs keep their name, FunCall inputs draw a fresh sequential id, any
other node kind is an assertion error. -/
def assignIds : List Expr → Nat → Res (List String × Nat)
  | [], k => pure ([], k)
  | .funCall f a :: rest, k => do
    let (ids, k1) ← assignIds rest (k + 1)
    pure ((dom_inf_pfx ++ "_" ++ toString k) :: ids, k1)
  | .symRef i :: rest, k => do
    let (ids, k1) ← assignIds rest k
    pure (i :: ids, k1)
  | _, _ => throw Err.assertionError

/-- Embeds the shift-translation loop of `infer_as_fieldop`: per input
id, the union of the output domain translated through each traced shift
sequence. -/
def computeAccessed (dom : SymbolicDomain) (op : OffsetProvider)
    (sh : String → List ShiftSeq) : List String → DomMap → Res DomMap
  | [], acc => pure acc
  | id1 :: rest, acc => do
    let u ← domain_union ((sh id1).map (fun seq => SymbolicDomain.translate dom seq op))
    computeAccessed dom op sh rest (upsertA acc id1 u)

mutual

/-- Embeds `infer_as_fieldop` (with a fuel bound on the recursion into
nested as_fieldop inputs). -/
def infer_as_fieldop : Nat → Expr → Sum SymbolicDomain Expr → OffsetProvider →
    Res (Expr × DomMap)
  | 0, _, _, _ => throw Err.outOfFuel
  | F + 1, applied, input_domain, op =>
    match applied with
    | .funCall fn args =>
      match fn with
      | .funCall (.symRef "as_fieldop") fnArgs => do
        let stencil ← getArg fnArgs 0
        let p ← assignIds args 1
        let dom ← (match input_domain with
          | .inl d => pure d
          | .inr e => SymbolicDomain.from_expr e)
        let sh := trace_shifts_model stencil p.1 (SymbolicDomain.as_expr dom)
        let accessed ← computeAccessed dom op sh p.1 []
        let q ← inferInputs F p.1 args accessed op
        let transformed_call : Expr :=
          .funCall (.funCall (.symRef "as_fieldop") [stencil, SymbolicDomain.as_expr dom]) q.1
        pure (transformed_call, q.2.filter (fun kv => !(strStartsWith kv.1 dom_inf_pfx)))
      | _ => throw Err.assertionError
    | _ => throw Err.assertionError
termination_by F _ _ _ => (F, 0, 0)

/-- Embeds the recursion loop of `infer_as_fieldop` over its inputs:
nested as_fieldop calls are inferred with their just-computed domain and
their accessed maps merged in; bare references pass through. -/
def inferInputs : Nat → List String → List Expr → DomMap → OffsetProvider →
    Res (List Expr × DomMap)
  | _, [], [], acc, _ => pure ([], acc)
  | F, id1 :: ids, e :: es, acc, op =>
    match e with
    | .funCall f a => do
      let d ← getKey acc id1
      let r ← infer_as_fieldop F (.funCall f a) (.inl d) op
      let acc2 ← _merge_domains acc r.2
      let q ← inferInputs F ids es acc2 op
      pure (r.1 :: q.1, q.2)
    | .symRef i => do
      let q ← inferInputs F ids es acc op
      pure (.symRef i :: q.1, q.2)
    | _ => throw Err.assertionError
  | _, _, _, _, _ => throw Err.assertionError
termination_by F ids _ _ _ => (F, 1, ids.length)

end


/-- Python `len(l) != len(set(l))`: the list has a duplicate. -/
def hasDupB : List String → Bool
  | [] => false
  | x :: xs => xs.contains x || hasDupB xs

/-- The validation error message raised for duplicate temporary
assignment targets (it names no temporary). -/
def validateMsg : String := "Temporaries can only be used once within a program."

/-- The assignment targets of a body that name declared temporaries. -/
def tmpAssignments (body : List SetAt) (temporaries : List String) : List String :=
  (body.filter (fun stmt => temporaries.contains stmt.target)).map (fun stmt => stmt.target)

/-- Embeds `_validate_temporary_usage`: raises ValueError (with a
constant message) when two statements assign the same temporary. -/
def _validate_temporary_usage (body : List SetAt) (temporaries : List String) : Res Unit :=
  if hasDupB (tmpAssignments body temporaries) then
    throw (Err.valueError validateMsg)
  else
    pure ()

/-- Embeds the accessed-domain merging at the end of each loop
iteration of `infer_program` (lines 218-231): a field seen again is
unioned when it is a temporary and left as is when it is an external
field; a new field is recorded. -/
def mergeStmt (accessed : DomMap) (current : DomMap) (temps : List String) : Res DomMap :=
  match current with
  | [] => pure accessed
  | (k, v) :: rest => do
    let acc1 ←
      (match lookupA accessed k with
       | some old =>
         if temps.contains k then do
           let u ← domain_union [old, v]
           pure (upsertA accessed k u)
         else pure accessed
       | none => pure (upsertA accessed k v))
    mergeStmt acc1 rest temps

/-- One iteration of the reverse statement walk of `infer_program`:
seeds the accessed map for non-temporary targets from the statement's
declared domain, checks the AUTO_DOMAIN placeholder for temporaries,
then infers the statement's as_fieldop with the accumulated domain
(`accessed_domains[set_at.target.id]` — a KeyError when never seeded)
and merges the per-field accessed domains following the source's
union-for-temporaries / keep-for-external-fields policy. -/
def inferStmt (F : Nat) (op : OffsetProvider) (temps : List String)
    (stmt : SetAt) (accessed : DomMap) : Res (SetAt × DomMap) := do
  match stmt.expr with
  | .funCall (.funCall (.symRef "as_fieldop") _) _ => pure ()
  | _ => throw Err.assertionError
  let accessed1 ←
    (if temps.contains stmt.target then
      if stmt.domain == AUTO_DOMAIN then pure accessed else throw Err.assertionError
    else do
      let d ← SymbolicDomain.from_expr stmt.domain
      pure (upsertA accessed stmt.target d))
  let d ← getKey accessed1 stmt.target
  let r ← infer_as_fieldop F stmt.expr (.inl d) op
  let dexpr ← (match r.1 with
    | .funCall (.funCall _ fnArgs) _ => getArg fnArgs 1
    | _ => throw Err.indexError)
  let accessed2 ← mergeStmt accessed1 r.2 temps
  pure ({ expr := r.1, domain := dexpr, target := stmt.target }, accessed2)

/-- Embeds the reverse statement walk of `infer_program`; the input list
is the reversed body, and the transformed statements are rebuilt in
original program order (the source's `insert(0, ...)`). -/
def inferLoop (F : Nat) (op : OffsetProvider) (temps : List String) :
    List SetAt → DomMap → Res (List SetAt × DomMap)
  | [], accessed => pure ([], accessed)
  | stmt :: restRev, accessed => do
    let r ← inferStmt F op temps stmt accessed
    let q ← inferLoop F op temps restRev r.2
    pure (q.1 ++ [r.1], q.2)

/-- Embeds the finalization loop of `infer_program` (lines 233-235):
every declared temporary's domain field is assigned the accumulated
accessed domain (a KeyError naming the temporary when it has none). -/
def finalizeDecls : List Temporary → DomMap → Res (List Temporary)
  | [], _ => pure []
  | t :: rest, accessed => do
    let d ← getKey accessed t.id
    let rest1 ← finalizeDecls rest accessed
    pure ({ id := t.id, domain := SymbolicDomain.as_expr d } :: rest1)

/-- Embeds `infer_program`, returning the result program TOGETHER with
the post-call state of the input program.  The source aliases
`new_declarations = program.declarations` and then assigns
`temporary.domain = ...` on each element in place (lines 233-235), so
under CPython object semantics the very declaration objects of the
input program are updated; the second component of the returned pair
makes that effect on the caller's program explicit in the functional
embedding. -/
def infer_program_with_input (F : Nat) (program : Program) (op : OffsetProvider) :
    Res (Program × Program) := do
  let temporaries := program.declarations.map (fun t => t.id)
  _validate_temporary_usage program.body temporaries
  let r ← inferLoop F op temporaries program.body.reverse []
  let new_declarations ← finalizeDecls program.declarations r.2
  pure ({ id := program.id,
          function_definitions := program.function_definitions,
          params := program.params,
          declarations := new_declarations,
          body := r.1 },
        { program with declarations := new_declarations })

/-- Embeds `infer_program` (the returned program). -/
def infer_program (F : Nat) (program : Program) (op : OffsetProvider) : Res Program := do
  let r ← infer_program_with_input F program op
  pure r.1


theorem resThrow {e : Err} {A : Type} : (throw e : Res A) = Except.error e := rfl

theorem contains_of_mem {l : List String} {x : String} (h : x ∈ l) :
    l.contains x = true := by
  simp [h]

theorem hasDupB_append_cons {l1 l2 : List String} {n : String} (h : n ∈ l2) :
    hasDupB (l1 ++ n :: l2) = true := by
  induction l1 with
  | nil => simp [hasDupB]; exact Or.inl h
  | cons x xs ih => simp [hasDupB, ih]

theorem getKey_ok {m : DomMap} {k : String} {v : SymbolicDomain}
    (h : getKey m k = .ok v) : lookupA m k = some v := by
  unfold getKey at h
  cases hl : lookupA m k with
  | none => rw [hl] at h; exact absurd h (by simp [resThrow])
  | some w => rw [hl] at h; cases h; rfl

theorem getKey_none {m : DomMap} {k : String} (h : lookupA m k = none) :
    getKey m k = .error (Err.keyError k) := by
  unfold getKey
  rw [h]
  rfl

/-- Processing a statement list that extends a successfully processed
prefix with a failing statement fails with that statement's error. -/
theorem inferLoop_append_error (F : Nat) (op : OffsetProvider) (temps : List String)
    (xs zs : List SetAt) (stmt : SetAt) (acc A : DomMap) (ts : List SetAt) (e : Err)
    (h1 : inferLoop F op temps xs acc = .ok (ts, A))
    (h2 : inferStmt F op temps stmt A = .error e) :
    inferLoop F op temps (xs ++ stmt :: zs) acc = .error e := by
  induction xs generalizing acc ts A with
  | nil =>
    simp only [inferLoop, pure, Except.pure, Except.ok.injEq] at h1
    cases h1
    rw [List.nil_append, inferLoop, h2, resBindErr]
  | cons x rest ih =>
    rw [inferLoop] at h1
    obtain ⟨r, hr, h1⟩ := bind_eq_ok h1
    obtain ⟨q, hq, h1⟩ := bind_eq_ok h1
    simp only [pure, Except.pure, Except.ok.injEq, Prod.mk.injEq] at h1
    rw [List.cons_append, inferLoop, hr, resBindOk]
    have hq' : inferLoop F op temps rest r.2 = .ok (q.1, A) := by
      rw [← h1.2]
      exact hq
    rw [ih r.2 A q.1 hq' h2, resBindErr]

theorem finalizeDecls_spec : ∀ (l : List Temporary) (A : DomMap) (l' : List Temporary),
    finalizeDecls l A = .ok l' →
    l'.map Temporary.id = l.map Temporary.id ∧
    ∀ d ∈ l', ∃ sd, lookupA A d.id = some sd ∧
      d.domain = SymbolicDomain.as_expr sd := by
  intro l
  induction l with
  | nil =>
    intro A l' h
    simp only [finalizeDecls, pure, Except.pure, Except.ok.injEq] at h
    subst h
    exact ⟨rfl, by intro d hd; exact absurd hd (List.not_mem_nil d)⟩
  | cons t rest ih =>
    intro A l' h
    rw [finalizeDecls] at h
    obtain ⟨d, hd, h⟩ := bind_eq_ok h
    obtain ⟨rest1, hrest, h⟩ := bind_eq_ok h
    simp only [pure, Except.pure, Except.ok.injEq] at h
    subst h
    obtain ⟨hids, hdoms⟩ := ih A rest1 hrest
    constructor
    · simp [hids]
    · intro x hx
      rcases List.mem_cons.mp hx with rfl | hx
      · exact ⟨d, getKey_ok hd, rfl⟩
      · exact hdoms x hx

/-- Finalization fails with a KeyError naming the first declared
temporary that accumulated no accessed domain. -/
theorem finalizeDecls_miss : ∀ (preD : List Temporary) (tmp : Temporary)
    (postD : List Temporary) (A : DomMap),
    (∀ d ∈ preD, (lookupA A d.id).isSome) →
    lookupA A tmp.id = none →
    finalizeDecls (preD ++ tmp :: postD) A = .error (Err.keyError tmp.id) := by
  intro preD
  induction preD with
  | nil =>
    intro tmp postD A _ hm
    rw [List.nil_append, finalizeDecls, getKey_none hm, resBindErr]
  | cons d rest ih =>
    intro tmp postD A hpre hm
    rw [List.cons_append, finalizeDecls]
    cases hl : lookupA A d.id with
    | none =>
      have := hpre d (List.mem_cons_self d rest)
      rw [hl] at this
      exact absurd this (by simp)
    | some v =>
      rw [show getKey A d.id = .ok v from by unfold getKey; rw [hl]; rfl, resBindOk]
      rw [ih tmp postD A (fun x hx => hpre x (List.mem_cons_of_mem d hx)) hm, resBindErr]


/-! Concrete programs for the domain-inference claims. -/

def stencilT : Expr := .lam ["x"] (.symRef "x")

def dSym : SymbolicDomain :=
  ⟨"cartesian_domain", [("IDim", .lit "0" "int32", .lit "10" "int32")]⟩

def dE : Expr := SymbolicDomain.as_expr dSym

/-- An applied as_fieldop without inputs. -/
def asfop0 : Expr := .funCall (.funCall (.symRef "as_fieldop") [stencilT, dE]) []

/-- An applied as_fieldop consuming the temporary t. -/
def asfop1 : Expr := .funCall (.funCall (.symRef "as_fieldop") [stencilT]) [.symRef "t"]

/-- A program assigning the declared temporary tmp_foo twice. -/
def Pdup : Program := ⟨"pdup", [], [], [⟨"tmp_foo", AUTO_DOMAIN⟩],
  [⟨asfop0, AUTO_DOMAIN, "tmp_foo"⟩, ⟨asfop0, AUTO_DOMAIN, "tmp_foo"⟩]⟩

/-- A program writing the temporary t that no later statement consumes. -/
def Punseeded : Program := ⟨"punseeded", [], [], [⟨"t", AUTO_DOMAIN⟩],
  [⟨asfop0, AUTO_DOMAIN, "t"⟩]⟩

/-- A program declaring the temporary u that nothing consumes. -/
def Punconsumed : Program := ⟨"punconsumed", [], [], [⟨"u", AUTO_DOMAIN⟩],
  [⟨asfop0, dE, "out"⟩]⟩

/-- A well-formed program: t is written and later consumed by out. -/
def Pgood : Program := ⟨"pgood", [], [], [⟨"t", AUTO_DOMAIN⟩],
  [⟨asfop0, AUTO_DOMAIN, "t"⟩, ⟨asfop1, dE, "out"⟩]⟩

def asfop1R : Expr := .funCall (.funCall (.symRef "as_fieldop") [stencilT, dE]) [.symRef "t"]

/-- The program infer_program returns for Pgood. -/
def PgoodResult : Program := ⟨"pgood", [], [], [⟨"t", dE⟩],
  [⟨asfop0, dE, "t"⟩, ⟨asfop1R, dE, "out"⟩]⟩

/-- The state of the INPUT program Pgood after the call (its declaration
objects were mutated in place). -/
def PgoodAfter : Program := ⟨"pgood", [], [], [⟨"t", dE⟩], Pgood.body⟩

/-! Claim C6: duplicate temporary targets. -/

/-- Counterexample for C6 as stated: the validation error raised for a
duplicate assignment to the temporary tmp_foo carries a constant message
that does not mention the offending name. -/
theorem C6_counterexample_message_has_no_name :
    infer_program 10 Pdup [] = .error (.valueError validateMsg) ∧
    strContains validateMsg "tmp_foo" = false := by
  constructor
  · simp [infer_program, infer_program_with_input, Pdup, _validate_temporary_usage,
      tmpAssignments, hasDupB, resThrow, resBindErr]
  · decide

/-- Claim C6 (amended): a program in which two assignment statements
target the same declared temporary makes infer_program raise the
user-facing validation ValueError — before any domain is inferred, and
with a constant message that identifies no name. -/
theorem C6_duplicate_target_validation (F : Nat) (p : Program) (op : OffsetProvider)
    (n : String) (s1 s2 : SetAt) (pre mid post : List SetAt)
    (hbody : p.body = pre ++ s1 :: (mid ++ s2 :: post))
    (h1 : s1.target = n) (h2 : s2.target = n)
    (hdecl : n ∈ p.declarations.map Temporary.id) :
    infer_program F p op = .error (.valueError validateMsg) := by
  have hcn : (p.declarations.map Temporary.id).contains n = true :=
    contains_of_mem hdecl
  have hdup : hasDupB (tmpAssignments p.body (p.declarations.map Temporary.id)) = true := by
    rw [hbody]
    unfold tmpAssignments
    simp only [List.filter_append, List.filter_cons, h1, h2, hcn, if_true,
      List.map_append, List.map_cons]
    exact hasDupB_append_cons
      (List.mem_append_right _ (List.mem_cons_self n _))
  simp [infer_program, infer_program_with_input, _validate_temporary_usage, hdup,
    resThrow, resBindErr]

/-- Witness for C6 (amended) on the concrete duplicated program. -/
theorem C6_duplicate_target_validation_witness :
    infer_program 7 Pdup [] = .error (.valueError validateMsg) :=
  C6_duplicate_target_validation 7 Pdup [] "tmp_foo"
    ⟨asfop0, AUTO_DOMAIN, "tmp_foo"⟩ ⟨asfop0, AUTO_DOMAIN, "tmp_foo"⟩
    [] [] [] rfl rfl rfl (by simp [Pdup])


/-! Claim C7: unseeded and unconsumed temporaries. -/

/-- The simp set that evaluates the domain-inference pass on concrete
programs. -/
theorem beq_self_string (s : String) : (s == s) = true := by simp

/-- Counterexample for C7 as stated: a temporary written but never
consumed (program Punseeded) and a declared temporary never consumed at
all (program Punconsumed) do not produce an explicit user-facing
validation error — infer_program dies with the implicit dictionary
KeyError of the accessed-domains lookup. -/
theorem C7_counterexample_keyerror_not_validation :
    infer_program 10 Punseeded [] = .error (.keyError "t") ∧
    infer_program 10 Punconsumed [] = .error (.keyError "u") := by
  constructor <;>
    simp [infer_program, infer_program_with_input, Punseeded, Punconsumed,
      _validate_temporary_usage, tmpAssignments, hasDupB, inferLoop, inferStmt,
      mergeStmt, finalizeDecls, asfop0, AUTO_DOMAIN, im.call, getKey, lookupA,
      upsertA, resBindOk, resBindErr, resThrow, pure, Except.pure,
      infer_as_fieldop, inferInputs, assignIds, computeAccessed, domain_union,
      SymbolicDomain.translate, SymbolicDomain.from_expr, SymbolicDomain.as_expr,
      parseRanges, trace_shifts_model, dSym, dE, getArg, List.get?, stencilT,
      dom_inf_pfx, strStartsWith, pfxCheck, _merge_domains]

/-- Claim C7 (amended): a temporary written by a statement whose domain
was never seeded by any later statement makes the reverse walk of
infer_program fail with an implicit KeyError naming the temporary (not
an explicit validation error); likewise a declared temporary that
accumulated no accessed domain makes the finalization fail with a
KeyError naming it. -/
theorem C7_missing_seed_or_consumer_keyerror :
    (∀ (F : Nat) (op : OffsetProvider) (p : Program) (t : String) (stmt : SetAt)
       (earlier later ts : List SetAt) (A : DomMap),
       p.body = earlier ++ stmt :: later →
       stmt.target = t →
       t ∈ p.declarations.map Temporary.id →
       stmt.domain = AUTO_DOMAIN →
       (∃ fa aa, stmt.expr = .funCall (.funCall (.symRef "as_fieldop") fa) aa) →
       hasDupB (tmpAssignments p.body (p.declarations.map Temporary.id)) = false →
       inferLoop F op (p.declarations.map Temporary.id) later.reverse [] = .ok (ts, A) →
       lookupA A t = none →
       infer_program F p op = .error (.keyError t)) ∧
    (∀ (F : Nat) (op : OffsetProvider) (p : Program) (tmp : Temporary)
       (preD postD : List Temporary) (ts : List SetAt) (A : DomMap),
       p.declarations = preD ++ tmp :: postD →
       hasDupB (tmpAssignments p.body (p.declarations.map Temporary.id)) = false →
       inferLoop F op (p.declarations.map Temporary.id) p.body.reverse [] = .ok (ts, A) →
       (∀ d ∈ preD, (lookupA A d.id).isSome) →
       lookupA A tmp.id = none →
       infer_program F p op = .error (.keyError tmp.id)) := by
  constructor
  · intro F op p t stmt earlier later ts A hbody htarget htmp hdom hshape hvalid hloop hnoseed
    obtain ⟨fa, aa, hexpr⟩ := hshape
    have hct : (p.declarations.map Temporary.id).contains stmt.target = true := by
      rw [htarget]; exact contains_of_mem htmp
    have hstmtErr : inferStmt F op (p.declarations.map Temporary.id) stmt A
        = .error (.keyError t) := by
      unfold inferStmt
      rw [hexpr]
      dsimp only
      simp only [pure, Except.pure, resBindOk, hct, if_true, hdom, beq_self_eq_true,
        resBindErr]
      rw [htarget, getKey_none hnoseed, resBindErr]
    have hrev : p.body.reverse = later.reverse ++ stmt :: earlier.reverse := by
      rw [hbody]
      simp
    unfold infer_program infer_program_with_input
    have hval : _validate_temporary_usage p.body (p.declarations.map Temporary.id)
        = pure () := by
      unfold _validate_temporary_usage
      rw [hvalid]
      rfl
    simp only [hval, pure, Except.pure, resBindOk]
    rw [hrev, inferLoop_append_error F op _ later.reverse earlier.reverse stmt
      ([] : DomMap) A ts _ hloop hstmtErr, resBindErr]
    exact resBindErr _ _
  · intro F op p tmp preD postD ts A hdecls hvalid hloop hpre hmiss
    unfold infer_program infer_program_with_input
    have hval : _validate_temporary_usage p.body (p.declarations.map Temporary.id)
        = pure () := by
      unfold _validate_temporary_usage
      rw [hvalid]
      rfl
    simp only [hval, pure, Except.pure, resBindOk]
    rw [hloop, resBindOk]
    dsimp only
    rw [hdecls, finalizeDecls_miss preD tmp postD A hpre hmiss, resBindErr]
    exact resBindErr _ _

/-- Witness for C7 (amended) on the two concrete programs. -/
theorem C7_missing_seed_or_consumer_keyerror_witness :
    infer_program 10 Punseeded [] = .error (.keyError "t") ∧
    infer_program 10 Punconsumed [] = .error (.keyError "u") := by
  constructor
  · exact C7_missing_seed_or_consumer_keyerror.1 10 [] Punseeded "t"
      ⟨asfop0, AUTO_DOMAIN, "t"⟩ [] [] [] [] rfl rfl (by simp [Punseeded]) rfl
      ⟨[stencilT, dE], [], rfl⟩ (by decide) rfl rfl
  · exact C7_missing_seed_or_consumer_keyerror.2 10 [] Punconsumed ⟨"u", AUTO_DOMAIN⟩
      [] [] [⟨asfop0, dE, "out"⟩] [("out", dSym)] rfl (by decide)
      (by simp [Punconsumed, inferLoop, inferStmt, mergeStmt, asfop0, AUTO_DOMAIN,
        im.call, getKey, lookupA, upsertA, resBindOk, resBindErr, resThrow, pure,
        Except.pure, infer_as_fieldop, inferInputs, assignIds, computeAccessed,
        domain_union, SymbolicDomain.translate, SymbolicDomain.from_expr,
        SymbolicDomain.as_expr, parseRanges, trace_shifts_model, dSym, dE, getArg,
        List.get?, stencilT, dom_inf_pfx, strStartsWith, pfxCheck, _merge_domains])
      (fun d hd => absurd hd (List.not_mem_nil d)) rfl


/-! Claim C8: infer_program and its input program. -/

/-- Counterexample for C8 as stated: after a successful run on Pgood,
the input program's declared temporary does NOT still carry the
AUTO_DOMAIN placeholder — the declaration objects are shared with the
returned program and were assigned in place (lines 233-235 of the
source alias `new_declarations = program.declarations`). -/
theorem C8_counterexample_input_mutated :
    infer_program_with_input 10 Pgood [] = .ok (PgoodResult, PgoodAfter) ∧
    PgoodAfter ≠ Pgood ∧
    PgoodAfter.declarations.map Temporary.domain = [dE] ∧
    Pgood.declarations.map Temporary.domain = [AUTO_DOMAIN] ∧
    dE ≠ AUTO_DOMAIN := by
  refine ⟨?_, by decide, rfl, rfl, by decide⟩
  simp [infer_program_with_input, Pgood, PgoodResult, PgoodAfter,
    _validate_temporary_usage, tmpAssignments, hasDupB, inferLoop, inferStmt,
    mergeStmt, finalizeDecls, asfop0, asfop1, asfop1R, AUTO_DOMAIN, im.call,
    getKey, lookupA, upsertA, resBindOk, resBindErr, resThrow, pure, Except.pure,
    infer_as_fieldop, inferInputs, assignIds, computeAccessed, domain_union,
    SymbolicDomain.translate, SymbolicDomain.from_expr, SymbolicDomain.as_expr,
    parseRanges, trace_shifts_model, dSym, dE, getArg, List.get?, stencilT,
    dom_inf_pfx, strStartsWith, pfxCheck, _merge_domains]

/-- Claim C8 (amended): infer_program produces a program in which every
declared temporary's placeholder has been replaced exactly once by the
inferred (accessed) domain expression, while preserving the program id,
function definitions, parameters and the temporaries' names; but the
declaration list is SHARED with the input program, whose temporaries are
updated in place — after the call the input no longer carries
AUTO_DOMAIN. -/
theorem C8_declarations_shared_and_replaced (F : Nat) (p : Program)
    (op : OffsetProvider) (r pAfter : Program)
    (h : infer_program_with_input F p op = .ok (r, pAfter)) :
    pAfter.declarations = r.declarations ∧
    pAfter = { p with declarations := r.declarations } ∧
    r.id = p.id ∧
    r.function_definitions = p.function_definitions ∧
    r.params = p.params ∧
    r.declarations.map Temporary.id = p.declarations.map Temporary.id ∧
    ∃ ts A, inferLoop F op (p.declarations.map Temporary.id) p.body.reverse []
        = .ok (ts, A) ∧
      r.body = ts ∧
      ∀ d ∈ r.declarations, ∃ sd, lookupA A d.id = some sd ∧
        d.domain = SymbolicDomain.as_expr sd := by
  unfold infer_program_with_input at h
  obtain ⟨u, hu, h⟩ := bind_eq_ok h
  obtain ⟨q, hq, h⟩ := bind_eq_ok h
  obtain ⟨decls, hdecls, h⟩ := bind_eq_ok h
  simp only [pure, Except.pure, Except.ok.injEq, Prod.mk.injEq] at h
  obtain ⟨hr, hAfter⟩ := h
  obtain ⟨hids, hdoms⟩ := finalizeDecls_spec p.declarations q.2 decls hdecls
  subst hr
  subst hAfter
  refine ⟨rfl, rfl, rfl, rfl, rfl, hids, q.1, q.2, ?_, rfl, hdoms⟩
  rw [hq]

/-- Witness for C8 (amended) on the concrete program Pgood. -/
theorem C8_declarations_shared_and_replaced_witness :
    infer_program_with_input 10 Pgood [] = .ok (PgoodResult, PgoodAfter) ∧
    PgoodAfter.declarations = PgoodResult.declarations := by
  have h : infer_program_with_input 10 Pgood [] = .ok (PgoodResult, PgoodAfter) := by
    simp [infer_program_with_input, Pgood, PgoodResult, PgoodAfter,
      _validate_temporary_usage, tmpAssignments, hasDupB, inferLoop, inferStmt,
      mergeStmt, finalizeDecls, asfop0, asfop1, asfop1R, AUTO_DOMAIN, im.call,
      getKey, lookupA, upsertA, resBindOk, resBindErr, resThrow, pure, Except.pure,
      infer_as_fieldop, inferInputs, assignIds, computeAccessed, domain_union,
      SymbolicDomain.translate, SymbolicDomain.from_expr, SymbolicDomain.as_expr,
      parseRanges, trace_shifts_model, dSym, dE, getArg, List.get?, stencilT,
      dom_inf_pfx, strStartsWith, pfxCheck, _merge_domains]
  exact ⟨h, (C8_declarations_shared_and_replaced 10 Pgood [] PgoodResult PgoodAfter h).1⟩


/-! Fusion of as_fieldop calls (fuse_as_fieldop.py). -/

/-- Embeds `cpm.is_applied_as_fieldop`: a FunCall whose callee is a call
to the as_fieldop builtin. -/
def is_applied_as_fieldop (n : Expr) : Bool :=
  match n with
  | .funCall f _ => is_call_to f ["as_fieldop"]
  | _ => false

/-- Modelled from the spec: the element type of an argument as judged by
the external type oracle — either a list/neighbor-group type
(`it_ts.ListType`) or any other type (scalar etc.); only the ListType
distinction is consumed by the fusion heuristic. -/
inductive DType where
  | listType
  | scalarType (kind : String)
deriving DecidableEq

def DType.isList : DType → Bool
  | .listType => true
  | _ => false

/-- One traced shift applied to a stencil parameter (only the number of
distinct shifts matters to the heuristic). -/
abbrev ShiftTuple := List String

/-- Embeds the `should_inline` heuristic of `FuseAsFieldOp.visit_FunCall`
(lines 149-153): a literal, or a FunCall that is an applied as_fieldop
or an if_ call whose element type is a list type or which is shifted at
most once. -/
def should_inline (arg : Expr) (dtype : DType) (arg_shifts : List ShiftTuple) : Bool :=
  isLit arg ||
    (match arg with
     | .funCall f a =>
        (is_call_to f ["as_fieldop"] || is_call_to (.funCall f a) ["if_"]) &&
        (dtype.isList || decide (arg_shifts.length ≤ 1))
     | _ => false)

abbrev ArgMap := List (String × Expr)

def lookupArg (m : ArgMap) (k : String) : Option Expr :=
  match m with
  | [] => none
  | (q, v) :: rest => if q == k then some v else lookupArg rest k

def upsertArg (m : ArgMap) (k : String) (v : Expr) : ArgMap :=
  match m with
  | [] => [(k, v)]
  | (q, w) :: rest => if q == k then (k, v) :: rest else (q, w) :: upsertArg rest k v

/-- Embeds `_merge_arguments`: new bindings are appended, an existing
binding must agree (assertion error otherwise). -/
def _merge_arguments : ArgMap → ArgMap → Res ArgMap
  | m, [] => pure m
  | m, (k, v) :: rest =>
    match lookupArg m k with
    | none => _merge_arguments (m ++ [(k, v)]) rest
    | some w => if w == v then _merge_arguments m rest else throw Err.assertionError

/-- Builder `im.let(p, v)(body)`. -/
def im_let (p : String) (v body : Expr) : Expr := .funCall (.lam [p] body) [v]

/-- The identity stencil `im.lambda_("arg")(im.deref("arg"))`. -/
def im_deref_identity : Expr := .lam ["arg"] (.funCall (.symRef "deref") [.symRef "arg"])

/-- Builder `im.as_fieldop(stencil, domain)(args)` with an optional
domain. -/
def im_as_fieldop (stencil : Expr) (domain : Option Expr) (args : List Expr) : Expr :=
  match domain with
  | some d => .funCall (.funCall (.symRef "as_fieldop") [stencil, d]) args
  | none => .funCall (.funCall (.symRef "as_fieldop") [stencil]) args

/-- Embeds `_canonicalize_as_fieldop`: a bare deref stencil is replaced
by the explicit one-parameter identity lambda (the inferred-type copy is
annex metadata, invisible to the structural embedding). -/
def _canonicalize_as_fieldop (expr : Expr) : Res Expr :=
  if is_applied_as_fieldop expr then
    match expr with
    | .funCall (.funCall _ fnArgs) args => do
      let stencil ← getArg fnArgs 0
      let domain := fnArgs.get? 1
      if is_ref_to stencil "deref" then
        pure (im_as_fieldop im_deref_identity domain args)
      else pure expr
    | _ => throw Err.assertionError
  else throw Err.assertionError

/-- Modelled from the spec/builders: `im.promote_to_const_iterator` — a
literal lifted to a constant iterator. -/
def promote_to_const_iterator (x : Expr) : Expr :=
  .funCall (.funCall (.symRef "lift") [.lam [] x]) []

/-- Modelled from the spec/builders: `im.op_as_fieldop(op)(*args)` — op
wrapped in a deref-ing stencil applied as an as_fieldop without a
domain. -/
def derefParams (n : Nat) : List String :=
  (List.range n).map (fun i => "__arg" ++ toString i)

def op_as_fieldop (op : Expr) (args : List Expr) : Expr :=
  .funCall (.funCall (.symRef "as_fieldop")
    [.lam (derefParams args.length)
      (.funCall op ((derefParams args.length).map
        (fun p => .funCall (.symRef "deref") [.symRef p])))])
    args

/-- Embeds the parameter/argument loop of `_inline_as_fieldop_arg`:
SymRef arguments are kept (keyed by their own name), literals are bound
into the stencil body as constant iterators, any other argument draws a
fresh "__iasfop" parameter name. -/
def inlineLoop : List String → List Expr → Expr → List String → ArgMap → Nat →
    Res (List String × Expr × ArgMap × Nat)
  | [], [], body, ps, ex, k => pure (ps, body, ex, k)
  | p :: prest, a :: arest, body, ps, ex, k =>
    match a with
    | .symRef i => inlineLoop prest arest body (ps ++ [p]) (upsertArg ex i (.symRef i)) k
    | .lit v t =>
        inlineLoop prest arest (im_let p (promote_to_const_iterator (.lit v t)) body) ps ex k
    | other =>
        inlineLoop prest arest body (ps ++ [p])
          (upsertArg ex ("__iasfop_" ++ toString k) other) (k + 1)
  | _, _, _, _, _, _ => throw (Err.valueError "zip strict")

/-- Embeds `_inline_as_fieldop_arg`: the argument is canonicalized and
rewritten into a lift expression over the extracted arguments. -/
def _inline_as_fieldop_arg (arg : Expr) (uidk : Nat) : Res ((Expr × ArgMap) × Nat) := do
  if is_applied_as_fieldop arg then do
    let arg1 ← _canonicalize_as_fieldop arg
    match arg1 with
    | .funCall (.funCall _ fnArgs) innerArgs => do
      let stencil ← (match fnArgs with
        | [] => throw (Err.valueError "unpack")
        | st :: _ => pure st)
      match stencil with
      | .lam ps body => do
        let r ← inlineLoop ps innerArgs body [] [] uidk
        pure ((.funCall (.funCall (.symRef "lift") [.lam r.1 r.2.1])
                 (r.2.2.1.map (fun kv => Expr.symRef kv.1)),
               r.2.2.1), r.2.2.2)
      | _ => throw Err.assertionError
    | _ => throw Err.assertionError
  else throw Err.assertionError

/-- The pre-inlining coercion of an inlinable argument (lines 154-164):
an applied as_fieldop passes through, an if_ call is wrapped via
`im.op_as_fieldop("if_")`, a literal via a nullary stencil. -/
def coerceInlineArg (a : Expr) : Res Expr :=
  if is_applied_as_fieldop a then pure a
  else if is_call_to a ["if_"] then
    (match a with
     | .funCall _ aargs => pure (op_as_fieldop (.symRef "if_") aargs)
     | _ => throw Err.assertionError)
  else if isLit a then pure (op_as_fieldop (.lam [] a) [])
  else throw Err.notImplementedError

/-- The fused parameter name of a non-inlined argument (lines 172-179):
a bare reference keeps its own name, anything else the stencil
parameter name. -/
def nonInlineName (p : String) (a : Expr) : String :=
  match a with
  | .symRef i => i
  | _ => p

/-- The body update of a non-inlined argument (line 177): a bare
reference is let-bound to the stencil parameter. -/
def nonInlineBody (p : String) (a : Expr) (body : Expr) : Expr :=
  match a with
  | .symRef i => im_let p (.symRef i) body
  | _ => body

/-- Embeds the stencil-parameter/argument loop of
`FuseAsFieldOp.visit_FunCall` (lines 145-180): per argument the inline
heuristic decides between inlining (merging the extracted arguments)
and keeping the argument as a fused-stencil parameter, reusing its own
name when it is a bare reference.  The per-argument element types come
from the external type oracle and are supplied as a parallel list. -/
def fuseArgsLoop : List String → List Expr → List DType → List (List ShiftTuple) →
    Expr → ArgMap → Nat → Res (Expr × ArgMap × Nat)
  | [], [], [], [], body, newArgs, k => pure (body, newArgs, k)
  | p :: ps, a :: as2, dt :: dts, sh :: shs, body, newArgs, k =>
    if should_inline a dt sh then do
      let a1 ← coerceInlineArg a
      let r ← _inline_as_fieldop_arg a1 k
      let newArgs1 ← _merge_arguments newArgs r.1.2
      fuseArgsLoop ps as2 dts shs (im_let p r.1.1 body) newArgs1 r.2
    else do
      let newArgs1 ← _merge_arguments newArgs [(nonInlineName p a, a)]
      fuseArgsLoop ps as2 dts shs (nonInlineBody p a body) newArgs1 k
  | _, _, _, _, _, _, _ => throw (Err.valueError "zip strict")


theorem lookupArg_append_left {m : ArgMap} {k : String} {v : Expr} (l : ArgMap)
    (h : lookupArg m k = some v) : lookupArg (m ++ l) k = some v := by
  induction m with
  | nil => simp [lookupArg] at h
  | cons q rest ih =>
    obtain ⟨qk, qv⟩ := q
    rw [List.cons_append, lookupArg]
    rw [lookupArg] at h
    by_cases hq : (qk == k) = true
    · simp only [hq, if_true] at h ⊢; exact h
    · simp only [hq, Bool.false_eq_true, if_false] at h ⊢; exact ih h

theorem lookupArg_append_right {m : ArgMap} {k : String} (l : ArgMap)
    (h : lookupArg m k = none) : lookupArg (m ++ l) k = lookupArg l k := by
  induction m with
  | nil => simp
  | cons q rest ih =>
    obtain ⟨qk, qv⟩ := q
    rw [List.cons_append, lookupArg]
    rw [lookupArg] at h
    by_cases hq : (qk == k) = true
    · simp only [hq, if_true] at h; exact absurd h (by simp)
    · simp only [hq, Bool.false_eq_true, if_false] at h ⊢; exact ih h

/-- Merging never changes or removes an existing binding. -/
theorem merge_mono : ∀ (add m m' : ArgMap) (k : String) (v : Expr),
    _merge_arguments m add = .ok m' → lookupArg m k = some v →
    lookupArg m' k = some v := by
  intro add
  induction add with
  | nil =>
    intro m m' k v h hk
    simp only [_merge_arguments, pure, Except.pure, Except.ok.injEq] at h
    subst h
    exact hk
  | cons q rest ih =>
    intro m m' k v h hk
    obtain ⟨qk, qv⟩ := q
    rw [_merge_arguments] at h
    cases hl : lookupArg m qk with
    | none =>
      rw [hl] at h
      exact ih _ _ _ _ h (lookupArg_append_left _ hk)
    | some w =>
      rw [hl] at h
      by_cases hw : (w == qv) = true
      · simp only [hw, if_true] at h
        exact ih _ _ _ _ h hk
      · simp only [hw, Bool.false_eq_true, if_false] at h
        exact absurd h (by simp [resThrow])

/-- Merging a singleton binds its key to its value in the result. -/
theorem merge_single {m m' : ArgMap} {k : String} {v : Expr}
    (h : _merge_arguments m [(k, v)] = .ok m') : lookupArg m' k = some v := by
  rw [_merge_arguments] at h
  cases hl : lookupArg m k with
  | none =>
    rw [hl] at h
    simp only [_merge_arguments, pure, Except.pure, Except.ok.injEq] at h
    subst h
    rw [lookupArg_append_right _ hl]
    simp [lookupArg]
  | some w =>
    rw [hl] at h
    by_cases hw : (w == v) = true
    · simp only [hw, if_true, _merge_arguments, pure, Except.pure, Except.ok.injEq] at h
      subst h
      rw [hl]
      exact congrArg some (by simpa using hw)
    · simp only [hw, Bool.false_eq_true, if_false] at h
      exact absurd h (by simp [resThrow])

/-- The fused-argument map only ever grows along the loop. -/
theorem fuseArgsLoop_mono : ∀ (ps : List String) (as2 : List Expr) (dts : List DType)
    (shs : List (List ShiftTuple)) (body : Expr) (newArgs : ArgMap) (k : Nat)
    (r : Expr × ArgMap × Nat) (key : String) (v : Expr),
    fuseArgsLoop ps as2 dts shs body newArgs k = .ok r →
    lookupArg newArgs key = some v → lookupArg r.2.1 key = some v := by
  intro ps
  induction ps with
  | nil =>
    intro as2 dts shs body newArgs k r key v h hk
    match as2, dts, shs, h with
    | [], [], [], h =>
      simp only [fuseArgsLoop, pure, Except.pure, Except.ok.injEq] at h
      subst h
      exact hk
  | cons p ps ih =>
    intro as2 dts shs body newArgs k r key v h hk
    obtain ⟨a, as2, dt, dts, sh, shs, rfl, rfl, rfl⟩ :
        ∃ a as2b dt dtsb sh shsb, as2 = a :: as2b ∧ dts = dt :: dtsb ∧
          shs = sh :: shsb := by
      cases as2 with
      | nil => cases dts <;> cases shs <;> simp [fuseArgsLoop, resThrow] at h
      | cons a as2b =>
        cases dts with
        | nil => cases shs <;> simp [fuseArgsLoop, resThrow] at h
        | cons dt dtsb =>
          cases shs with
          | nil => simp [fuseArgsLoop, resThrow] at h
          | cons sh shsb => exact ⟨a, as2b, dt, dtsb, sh, shsb, rfl, rfl, rfl⟩
    rw [fuseArgsLoop] at h
    by_cases hsi : should_inline a dt sh = true
    · simp only [hsi, if_true] at h
      obtain ⟨a1, ha1, h⟩ := bind_eq_ok h
      obtain ⟨rr, hrr, h⟩ := bind_eq_ok h
      obtain ⟨m1, hm1, h⟩ := bind_eq_ok h
      exact ih _ _ _ _ _ _ _ _ _ h (merge_mono _ _ _ _ _ hm1 hk)
    · simp only [hsi, Bool.false_eq_true, if_false] at h
      obtain ⟨m1, hm1, h⟩ := bind_eq_ok h
      exact ih _ _ _ _ _ _ _ _ _ h (merge_mono _ _ _ _ _ hm1 hk)

/-- Claim C9: the FuseAsFieldOp inlining decision and the fate of
non-inlined arguments.  First part: an argument is inlined exactly when
it is a literal, or it is an applied as_fieldop or a conditional and its
element type is a list type or it is shifted at most once (the spec
predicate, stated verbatim).  Second part: an argument that is not
inlined becomes a parameter of the fused stencil — it ends up bound in
the fused argument map under its own name when it is a bare reference
and under the stencil parameter name otherwise. -/
theorem C9_fuse_inline_heuristic :
    (∀ (arg : Expr) (dtype : DType) (sh : List ShiftTuple),
      should_inline arg dtype sh = true ↔
        (isLit arg = true ∨
          ((is_applied_as_fieldop arg = true ∨ is_call_to arg ["if_"] = true) ∧
           (dtype.isList = true ∨ sh.length ≤ 1)))) ∧
    (∀ (p : String) (ps : List String) (a : Expr) (as2 : List Expr) (dt : DType)
       (dts : List DType) (sh : List ShiftTuple) (shs : List (List ShiftTuple))
       (body : Expr) (newArgs : ArgMap) (k : Nat) (r : Expr × ArgMap × Nat),
       should_inline a dt sh = false →
       fuseArgsLoop (p :: ps) (a :: as2) (dt :: dts) (sh :: shs) body newArgs k = .ok r →
       lookupArg r.2.1 (nonInlineName p a) = some a) := by
  constructor
  · intro arg dtype sh
    cases arg <;>
      simp [should_inline, isLit, is_applied_as_fieldop, is_call_to, Bool.or_eq_true,
        Bool.and_eq_true, decide_eq_true_iff]
  · intro p ps a as2 dt dts sh shs body newArgs k r hsi h
    rw [fuseArgsLoop] at h
    simp only [hsi, Bool.false_eq_true, if_false] at h
    obtain ⟨m1, hm1, h⟩ := bind_eq_ok h
    exact fuseArgsLoop_mono _ _ _ _ _ _ _ _ _ _ h (merge_single hm1)

/-- Witness for C9 on a bare reference argument with two traced shifts
(not inlined, kept under its own name). -/
theorem C9_fuse_inline_heuristic_witness :
    should_inline (.symRef "inp") (.scalarType "float64") [["I"], ["J"]] = false ∧
    lookupArg [("inp", Expr.symRef "inp")] "inp" = some (.symRef "inp") := by
  refine ⟨by decide, ?_⟩
  have h := C9_fuse_inline_heuristic.2 "x" [] (.symRef "inp") [] (.scalarType "float64") []
    [["I"], ["J"]] [] (.symRef "bodyB") [] 0
    (im_let "x" (.symRef "inp") (.symRef "bodyB"), [("inp", Expr.symRef "inp")], 0)
    (by decide) rfl
  exact h


/-! Termination measure for the fixed-point engine.  Every rule firing
strictly decreases `MM`, a lexicographic combination (encoded linearly,
the two low components being bounded) of the potential `pot` (node count
plus three per `minus` call, since CANONICALIZE_MINUS trades its minus
node for at most two fresh nodes), the root-operation rank `opRank`
(FOLD_MIN_MAX_PLUS may move from a minimum/maximum root to an
equal-potential plus root) and the operand-pattern rank `rank`
(the argument-swapping canonicalizations preserve the potential). -/

mutual

/-- Node count of an expression. -/
def sizeE : Expr → Nat
  | .lit _ _ => 1
  | .symRef _ => 1
  | .lam _ b => 1 + sizeE b
  | .funCall fn args => 1 + sizeE fn + sizeL args

def sizeL : List Expr → Nat
  | [] => 0
  | a :: rest => sizeE a + sizeL rest

end

mutual

/-- Number of `minus` call nodes: CANONICALIZE_MINUS eliminates one per
firing and no rule ever creates one. -/
def mcountE : Expr → Nat
  | .lit _ _ => 0
  | .symRef _ => 0
  | .lam _ b => mcountE b
  | .funCall fn args =>
    (if is_call_to (.funCall fn args) ["minus"] then 1 else 0) + mcountE fn + mcountL args

def mcountL : List Expr → Nat
  | [] => 0
  | a :: rest => mcountE a + mcountL rest

end

/-- Potential of a tree: size plus three per minus call. -/
def pot (t : Expr) : Nat := sizeE t + 3 * mcountE t

/-- Potential of an argument list. -/
def potL (l : List Expr) : Nat := sizeL l + 3 * mcountL l

/-- Middle measure component: minimum/maximum-rooted nodes rank above
all others. -/
def opRank (t : Expr) : Nat :=
  if is_call_to t ["minimum", "maximum"] then 1 else 0

/-- Low measure component: rank of the root operand pattern of a binary
family call. -/
def rank (t : Expr) : Nat :=
  match t with
  | .funCall (.symRef op) [x, y] =>
    if opFamily.contains op then
      if isLit x && !isLit y then 4
      else if is_call_to x opFamily && isLit y then 3
      else if (is_call_to y [op] && !is_call_to x [op]) ||
              (is_call_to y opFamily && !is_call_to x opFamily) then 2
      else if is_call_to x opFamily then 1
      else 0
    else 0
  | _ => 0

/-- The combined strictly decreasing engine measure. -/
def MM (t : Expr) : Nat := 10 * pot t + 5 * opRank t + rank t

theorem sizeE_pos (t : Expr) : 1 ≤ sizeE t := by
  cases t <;> simp [sizeE] <;> omega

theorem pot_pos (t : Expr) : 1 ≤ pot t :=
  le_trans (sizeE_pos t) (Nat.le_add_right _ _)

theorem potL_nil : potL [] = 0 := rfl

theorem potL_cons (a : Expr) (l : List Expr) : potL (a :: l) = pot a + potL l := by
  simp [potL, pot, sizeL, mcountL]; omega

theorem pot_lit (v t : String) : pot (.lit v t) = 1 := rfl

theorem pot_of_isLit {x : Expr} (h : isLit x = true) : pot x = 1 := by
  cases x <;> simp [isLit] at h ⊢ <;> rfl

theorem pot_call (op : String) (args : List Expr) :
    pot (.funCall (.symRef op) args) =
      2 + potL args + (if op == "minus" then 3 else 0) := by
  simp only [pot, potL, sizeE, sizeL, mcountE, mcountL, is_call_to, List.contains,
    List.elem_cons, List.elem_nil]
  by_cases h : (op == "minus") = true <;> simp [h] <;> omega

theorem pot_plus (a b : Expr) : pot (im.plus a b) = 2 + pot a + pot b := by
  simp [im.plus, im.call, pot_call, potL_cons, potL_nil]; omega

theorem potL_mem_le {a : Expr} {l : List Expr} (h : a ∈ l) : pot a ≤ potL l := by
  induction l with
  | nil => cases h
  | cons x rest ih =>
    rw [potL_cons]
    rcases List.mem_cons.mp h with rfl | h
    · omega
    · have := ih h; omega

theorem potL_pos {l : List Expr} (h : l ≠ []) : 1 ≤ potL l := by
  cases l with
  | nil => exact absurd rfl h
  | cons a rest => rw [potL_cons]; have := pot_pos a; omega

theorem rank_le (t : Expr) : rank t ≤ 4 := by
  unfold rank
  repeat' split
  all_goals omega

theorem opRank_le (t : Expr) : opRank t ≤ 1 := by
  unfold opRank; split <;> omega

theorem MM_of_pot_lt {a b : Expr} (h : pot a < pot b) : MM a < MM b := by
  have h1 := rank_le a
  have h2 := opRank_le a
  unfold MM
  omega

theorem pot_le_of_MM_lt {a b : Expr} (h : MM a < MM b) : pot a ≤ pot b := by
  have h1 := rank_le b
  have h2 := opRank_le b
  unfold MM at h
  omega


/-! Structural inversion facts about argument access and guards. -/

theorem getArg_zero_shape {args : List Expr} {a : Expr}
    (h : getArg args 0 = .ok a) : ∃ t, args = a :: t := by
  cases args with
  | nil => simp [getArg] at h
  | cons x t =>
    simp only [getArg, List.get?] at h
    cases h
    exact ⟨t, rfl⟩

theorem getArg_one_shape {args : List Expr} {a : Expr}
    (h : getArg args 1 = .ok a) : ∃ x t, args = x :: a :: t := by
  cases args with
  | nil => simp [getArg] at h
  | cons x t =>
    cases t with
    | nil => simp [getArg] at h
    | cons y t2 =>
      simp only [getArg, List.get?] at h
      cases h
      exact ⟨x, t2, rfl⟩

theorem getArg_two_shape {args : List Expr} {a : Expr}
    (h : getArg args 2 = .ok a) : ∃ x y t, args = x :: y :: a :: t := by
  cases args with
  | nil => simp [getArg] at h
  | cons x t =>
    cases t with
    | nil => simp [getArg] at h
    | cons y t2 =>
      cases t2 with
      | nil => simp [getArg] at h
      | cons z t3 =>
        simp only [getArg, List.get?] at h
        cases h
        exact ⟨x, y, t3, rfl⟩

theorem getArg_error {args : List Expr} {i : Nat} {e : Err}
    (h : getArg args i = .error e) : e = Err.indexError := by
  unfold getArg at h
  cases hg : args.get? i with
  | none => rw [hg] at h; cases h; rfl
  | some b => rw [hg] at h; cases h

theorem unpack2_error {args : List Expr} {e : Err}
    (h : unpack2 args = .error e) : e = Err.valueError "unpack" := by
  unfold unpack2 at h
  match args, h with
  | [], h => cases h; rfl
  | [a], h => cases h; rfl
  | a :: b :: c :: t, h => cases h; rfl

theorem isLit_shape {x : Expr} (h : isLit x = true) : ∃ v t, x = .lit v t := by
  cases x <;> simp [isLit] at h
  exact ⟨_, _, rfl⟩

theorem is_call_to_shape {fn : Expr} {args : List Expr} {L : List String}
    (h : is_call_to (.funCall fn args) L = true) :
    ∃ op, fn = .symRef op ∧ L.contains op = true := by
  cases fn <;> simp [is_call_to] at h
  exact ⟨_, rfl, by simpa using h⟩

theorem is_call_to_funCall {x : Expr} {L : List String}
    (h : is_call_to x L = true) : ∃ fn args, x = .funCall fn args := by
  cases x <;> simp [is_call_to] at h
  exact ⟨_, _, rfl⟩

theorem isLit_false_of_call {x : Expr} {L : List String}
    (h : is_call_to x L = true) : isLit x = false := by
  obtain ⟨fn, args, rfl⟩ := is_call_to_funCall h
  rfl

theorem call_false_of_isLit {x : Expr} {L : List String}
    (h : isLit x = true) : is_call_to x L = false := by
  obtain ⟨v, t, rfl⟩ := isLit_shape h
  rfl

theorem isLit_false_of_symRefOrFunCall {x : Expr}
    (h : isSymRefOrFunCall x = true) : isLit x = false := by
  cases x <;> first
    | rfl
    | simp [isSymRefOrFunCall, isSymRef, isFunCall] at h

theorem opFamily_of_single {x : Expr} {op : String}
    (h : is_call_to x [op] = true) (hop : opFamily.contains op = true) :
    is_call_to x opFamily = true := by
  cases x with
  | funCall fn args =>
    cases fn <;> simp [is_call_to] at h ⊢
    · subst h; simpa using hop
  | lit v t => simp [is_call_to] at h
  | symRef i => simp [is_call_to] at h
  | lam ps b => simp [is_call_to] at h

theorem minmax_opFamily {op : String}
    (h : (op == "maximum" || op == "minimum") = true) :
    opFamily.contains op = true := by
  rcases Bool.or_eq_true_iff.mp h with h | h <;>
    (simp at h; subst h; decide)

theorem minmax_opFamily2 {op : String}
    (h : (op == "minimum" || op == "maximum") = true) :
    opFamily.contains op = true := by
  rcases Bool.or_eq_true_iff.mp h with h | h <;>
    (simp at h; subst h; decide)

theorem opFamily_ne_minus {op : String}
    (h : opFamily.contains op = true) : (op == "minus") = false := by
  have h2 : op = "plus" ∨ op = "multiplies" ∨ op = "minimum" ∨ op = "maximum" := by
    simpa [opFamily] using h
  rcases h2 with rfl | rfl | rfl | rfl <;> decide

theorem pot_call_family {op : String} {args : List Expr}
    (h : opFamily.contains op = true) :
    pot (.funCall (.symRef op) args) = 2 + potL args := by
  rw [pot_call, opFamily_ne_minus h]
  rfl


theorem pot_call_ge (op : String) (args : List Expr) :
    2 + potL args ≤ pot (.funCall (.symRef op) args) := by
  rw [pot_call]
  by_cases h : (op == "minus") = true
  · simp only [h, if_true]; omega
  · simp only [Bool.not_eq_true] at h
    simp only [h, Bool.false_eq_true, if_false]; omega

theorem pot_funCall_ge (fn : Expr) (args : List Expr) :
    1 + pot fn + potL args ≤ pot (.funCall fn args) := by
  simp only [pot, potL, sizeE, mcountE]
  split <;> omega

theorem contains_single {op s : String}
    (h : ([s] : List String).contains op = true) : op = s := by
  simpa using h

/-! Strict decrease of the measure `MM` under each rule firing. -/

/-- FOLD_IF returns a proper subtree. -/
theorem foldIf_decrease {n n₁ : Expr}
    (h : transform_fold_if n = .ok (some n₁)) : MM n₁ < MM n := by
  cases n with
  | lit v t => simp [transform_fold_if, pure, Except.pure] at h
  | symRef i => simp [transform_fold_if, pure, Except.pure] at h
  | lam ps b => simp [transform_fold_if, pure, Except.pure] at h
  | funCall fn args =>
    unfold transform_fold_if at h
    by_cases hg : is_call_to (Expr.funCall fn args) ["if_"] = true
    case neg => simp only [Bool.not_eq_true] at hg; simp [hg, pure, Except.pure] at h
    simp only [hg, if_true] at h
    obtain ⟨a0, ha0, h⟩ := bind_eq_ok h
    cases a0 with
    | lit v ty =>
      dsimp only at h
      by_cases hv : (v == "True") = true
      · simp only [hv, if_true] at h
        obtain ⟨a1, ha1, h⟩ := bind_eq_ok h
        simp only [pure, Except.pure, Except.ok.injEq, Option.some.injEq] at h
        subst h
        obtain ⟨x, t, rfl⟩ := getArg_one_shape ha1
        apply MM_of_pot_lt
        have h1 := pot_funCall_ge fn (x :: a1 :: t)
        rw [potL_cons, potL_cons] at h1
        have h2 := pot_pos x
        have h3 := pot_pos fn
        omega
      · simp only [Bool.not_eq_true] at hv
        simp only [hv, Bool.false_eq_true, if_false] at h
        obtain ⟨a2, ha2, h⟩ := bind_eq_ok h
        simp only [pure, Except.pure, Except.ok.injEq, Option.some.injEq] at h
        subst h
        obtain ⟨x, y, t, rfl⟩ := getArg_two_shape ha2
        apply MM_of_pot_lt
        have h1 := pot_funCall_ge fn (x :: y :: a2 :: t)
        rw [potL_cons, potL_cons, potL_cons] at h1
        have h2 := pot_pos x
        have h3 := pot_pos y
        have h4 := pot_pos fn
        omega
    | symRef i => exact absurd h (by simp [pure, Except.pure])
    | lam ps b => exact absurd h (by simp [pure, Except.pure])
    | funCall f2 a2 => exact absurd h (by simp [pure, Except.pure])

/-- FOLD_MIN_MAX_LITERALS returns a proper subtree. -/
theorem foldMinMaxLit_decrease {n n₁ : Expr}
    (h : transform_fold_min_max_literals n = .ok (some n₁)) : MM n₁ < MM n := by
  cases n with
  | lit v t => simp [transform_fold_min_max_literals, pure, Except.pure] at h
  | symRef i => simp [transform_fold_min_max_literals, pure, Except.pure] at h
  | lam ps b => simp [transform_fold_min_max_literals, pure, Except.pure] at h
  | funCall fn args =>
    unfold transform_fold_min_max_literals at h
    by_cases hg : is_call_to (Expr.funCall fn args) ["minimum", "maximum"] = true
    case neg => simp only [Bool.not_eq_true] at hg; simp [hg, pure, Except.pure] at h
    simp only [hg, if_true] at h
    obtain ⟨a0, ha0, h⟩ := bind_eq_ok h
    obtain ⟨a1, ha1, h⟩ := bind_eq_ok h
    by_cases he : (a0 == a1) = true
    · simp only [he, if_true, pure, Except.pure, Except.ok.injEq, Option.some.injEq] at h
      have hmem : n₁ ∈ args := h ▸ getArg_mem ha0
      obtain ⟨x, t, rfl⟩ := getArg_one_shape ha1
      apply MM_of_pot_lt
      have h1 := pot_funCall_ge fn (x :: a1 :: t)
      rw [potL_cons, potL_cons] at h1
      have h2 := potL_mem_le hmem
      rw [potL_cons, potL_cons] at h2
      have h3 := pot_pos a1
      have h4 := pot_pos fn
      have h5 := pot_pos x
      omega
    · simp only [Bool.not_eq_true] at he
      simp [he, pure, Except.pure] at h

/-- FOLD_NEUTRAL_OP returns a proper subtree. -/
theorem foldNeutral_decrease {n n₁ : Expr}
    (h : transform_fold_neutral_op n = .ok (some n₁)) : MM n₁ < MM n := by
  cases n with
  | lit v t => simp [transform_fold_neutral_op, pure, Except.pure] at h
  | symRef i => simp [transform_fold_neutral_op, pure, Except.pure] at h
  | lam ps b => simp [transform_fold_neutral_op, pure, Except.pure] at h
  | funCall fn args =>
    unfold transform_fold_neutral_op at h
    have main : ∀ a1 : Expr, getArg args 1 = .ok a1 → n₁ ∈ args →
        MM n₁ < MM (.funCall fn args) := by
      intro a1 ha1 hmem
      obtain ⟨x, t, rfl⟩ := getArg_one_shape ha1
      apply MM_of_pot_lt
      have h1 := pot_funCall_ge fn (x :: a1 :: t)
      rw [potL_cons, potL_cons] at h1
      have h2 := potL_mem_le hmem
      rw [potL_cons, potL_cons] at h2
      have h3 := pot_pos a1
      have h4 := pot_pos fn
      have h5 := pot_pos x
      omega
    by_cases hg : is_call_to (Expr.funCall fn args) ["plus"] = true
    · simp only [hg, if_true] at h
      obtain ⟨a1, ha1, h⟩ := bind_eq_ok h
      cases a1 with
      | lit v ty =>
        dsimp only at h
        by_cases hd : isDigitValue v 0 = true
        · simp only [hd, if_true] at h
          obtain ⟨a0, ha0, h⟩ := bind_eq_ok h
          simp only [pure, Except.pure, Except.ok.injEq, Option.some.injEq] at h
          subst h
          exact main _ ha1 (getArg_mem ha0)
        · simp only [Bool.not_eq_true] at hd
          simp [hd, pure, Except.pure] at h
      | symRef i => exact absurd h (by simp [pure, Except.pure])
      | lam ps b => exact absurd h (by simp [pure, Except.pure])
      | funCall f2 a2 => exact absurd h (by simp [pure, Except.pure])
    · simp only [Bool.not_eq_true] at hg
      simp only [hg, Bool.false_eq_true, if_false] at h
      by_cases hg2 : is_call_to (Expr.funCall fn args) ["multiplies"] = true
      case neg =>
        simp only [Bool.not_eq_true] at hg2
        simp [hg2, pure, Except.pure] at h
      simp only [hg2, if_true] at h
      obtain ⟨a1, ha1, h⟩ := bind_eq_ok h
      cases a1 with
      | lit v ty =>
        dsimp only at h
        by_cases hd : isDigitValue v 1 = true
        · simp only [hd, if_true] at h
          obtain ⟨a0, ha0, h⟩ := bind_eq_ok h
          simp only [pure, Except.pure, Except.ok.injEq, Option.some.injEq] at h
          subst h
          exact main _ ha1 (getArg_mem ha0)
        · simp only [Bool.not_eq_true] at hd
          simp [hd, pure, Except.pure] at h
      | symRef i => exact absurd h (by simp [pure, Except.pure])
      | lam ps b => exact absurd h (by simp [pure, Except.pure])
      | funCall f2 a2 => exact absurd h (by simp [pure, Except.pure])

/-- FOLD_ARITHMETIC_BUILTINS folds a call to a single literal. -/
theorem foldArith_decrease {n n₁ : Expr}
    (h : transform_fold_arithmetic_builtins n = .ok (some n₁)) : MM n₁ < MM n := by
  cases n with
  | lit v t => simp [transform_fold_arithmetic_builtins, pure, Except.pure] at h
  | symRef i => simp [transform_fold_arithmetic_builtins, pure, Except.pure] at h
  | lam ps b => simp [transform_fold_arithmetic_builtins, pure, Except.pure] at h
  | funCall fn args =>
    cases fn with
    | symRef f =>
      unfold transform_fold_arithmetic_builtins at h
      by_cases hg : (decide (args.length > 0) && args.all isLit) = true
      case neg =>
        simp only [Bool.not_eq_true] at hg
        simp [hg, pure, Except.pure] at h
      simp only [hg, if_true] at h
      by_cases hb : ARITHMETIC_BUILTINS.contains f = true
      case neg =>
        simp only [Bool.not_eq_true] at hb
        simp only [hb, Bool.false_eq_true, if_false] at h
        exact absurd h (by simp [pure, Except.pure])
      simp only [hb, if_true] at h
      cases he : arithEval f args with
      | none => rw [he] at h; simp [pure, Except.pure] at h
      | some l =>
        rw [he] at h
        simp only [pure, Except.pure, Except.ok.injEq, Option.some.injEq] at h
        subst h
        have hlit := arithEval_isLit he
        have hne : args ≠ [] := by
          intro hnil
          subst hnil
          simp at hg
        have hpl := potL_pos hne
        have h1 := pot_funCall_ge (.symRef f) args
        apply MM_of_pot_lt
        rw [pot_of_isLit hlit]
        have h3 := pot_pos (Expr.symRef f)
        omega
    | lit v t => simp [transform_fold_arithmetic_builtins, pure, Except.pure] at h
    | lam ps b => simp [transform_fold_arithmetic_builtins, pure, Except.pure] at h
    | funCall f2 a2 => simp [transform_fold_arithmetic_builtins, pure, Except.pure] at h

/-- FOLD_MIN_MAX collapses to the inner call, a proper subtree. -/
theorem foldMinMax_decrease {n n₁ : Expr}
    (h : transform_fold_min_max n = .ok (some n₁)) : MM n₁ < MM n := by
  cases n with
  | lit v t => simp [transform_fold_min_max, pure, Except.pure] at h
  | symRef i => simp [transform_fold_min_max, pure, Except.pure] at h
  | lam ps b => simp [transform_fold_min_max, pure, Except.pure] at h
  | funCall fn args =>
    cases fn with
    | symRef op =>
      unfold transform_fold_min_max at h
      by_cases hg : (op == "minimum" || op == "maximum") = true
      case neg =>
        simp only [Bool.not_eq_true] at hg
        simp [hg, pure, Except.pure] at h
      simp only [hg, if_true] at h
      obtain ⟨a0, ha0, h⟩ := bind_eq_ok h
      by_cases hc : is_call_to a0 [op] = true
      case neg =>
        simp only [Bool.not_eq_true] at hc
        simp [hc, pure, Except.pure] at h
      simp only [hc, if_true] at h
      obtain ⟨p, hp, h⟩ := bind_eq_ok h
      obtain ⟨p1, p2⟩ := p
      have hargs : args = [p1, p2] := by simpa using unpack2_eq hp
      cases p1 with
      | funCall fc fcArgs =>
        dsimp only at h
        by_cases hm : fcArgs.contains p2 = true
        · simp only [hm, if_true, pure, Except.pure, Except.ok.injEq,
            Option.some.injEq] at h
          subst h
          subst hargs
          apply MM_of_pot_lt
          have h1 := pot_funCall_ge (.symRef op) [Expr.funCall fc fcArgs, p2]
          rw [potL_cons, potL_cons, potL_nil] at h1
          have h2 := pot_pos p2
          omega
        · simp only [Bool.not_eq_true] at hm
          simp only [hm, Bool.false_eq_true, if_false] at h
          exact absurd h (by simp [pure, Except.pure])
      | lit v t => exact absurd h (by simp [pure, Except.pure])
      | symRef i => exact absurd h (by simp [pure, Except.pure])
      | lam ps b => exact absurd h (by simp [pure, Except.pure])
    | lit v t => simp [transform_fold_min_max, pure, Except.pure] at h
    | lam ps b => simp [transform_fold_min_max, pure, Except.pure] at h
    | funCall f2 a2 => simp [transform_fold_min_max, pure, Except.pure] at h

/-- CANONICALIZE_MINUS trades the minus node (potential 3 + size) for a
plus node over the folded neg subtree. -/
theorem canonMinus_decrease {fp : Expr → Res Expr}
    (hfp : ∀ x r, fp x = .ok r → pot r ≤ pot x) {n n₁ : Expr}
    (h : transform_canonicalize_minus fp n = .ok (some n₁)) : MM n₁ < MM n := by
  cases n with
  | lit v t => simp [transform_canonicalize_minus, pure, Except.pure] at h
  | symRef i => simp [transform_canonicalize_minus, pure, Except.pure] at h
  | lam ps b => simp [transform_canonicalize_minus, pure, Except.pure] at h
  | funCall fn args =>
    unfold transform_canonicalize_minus at h
    by_cases hg : is_call_to (Expr.funCall fn args) ["minus"] = true
    case neg => simp only [Bool.not_eq_true] at hg; simp [hg, pure, Except.pure] at h
    simp only [hg, if_true] at h
    obtain ⟨a0, ha0, h⟩ := bind_eq_ok h
    obtain ⟨a1, ha1, h⟩ := bind_eq_ok h
    obtain ⟨r, hr, h⟩ := bind_eq_ok h
    simp only [pure, Except.pure, Except.ok.injEq, Option.some.injEq] at h
    subst h
    obtain ⟨op, rfl, hop⟩ := is_call_to_shape hg
    have hops : op = "minus" := contains_single hop
    subst hops
    obtain ⟨x, t, rfl⟩ := getArg_one_shape ha1
    obtain ⟨t0, h0⟩ := getArg_zero_shape ha0
    simp only [List.cons.injEq] at h0
    obtain ⟨rfl, rfl⟩ := h0
    have hrle : pot r ≤ 2 + pot a1 := by
      have := hfp _ _ hr
      have hcall : pot (im.call "neg" [a1]) = 2 + pot a1 := by
        rw [im.call, pot_call, potL_cons, potL_nil]
        have hx : (("neg" == "minus") = false) := by decide
        simp only [hx, Bool.false_eq_true, if_false]
        omega
      omega
    apply MM_of_pot_lt
    rw [pot_plus, pot_call]
    rw [potL_cons, potL_cons]
    have : (("minus" == "minus") = true) := by decide
    simp only [this, if_true]
    omega


theorem expr_eq_of_beq {a b : Expr} (h : (a == b) = true) : a = b := by
  simpa using h

theorem rank_eq {op : String} (x y : Expr) (hf : opFamily.contains op = true) :
    rank (.funCall (.symRef op) [x, y]) =
      (if isLit x && !isLit y then 4
       else if is_call_to x opFamily && isLit y then 3
       else if (is_call_to y [op] && !is_call_to x [op]) ||
               (is_call_to y opFamily && !is_call_to x opFamily) then 2
       else if is_call_to x opFamily then 1
       else 0) := by
  unfold rank
  simp only [hf, if_true]

theorem opRank_call (op : String) (args args2 : List Expr) :
    opRank (.funCall (.symRef op) args) = opRank (.funCall (.symRef op) args2) := by
  simp [opRank, is_call_to]

theorem opRank_plus_root (args : List Expr) :
    opRank (.funCall (.symRef "plus") args) = 0 := rfl

theorem opRank_minmax {op : String}
    (hg : (op == "minimum" || op == "maximum") = true) (args : List Expr) :
    opRank (.funCall (.symRef op) args) = 1 := by
  rcases Bool.or_eq_true_iff.mp hg with h | h <;> (simp at h; subst h; rfl)

theorem opRank_minmax2 {op : String}
    (hg : (op == "maximum" || op == "minimum") = true) (args : List Expr) :
    opRank (.funCall (.symRef op) args) = 1 := by
  rcases Bool.or_eq_true_iff.mp hg with h | h <;> (simp at h; subst h; rfl)

/-- When CANONICALIZE_OP_FUNCALL_SYMREF_LITERAL declines on a family
call whose second operand is a family call, the first operand is one
too. -/
theorem canonOp_none_inv {fn : Expr} {args : List Expr} {a0 a1 : Expr}
    (hg : is_call_to (.funCall fn args) opFamily = true)
    (ha0 : getArg args 0 = .ok a0) (ha1 : getArg args 1 = .ok a1)
    (hc1 : is_call_to a1 opFamily = true)
    (hnone : transform_canonicalize_op_funcall_symref_literal (.funCall fn args) = .ok none) :
    is_call_to a0 opFamily = true := by
  unfold transform_canonicalize_op_funcall_symref_literal at hnone
  simp only [hg, if_true] at hnone
  rw [ha0, resBindOk] at hnone
  by_cases hl0 : isLit a0 = true
  · exfalso
    simp only [hl0, if_true] at hnone
    rw [ha1, resBindOk] at hnone
    have hl1 : isLit a1 = false := isLit_false_of_call hc1
    simp only [hl1, Bool.not_false, if_true] at hnone
    exact absurd hnone (by simp [pure, Except.pure])
  · simp only [Bool.not_eq_true] at hl0
    simp only [hl0, Bool.false_eq_true, if_false] at hnone
    by_cases hc0 : is_call_to a0 opFamily = true
    · exact hc0
    · exfalso
      simp only [Bool.not_eq_true] at hc0
      simp only [hc0, Bool.false_eq_true, if_false] at hnone
      rw [ha1, resBindOk] at hnone
      simp only [hc1, if_true] at hnone
      exact absurd hnone (by simp [pure, Except.pure])

/-- CANONICALIZE_OP_FUNCALL_SYMREF_LITERAL swaps the operands: the
potential never grows (extra arguments are dropped) and on the
potential-preserving two-argument case the operand-pattern rank strictly
decreases. -/
theorem canonOp_decrease {n n₁ : Expr}
    (h : transform_canonicalize_op_funcall_symref_literal n = .ok (some n₁)) :
    MM n₁ < MM n := by
  cases n with
  | lit v t => simp [transform_canonicalize_op_funcall_symref_literal, pure, Except.pure] at h
  | symRef i => simp [transform_canonicalize_op_funcall_symref_literal, pure, Except.pure] at h
  | lam ps b => simp [transform_canonicalize_op_funcall_symref_literal, pure, Except.pure] at h
  | funCall fn args =>
    unfold transform_canonicalize_op_funcall_symref_literal at h
    by_cases hg : is_call_to (Expr.funCall fn args) opFamily = true
    case neg => simp only [Bool.not_eq_true] at hg; simp [hg, pure, Except.pure] at h
    simp only [hg, if_true] at h
    obtain ⟨a0, ha0, h⟩ := bind_eq_ok h
    obtain ⟨op, rfl, hop⟩ := is_call_to_shape hg
    by_cases hl0 : isLit a0 = true
    · simp only [hl0, if_true] at h
      obtain ⟨a1, ha1, h⟩ := bind_eq_ok h
      by_cases hl1 : (!isLit a1) = true
      case neg =>
        simp only [Bool.not_eq_true] at hl1
        simp [hl1, pure, Except.pure] at h
      simp only [hl1, if_true, pure, Except.pure, Except.ok.injEq, Option.some.injEq] at h
      have hl1x : isLit a1 = false := by simpa using hl1
      clear hl1
      have heq := h
      obtain ⟨x, t, rfl⟩ := getArg_one_shape ha1
      have hx0 : x = a0 := by simpa [getArg, List.get?] using ha0
      subst hx0
      rw [← heq]
      cases t with
      | cons c t2 =>
        apply MM_of_pot_lt
        rw [pot_call_family hop, pot_call_family hop,
          potL_cons, potL_cons, potL_nil, potL_cons, potL_cons, potL_cons]
        have := pot_pos c
        omega
      | nil =>
        have hpe : pot (Expr.funCall (.symRef op) [a1, x]) =
            pot (Expr.funCall (.symRef op) [x, a1]) := by
          rw [pot_call_family hop, pot_call_family hop,
            potL_cons, potL_cons, potL_nil, potL_cons, potL_cons, potL_nil]
          omega
        have hoe := opRank_call op [a1, x] [x, a1]
        have hrn : rank (Expr.funCall (.symRef op) [x, a1]) = 4 := by
          rw [rank_eq _ _ hop]
          simp [hl0, hl1x]
        have hrn1 : rank (Expr.funCall (.symRef op) [a1, x]) < 4 := by
          rw [rank_eq _ _ hop]
          have hxc : is_call_to x opFamily = false := call_false_of_isLit hl0
          have hxs : is_call_to x [op] = false := call_false_of_isLit hl0
          by_cases hc : is_call_to a1 opFamily = true
          · simp [hl1x, hc, hl0, hxc, hxs]
          · simp only [Bool.not_eq_true] at hc
            simp [hl1x, hc, hl0, hxc, hxs]
        unfold MM
        omega
    · simp only [hl0, Bool.false_eq_true, if_false] at h
      by_cases hc0 : is_call_to a0 opFamily = true
      case pos => simp [hc0, pure, Except.pure] at h
      simp only [Bool.not_eq_true] at hc0
      simp only [hc0, Bool.false_eq_true, if_false] at h
      obtain ⟨a1, ha1, h⟩ := bind_eq_ok h
      by_cases hc1 : is_call_to a1 opFamily = true
      case neg =>
        simp only [Bool.not_eq_true] at hc1
        simp [hc1, pure, Except.pure] at h
      simp only [hc1, if_true, pure, Except.pure, Except.ok.injEq, Option.some.injEq] at h
      have heq := h
      obtain ⟨x, t, rfl⟩ := getArg_one_shape ha1
      have hx0 : x = a0 := by simpa [getArg, List.get?] using ha0
      subst hx0
      rw [← heq]
      cases t with
      | cons c t2 =>
        apply MM_of_pot_lt
        rw [pot_call_family hop, pot_call_family hop,
          potL_cons, potL_cons, potL_nil, potL_cons, potL_cons, potL_cons]
        have := pot_pos c
        omega
      | nil =>
        have hpe : pot (Expr.funCall (.symRef op) [a1, x]) =
            pot (Expr.funCall (.symRef op) [x, a1]) := by
          rw [pot_call_family hop, pot_call_family hop,
            potL_cons, potL_cons, potL_nil, potL_cons, potL_cons, potL_nil]
          omega
        have hoe := opRank_call op [a1, x] [x, a1]
        have hl1 : isLit a1 = false := isLit_false_of_call hc1
        have hl0x : isLit x = false := by simpa using hl0
        have hs0 : is_call_to x [op] = false := by
          cases hcs : is_call_to x [op] with
          | true => exact absurd (opFamily_of_single hcs hop) (by simp [hc0])
          | false => rfl
        have hrn : rank (Expr.funCall (.symRef op) [x, a1]) = 2 := by
          rw [rank_eq _ _ hop]
          simp [hl0x, hc0, hc1, hl1]
        have hrn1 : rank (Expr.funCall (.symRef op) [a1, x]) < 2 := by
          rw [rank_eq _ _ hop]
          simp [hl0x, hl1, hc0, hc1, hs0]
        unfold MM
        omega


/-- CANONICALIZE_MIN_MAX swaps the operands of a min/max call; given
that the first canonicalization declined, the first operand is itself a
family call and the operand-pattern rank strictly decreases on the
potential-preserving case. -/
theorem canonMinMax_decrease {n n₁ : Expr}
    (hnone : transform_canonicalize_op_funcall_symref_literal n = .ok none)
    (h : transform_canonicalize_min_max n = .ok (some n₁)) : MM n₁ < MM n := by
  cases n with
  | lit v t => simp [transform_canonicalize_min_max, pure, Except.pure] at h
  | symRef i => simp [transform_canonicalize_min_max, pure, Except.pure] at h
  | lam ps b => simp [transform_canonicalize_min_max, pure, Except.pure] at h
  | funCall fn args =>
    cases fn with
    | symRef op =>
      unfold transform_canonicalize_min_max at h
      by_cases hg : (op == "maximum" || op == "minimum") = true
      case neg =>
        simp only [Bool.not_eq_true] at hg
        simp [hg, pure, Except.pure] at h
      simp only [hg, if_true] at h
      obtain ⟨a1, ha1, h⟩ := bind_eq_ok h
      by_cases hc1 : is_call_to a1 [op] = true
      case neg =>
        simp only [Bool.not_eq_true] at hc1
        simp [hc1, pure, Except.pure] at h
      simp only [hc1, if_true] at h
      obtain ⟨a0, ha0, h⟩ := bind_eq_ok h
      by_cases hc0 : (!is_call_to a0 [op]) = true
      case neg =>
        simp only [Bool.not_eq_true] at hc0
        simp [hc0, pure, Except.pure] at h
      simp only [hc0, if_true, pure, Except.pure, Except.ok.injEq, Option.some.injEq] at h
      have hop : opFamily.contains op = true := minmax_opFamily hg
      have hc1f : is_call_to a1 opFamily = true := opFamily_of_single hc1 hop
      have hgf : is_call_to (.funCall (.symRef op) args) opFamily = true := hop
      have hof0 : is_call_to a0 opFamily = true :=
        canonOp_none_inv hgf ha0 ha1 hc1f hnone
      have hc0s : is_call_to a0 [op] = false := by simpa using hc0
      have heq := h
      obtain ⟨x, t, rfl⟩ := getArg_one_shape ha1
      have hx0 : x = a0 := by simpa [getArg, List.get?] using ha0
      rw [← hx0] at hof0 hc0s heq
      rw [← heq]
      rw [im.call]
      cases t with
      | cons c t2 =>
        apply MM_of_pot_lt
        rw [pot_call_family hop, pot_call_family hop,
          potL_cons, potL_cons, potL_nil, potL_cons, potL_cons, potL_cons]
        have := pot_pos c
        omega
      | nil =>
        have hpe : pot (Expr.funCall (.symRef op) [a1, x]) =
            pot (Expr.funCall (.symRef op) [x, a1]) := by
          rw [pot_call_family hop, pot_call_family hop,
            potL_cons, potL_cons, potL_nil, potL_cons, potL_cons, potL_nil]
          omega
        have hoe := opRank_call op [a1, x] [x, a1]
        have hl0 : isLit x = false := isLit_false_of_call hof0
        have hl1 : isLit a1 = false := isLit_false_of_call hc1f
        have hrn : rank (Expr.funCall (.symRef op) [x, a1]) = 2 := by
          rw [rank_eq _ _ hop]
          simp [hl0, hl1, hc1, hc0s, hof0]
        have hrn1 : rank (Expr.funCall (.symRef op) [a1, x]) < 2 := by
          rw [rank_eq _ _ hop]
          simp [hl0, hl1, hc0s, hof0, hc1f]
        unfold MM
        omega
    | lit v t => simp [transform_canonicalize_min_max, pure, Except.pure] at h
    | lam ps b => simp [transform_canonicalize_min_max, pure, Except.pure] at h
    | funCall f2 a2 => simp [transform_canonicalize_min_max, pure, Except.pure] at h

/-- FOLD_MIN_MAX_PLUS moves from a minimum/maximum root to a plus root
of no larger potential: the middle measure component drops. -/
theorem foldMinMaxPlus_decrease {fp : Expr → Res Expr}
    (hfp : ∀ x r, fp x = .ok r → pot r ≤ pot x) {n n₁ : Expr}
    (h : transform_fold_min_max_plus fp n = .ok (some n₁)) : MM n₁ < MM n := by
  cases n with
  | lit v t => simp [transform_fold_min_max_plus, pure, Except.pure] at h
  | symRef i => simp [transform_fold_min_max_plus, pure, Except.pure] at h
  | lam ps b => simp [transform_fold_min_max_plus, pure, Except.pure] at h
  | funCall fn args =>
    cases fn with
    | symRef op =>
      unfold transform_fold_min_max_plus at h
      by_cases hg : (op == "minimum" || op == "maximum") = true
      case neg =>
        simp only [Bool.not_eq_true] at hg
        simp [hg, pure, Except.pure] at h
      simp only [hg, if_true] at h
      obtain ⟨p, hp, hA⟩ := bind_eq_ok h
      clear h
      obtain ⟨p1, p2⟩ := p
      have hargs : args = [p1, p2] := by simpa using unpack2_eq hp
      rw [hargs]
      dsimp only at hA
      by_cases h0 : is_call_to p1 ["plus"] = true
      case neg =>
        simp only [Bool.not_eq_true] at h0
        simp [h0, pure, Except.pure] at hA
      simp only [h0, if_true] at hA
      have hopf : opFamily.contains op = true := minmax_opFamily2 hg
      have hpotn : pot (Expr.funCall (.symRef op) [p1, p2]) = 2 + pot p1 + pot p2 := by
        rw [pot_call_family hopf, potL_cons, potL_cons, potL_nil]
        omega
      have hORn : opRank (Expr.funCall (.symRef op) [p1, p2]) = 1 := opRank_minmax hg _
      cases p1 with
      | funCall fn2 a0Args =>
        dsimp only at hA
        obtain ⟨op2, hfn2, hop2⟩ := is_call_to_shape h0
        obtain rfl : op2 = "plus" := contains_single hop2
        subst hfn2
        obtain ⟨x, hx, hB⟩ := bind_eq_ok hA
        clear hA
        by_cases hxy : (x == p2) = true
        · simp only [hxy, if_true] at hB
          obtain ⟨k1, hk1, hC⟩ := bind_eq_ok hB
          clear hB
          obtain ⟨r, hr, hD⟩ := bind_eq_ok hC
          clear hC
          simp only [pure, Except.pure, Except.ok.injEq, Option.some.injEq] at hD
          have hp2 : x = p2 := expr_eq_of_beq hxy
          have hple : pot r ≤ 3 + pot k1 := by
            have h1 := hfp _ _ hr
            have h2 : pot (im.call op [k1, im.literalZero]) = 3 + pot k1 := by
              rw [im.call, pot_call_family hopf, potL_cons, potL_cons, potL_nil]
              rw [show pot im.literalZero = 1 from rfl]
              omega
            omega
          obtain ⟨x', t2, hsh⟩ := getArg_one_shape hk1
          have hxx : x' = x := by
            rw [hsh] at hx
            simpa [getArg, List.get?] using hx
          rw [hxx] at hsh
          rw [hsh] at hpotn hORn
          rw [← hD, hsh]
          have hpp1 : pot (Expr.funCall (.symRef "plus") (x :: k1 :: t2)) =
              2 + pot x + pot k1 + potL t2 := by
            rw [pot_call_family (by decide), potL_cons, potL_cons]
            omega
          have hpp2 : pot p2 = pot x := by rw [← hp2]
          have hpn1 : pot (im.plus x r) = 2 + pot x + pot r := pot_plus x r
          have hOR1 : opRank (im.plus x r) = 0 := by
            rw [im.plus, im.call]
            exact opRank_plus_root _
          have hrk1 := rank_le (im.plus x r)
          have hpx := pot_pos x
          unfold MM
          rw [hpn1, hOR1, hpotn, hORn, hpp1, hpp2]
          omega
        · simp only [Bool.not_eq_true] at hxy
          simp only [hxy, Bool.false_eq_true, if_false] at hB
          by_cases h2 : is_call_to p2 ["plus"] = true
          case neg =>
            simp only [Bool.not_eq_true] at h2
            simp [h2, pure, Except.pure] at hB
          simp only [h2, if_true] at hB
          cases p2 with
          | funCall fn3 a1Args =>
            dsimp only at hB
            obtain ⟨op3, hfn3, hop3⟩ := is_call_to_shape h2
            obtain rfl : op3 = "plus" := contains_single hop3
            subst hfn3
            obtain ⟨y, hy, hC⟩ := bind_eq_ok hB
            clear hB
            by_cases hxy2 : (x == y) = true
            · simp only [hxy2, if_true] at hC
              obtain ⟨k1, hk1, hD⟩ := bind_eq_ok hC
              clear hC
              obtain ⟨k2, hk2, hE⟩ := bind_eq_ok hD
              clear hD
              obtain ⟨r, hr, hF⟩ := bind_eq_ok hE
              clear hE
              simp only [pure, Except.pure, Except.ok.injEq, Option.some.injEq] at hF
              have hxyE : x = y := expr_eq_of_beq hxy2
              have hple : pot r ≤ 2 + pot k1 + pot k2 := by
                have h1 := hfp _ _ hr
                have h2x : pot (im.call op [k1, k2]) = 2 + pot k1 + pot k2 := by
                  rw [im.call, pot_call_family hopf, potL_cons, potL_cons, potL_nil]
                  omega
                omega
              obtain ⟨x', t2, hsh⟩ := getArg_one_shape hk1
              have hxx : x' = x := by
                rw [hsh] at hx
                simpa [getArg, List.get?] using hx
              rw [hxx] at hsh
              obtain ⟨y', t3, hsh2⟩ := getArg_one_shape hk2
              have hyy : y' = y := by
                rw [hsh2] at hy
                simpa [getArg, List.get?] using hy
              rw [hyy] at hsh2
              rw [hsh, hsh2] at hpotn hORn
              rw [← hF, hsh, hsh2]
              have hpp1 : pot (Expr.funCall (.symRef "plus") (x :: k1 :: t2)) =
                  2 + pot x + pot k1 + potL t2 := by
                rw [pot_call_family (by decide), potL_cons, potL_cons]
                omega
              have hpp2 : pot (Expr.funCall (.symRef "plus") (y :: k2 :: t3)) =
                  2 + pot y + pot k2 + potL t3 := by
                rw [pot_call_family (by decide), potL_cons, potL_cons]
                omega
              have hpn1 : pot (im.plus x r) = 2 + pot x + pot r := pot_plus x r
              have hOR1 : opRank (im.plus x r) = 0 := by
                rw [im.plus, im.call]
                exact opRank_plus_root _
              have hrk1 := rank_le (im.plus x r)
              have hpx := pot_pos x
              have hpy := pot_pos y
              have hxyP : pot x = pot y := by rw [hxyE]
              unfold MM
              rw [hpn1, hOR1, hpotn, hORn, hpp1, hpp2]
              omega
            · simp only [Bool.not_eq_true] at hxy2
              simp [hxy2, pure, Except.pure] at hC
          | lit v t => exact absurd hB (by simp [pure, Except.pure])
          | symRef i => exact absurd hB (by simp [pure, Except.pure])
          | lam ps b => exact absurd hB (by simp [pure, Except.pure])
      | lit v t => exact absurd hA (by simp [pure, Except.pure])
      | symRef i => exact absurd hA (by simp [pure, Except.pure])
      | lam ps b => exact absurd hA (by simp [pure, Except.pure])
    | lit v t => simp [transform_fold_min_max_plus, pure, Except.pure] at h
    | lam ps b => simp [transform_fold_min_max_plus, pure, Except.pure] at h
    | funCall f2 a2 => simp [transform_fold_min_max_plus, pure, Except.pure] at h


/-- FOLD_FUNCALL_LITERAL re-associates: the fresh literal-literal plus
either folds (strictly smaller potential) or survives unchanged, in
which case the potential is preserved and the operand-pattern rank
drops from 3 to at most 2. -/
theorem foldFuncallLit_decrease {fp : Expr → Res Expr}
    (hsh : ∀ v1 t1 v2 t2 r, fp (im.plus (.lit v1 t1) (.lit v2 t2)) = .ok r →
      r = im.plus (.lit v1 t1) (.lit v2 t2) ∨ isLit r = true)
    {n n₁ : Expr}
    (h : transform_fold_funcall_literal fp n = .ok (some n₁)) : MM n₁ < MM n := by
  cases n with
  | lit v t => simp [transform_fold_funcall_literal, pure, Except.pure] at h
  | symRef i => simp [transform_fold_funcall_literal, pure, Except.pure] at h
  | lam ps b => simp [transform_fold_funcall_literal, pure, Except.pure] at h
  | funCall fn args =>
    unfold transform_fold_funcall_literal at h
    by_cases hg : is_call_to (Expr.funCall fn args) ["plus"] = true
    case neg => simp only [Bool.not_eq_true] at hg; simp [hg, pure, Except.pure] at h
    simp only [hg, if_true] at h
    obtain ⟨op, hfn, hop⟩ := is_call_to_shape hg
    obtain rfl : op = "plus" := contains_single hop
    subst hfn
    obtain ⟨a0, ha0, hA⟩ := bind_eq_ok h
    clear h
    by_cases h0 : is_call_to a0 ["plus"] = true
    case neg =>
      simp only [Bool.not_eq_true] at h0
      simp [h0, pure, Except.pure] at hA
    simp only [h0, if_true] at hA
    obtain ⟨a1, ha1, hB⟩ := bind_eq_ok hA
    clear hA
    by_cases h1 : isLit a1 = true
    case neg =>
      simp only [Bool.not_eq_true] at h1
      simp [h1, pure, Except.pure] at hB
    simp only [h1, if_true] at hB
    obtain ⟨p, hp, hC⟩ := bind_eq_ok hB
    clear hB
    obtain ⟨p1, p2⟩ := p
    have hargs : args = [p1, p2] := by simpa using unpack2_eq hp
    rw [hargs]
    rw [hargs] at ha0 ha1
    have ha0e : a0 = p1 := by simpa [getArg, List.get?] using ha0.symm
    have ha1e : a1 = p2 := by simpa [getArg, List.get?] using ha1.symm
    subst ha0e
    subst ha1e
    dsimp only at hC
    cases a0 with
    | funCall fn2 fcArgs =>
      obtain ⟨op2, hfn2, hop2⟩ := is_call_to_shape h0
      obtain rfl : op2 = "plus" := contains_single hop2
      subst hfn2
      dsimp only at hC
      obtain ⟨f0, hf0, hD⟩ := bind_eq_ok hC
      clear hC
      by_cases h2 : isSymRefOrFunCall f0 = true
      case neg =>
        simp only [Bool.not_eq_true] at h2
        simp [h2, pure, Except.pure] at hD
      simp only [h2, if_true] at hD
      obtain ⟨f1, hf1, hE⟩ := bind_eq_ok hD
      clear hD
      by_cases h3 : isLit f1 = true
      case neg =>
        simp only [Bool.not_eq_true] at h3
        simp [h3, pure, Except.pure] at hE
      simp only [h3, if_true] at hE
      obtain ⟨r, hr, hF⟩ := bind_eq_ok hE
      clear hE
      simp only [pure, Except.pure, Except.ok.injEq, Option.some.injEq] at hF
      obtain ⟨f0', t2, hsh2⟩ := getArg_one_shape hf1
      have hff : f0' = f0 := by
        rw [hsh2] at hf0
        simpa [getArg, List.get?] using hf0
      rw [hff] at hsh2
      obtain ⟨v1, ty1, hf1e⟩ := isLit_shape h3
      obtain ⟨v2, ty2, ha1e2⟩ := isLit_shape h1
      have hrcase : r = im.plus f1 a1 ∨ isLit r = true := by
        rw [hf1e, ha1e2]
        rw [hf1e, ha1e2] at hr
        exact hsh _ _ _ _ _ hr
      rw [← hF, hsh2]
      have hpotn : pot (Expr.funCall (.symRef "plus")
          [Expr.funCall (.symRef "plus") (f0 :: f1 :: t2), a1]) =
          2 + (2 + pot f0 + pot f1 + potL t2) + pot a1 := by
        rw [pot_call_family (by decide)]
        rw [potL_cons, potL_cons, potL_nil]
        rw [pot_call_family (by decide)]
        rw [potL_cons, potL_cons]
        omega
      have hpf1 : pot f1 = 1 := pot_of_isLit h3
      have hpa1 : pot a1 = 1 := pot_of_isLit h1
      have hpn1 : pot (im.plus f0 r) = 2 + pot f0 + pot r := pot_plus f0 r
      rcases hrcase with hre | hrl
      · -- the inner fold declined: potential preserved on the two-argument case
        have hpr : pot r = 4 := by
          rw [hre, pot_plus, hpf1, hpa1]
        cases t2 with
        | cons c t3 =>
          apply MM_of_pot_lt
          rw [hpn1, hpotn, hpf1, hpa1, hpr, potL_cons]
          have := pot_pos c
          omega
        | nil =>
          have hpe : pot (im.plus f0 r) =
              pot (Expr.funCall (.symRef "plus")
                [Expr.funCall (.symRef "plus") [f0, f1], a1]) := by
            rw [hpn1, hpotn, hpf1, hpa1, hpr, potL_nil]
            omega
          have hOR1 : opRank (im.plus f0 r) = 0 := by
            rw [im.plus, im.call]
            exact opRank_plus_root _
          have hORn : opRank (Expr.funCall (.symRef "plus")
              [Expr.funCall (.symRef "plus") [f0, f1], a1]) = 0 := opRank_plus_root _
          have hrn : rank (Expr.funCall (.symRef "plus")
              [Expr.funCall (.symRef "plus") [f0, f1], a1]) = 3 := by
            rw [rank_eq _ _ (by decide)]
            have hc0 : is_call_to (Expr.funCall (.symRef "plus") [f0, f1]) opFamily = true := rfl
            simp [h1, hc0]
          have hrn1 : rank (im.plus f0 r) < 3 := by
            rw [im.plus, im.call, rank_eq _ _ (by decide)]
            have hf0l : isLit f0 = false := isLit_false_of_symRefOrFunCall h2
            have hrp : is_call_to r ["plus"] = true := by rw [hre]; rfl
            have hrf : is_call_to r opFamily = true := by rw [hre]; rfl
            have hrl2 : isLit r = false := by rw [hre]; rfl
            by_cases hf0f : is_call_to f0 opFamily = true
            · by_cases hf0p : is_call_to f0 ["plus"] = true
              · simp [hf0l, hrl2, hrp, hrf, hf0f, hf0p]
              · simp only [Bool.not_eq_true] at hf0p
                simp [hf0l, hrl2, hrp, hrf, hf0f, hf0p]
            · simp only [Bool.not_eq_true] at hf0f
              simp [hf0l, hrl2, hrp, hrf, hf0f]
          unfold MM
          omega
      · -- the inner fold produced a literal: strict potential decrease
        apply MM_of_pot_lt
        rw [hpn1, hpotn, hpf1, hpa1, pot_of_isLit hrl]
        have := pot_pos f0
        omega
    | lit v t => exact absurd hC (by simp [pure, Except.pure])
    | symRef i => exact absurd hC (by simp [pure, Except.pure])
    | lam ps b => exact absurd hC (by simp [pure, Except.pure])


/-- One firing of the engine at a node strictly decreases the measure,
provided the self-application function never increases the potential
and satisfies the literal-literal shape property used by
FOLD_FUNCALL_LITERAL. -/
theorem tryRules_decrease {fp : Expr → Res Expr}
    (hfp : ∀ x r, fp x = .ok r → pot r ≤ pot x)
    (hsh : ∀ v1 t1 v2 t2 r, fp (im.plus (.lit v1 t1) (.lit v2 t2)) = .ok r →
      r = im.plus (.lit v1 t1) (.lit v2 t2) ∨ isLit r = true)
    {n n₁ : Expr} (h : tryRules fp n = .ok (some n₁)) : MM n₁ < MM n := by
  unfold tryRules at h
  cases h1 : transform_canonicalize_op_funcall_symref_literal n with
  | error e => rw [h1, resBindErr] at h; exact absurd h (by simp)
  | ok o =>
    rw [h1, resBindOk] at h
    cases o with
    | some r =>
      simp only [pure, Except.pure, Except.ok.injEq, Option.some.injEq] at h
      exact h ▸ canonOp_decrease h1
    | none =>
    dsimp only at h
    cases h2 : transform_canonicalize_minus fp n with
    | error e => rw [h2, resBindErr] at h; exact absurd h (by simp)
    | ok o =>
      rw [h2, resBindOk] at h
      cases o with
      | some r =>
        simp only [pure, Except.pure, Except.ok.injEq, Option.some.injEq] at h
        exact h ▸ canonMinus_decrease hfp h2
      | none =>
      dsimp only at h
      cases h3 : transform_canonicalize_min_max n with
      | error e => rw [h3, resBindErr] at h; exact absurd h (by simp)
      | ok o =>
        rw [h3, resBindOk] at h
        cases o with
        | some r =>
          simp only [pure, Except.pure, Except.ok.injEq, Option.some.injEq] at h
          exact h ▸ canonMinMax_decrease h1 h3
        | none =>
        dsimp only at h
        cases h4 : transform_fold_funcall_literal fp n with
        | error e => rw [h4, resBindErr] at h; exact absurd h (by simp)
        | ok o =>
          rw [h4, resBindOk] at h
          cases o with
          | some r =>
            simp only [pure, Except.pure, Except.ok.injEq, Option.some.injEq] at h
            exact h ▸ foldFuncallLit_decrease hsh h4
          | none =>
          dsimp only at h
          cases h5 : transform_fold_min_max n with
          | error e => rw [h5, resBindErr] at h; exact absurd h (by simp)
          | ok o =>
            rw [h5, resBindOk] at h
            cases o with
            | some r =>
              simp only [pure, Except.pure, Except.ok.injEq, Option.some.injEq] at h
              exact h ▸ foldMinMax_decrease h5
            | none =>
            dsimp only at h
            cases h6 : transform_fold_min_max_plus fp n with
            | error e => rw [h6, resBindErr] at h; exact absurd h (by simp)
            | ok o =>
              rw [h6, resBindOk] at h
              cases o with
              | some r =>
                simp only [pure, Except.pure, Except.ok.injEq, Option.some.injEq] at h
                exact h ▸ foldMinMaxPlus_decrease hfp h6
              | none =>
              dsimp only at h
              cases h7 : transform_fold_neutral_op n with
              | error e => rw [h7, resBindErr] at h; exact absurd h (by simp)
              | ok o =>
                rw [h7, resBindOk] at h
                cases o with
                | some r =>
                  simp only [pure, Except.pure, Except.ok.injEq, Option.some.injEq] at h
                  exact h ▸ foldNeutral_decrease h7
                | none =>
                dsimp only at h
                cases h8 : transform_fold_arithmetic_builtins n with
                | error e => rw [h8, resBindErr] at h; exact absurd h (by simp)
                | ok o =>
                  rw [h8, resBindOk] at h
                  cases o with
                  | some r =>
                    simp only [pure, Except.pure, Except.ok.injEq, Option.some.injEq] at h
                    exact h ▸ foldArith_decrease h8
                  | none =>
                  dsimp only at h
                  cases h9 : transform_fold_min_max_literals n with
                  | error e => rw [h9, resBindErr] at h; exact absurd h (by simp)
                  | ok o =>
                    rw [h9, resBindOk] at h
                    cases o with
                    | some r =>
                      simp only [pure, Except.pure, Except.ok.injEq, Option.some.injEq] at h
                      exact h ▸ foldMinMaxLit_decrease h9
                    | none =>
                    dsimp only at h
                    exact foldIf_decrease h


/-! Fuel monotonicity: a non-fuel-exhausted outcome is stable when the
self-application function is refined (given more fuel). -/

theorem canonMinus_refines (fp1 fp2 : Expr → Res Expr)
    (href : ∀ x v, fp1 x = v → v ≠ .error .outOfFuel → fp2 x = v)
    {n : Expr} {v : Res (Option Expr)}
    (h : transform_canonicalize_minus fp1 n = v) (hv : v ≠ .error .outOfFuel) :
    transform_canonicalize_minus fp2 n = v := by
  cases n with
  | lit v2 t => exact h
  | symRef i => exact h
  | lam ps b => exact h
  | funCall fn args =>
    unfold transform_canonicalize_minus at h ⊢
    by_cases hg : is_call_to (Expr.funCall fn args) ["minus"] = true
    case neg =>
      simp only [Bool.not_eq_true] at hg
      simp only [hg, Bool.false_eq_true, if_false] at h ⊢
      exact h
    simp only [hg, if_true] at h ⊢
    cases ha0 : getArg args 0 with
    | error e => rw [ha0, resBindErr] at h; rw [resBindErr]; exact h
    | ok a0 =>
      rw [ha0, resBindOk] at h; rw [resBindOk]
      cases ha1 : getArg args 1 with
      | error e => rw [ha1, resBindErr] at h; rw [resBindErr]; exact h
      | ok a1 =>
        rw [ha1, resBindOk] at h; rw [resBindOk]
        cases hr : fp1 (im.call "neg" [a1]) with
        | error e =>
          rw [hr, resBindErr] at h
          rw [href _ _ hr (by intro hh; injection hh with he; subst he; exact hv h.symm), resBindErr]
          exact h
        | ok r =>
          rw [hr, resBindOk] at h
          rw [href _ _ hr (by simp), resBindOk]
          exact h

theorem foldFuncallLit_refines (fp1 fp2 : Expr → Res Expr)
    (href : ∀ x v, fp1 x = v → v ≠ .error .outOfFuel → fp2 x = v)
    {n : Expr} {v : Res (Option Expr)}
    (h : transform_fold_funcall_literal fp1 n = v) (hv : v ≠ .error .outOfFuel) :
    transform_fold_funcall_literal fp2 n = v := by
  cases n with
  | lit v2 t => exact h
  | symRef i => exact h
  | lam ps b => exact h
  | funCall fn args =>
    unfold transform_fold_funcall_literal at h ⊢
    by_cases hg : is_call_to (Expr.funCall fn args) ["plus"] = true
    case neg =>
      simp only [Bool.not_eq_true] at hg
      simp only [hg, Bool.false_eq_true, if_false] at h ⊢
      exact h
    simp only [hg, if_true] at h ⊢
    cases ha0 : getArg args 0 with
    | error e => rw [ha0, resBindErr] at h; rw [resBindErr]; exact h
    | ok a0 =>
      rw [ha0, resBindOk] at h; rw [resBindOk]
      by_cases h0 : is_call_to a0 ["plus"] = true
      case neg =>
        simp only [Bool.not_eq_true] at h0
        simp only [h0, Bool.false_eq_true, if_false] at h ⊢
        exact h
      simp only [h0, if_true] at h ⊢
      cases ha1 : getArg args 1 with
      | error e => rw [ha1, resBindErr] at h; rw [resBindErr]; exact h
      | ok a1 =>
        rw [ha1, resBindOk] at h; rw [resBindOk]
        by_cases h1 : isLit a1 = true
        case neg =>
          simp only [Bool.not_eq_true] at h1
          simp only [h1, Bool.false_eq_true, if_false] at h ⊢
          exact h
        simp only [h1, if_true] at h ⊢
        cases hp : unpack2 args with
        | error e => rw [hp, resBindErr] at h; rw [resBindErr]; exact h
        | ok p =>
          rw [hp, resBindOk] at h; rw [resBindOk]
          obtain ⟨p1, p2⟩ := p
          cases p1 with
          | funCall fn2 fcArgs =>
            dsimp only at h ⊢
            cases hf0 : getArg fcArgs 0 with
            | error e => rw [hf0, resBindErr] at h; rw [resBindErr]; exact h
            | ok f0 =>
              rw [hf0, resBindOk] at h; rw [resBindOk]
              by_cases h2 : isSymRefOrFunCall f0 = true
              case neg =>
                simp only [Bool.not_eq_true] at h2
                simp only [h2, Bool.false_eq_true, if_false] at h ⊢
                exact h
              simp only [h2, if_true] at h ⊢
              cases hf1 : getArg fcArgs 1 with
              | error e => rw [hf1, resBindErr] at h; rw [resBindErr]; exact h
              | ok f1 =>
                rw [hf1, resBindOk] at h; rw [resBindOk]
                by_cases h3 : isLit f1 = true
                case neg =>
                  simp only [Bool.not_eq_true] at h3
                  simp only [h3, Bool.false_eq_true, if_false] at h ⊢
                  exact h
                simp only [h3, if_true] at h ⊢
                cases hr : fp1 (im.plus f1 p2) with
                | error e =>
                  rw [hr, resBindErr] at h
                  rw [href _ _ hr (by intro hh; injection hh with he; subst he; exact hv h.symm), resBindErr]
                  exact h
                | ok r =>
                  rw [hr, resBindOk] at h
                  rw [href _ _ hr (by simp), resBindOk]
                  exact h
          | lit v2 t => exact h
          | symRef i => exact h
          | lam ps b => exact h

theorem foldMinMaxPlus_refines (fp1 fp2 : Expr → Res Expr)
    (href : ∀ x v, fp1 x = v → v ≠ .error .outOfFuel → fp2 x = v)
    {n : Expr} {v : Res (Option Expr)}
    (h : transform_fold_min_max_plus fp1 n = v) (hv : v ≠ .error .outOfFuel) :
    transform_fold_min_max_plus fp2 n = v := by
  cases n with
  | lit v2 t => exact h
  | symRef i => exact h
  | lam ps b => exact h
  | funCall fn args =>
    cases fn with
    | symRef op =>
      unfold transform_fold_min_max_plus at h ⊢
      by_cases hg : (op == "minimum" || op == "maximum") = true
      case neg =>
        simp only [Bool.not_eq_true] at hg
        simp only [hg, Bool.false_eq_true, if_false] at h ⊢
        exact h
      simp only [hg, if_true] at h ⊢
      cases hp : unpack2 args with
      | error e => rw [hp, resBindErr] at h; rw [resBindErr]; exact h
      | ok p =>
        rw [hp, resBindOk] at h; rw [resBindOk]
        obtain ⟨p1, p2⟩ := p
        by_cases h0 : is_call_to p1 ["plus"] = true
        case neg =>
          dsimp only at h ⊢
          simp only [Bool.not_eq_true] at h0
          simp only [h0, Bool.false_eq_true, if_false] at h ⊢
          exact h
        dsimp only at h ⊢
        simp only [h0, if_true] at h ⊢
        cases p1 with
        | funCall fn2 a0Args =>
          dsimp only at h ⊢
          cases hx : getArg a0Args 0 with
          | error e => rw [hx, resBindErr] at h; rw [resBindErr]; exact h
          | ok x =>
            rw [hx, resBindOk] at h; rw [resBindOk]
            by_cases hxy : (x == p2) = true
            · simp only [hxy, if_true] at h ⊢
              cases hk1 : getArg a0Args 1 with
              | error e => rw [hk1, resBindErr] at h; rw [resBindErr]; exact h
              | ok k1 =>
                rw [hk1, resBindOk] at h; rw [resBindOk]
                cases hr : fp1 (im.call op [k1, im.literalZero]) with
                | error e =>
                  rw [hr, resBindErr] at h
                  rw [href _ _ hr (by intro hh; injection hh with he; subst he; exact hv h.symm), resBindErr]
                  exact h
                | ok r =>
                  rw [hr, resBindOk] at h
                  rw [href _ _ hr (by simp), resBindOk]
                  exact h
            · simp only [Bool.not_eq_true] at hxy
              simp only [hxy, Bool.false_eq_true, if_false] at h ⊢
              by_cases h2 : is_call_to p2 ["plus"] = true
              case neg =>
                simp only [Bool.not_eq_true] at h2
                simp only [h2, Bool.false_eq_true, if_false] at h ⊢
                exact h
              simp only [h2, if_true] at h ⊢
              cases p2 with
              | funCall fn3 a1Args =>
                dsimp only at h ⊢
                cases hy : getArg a1Args 0 with
                | error e => rw [hy, resBindErr] at h; rw [resBindErr]; exact h
                | ok y =>
                  rw [hy, resBindOk] at h; rw [resBindOk]
                  by_cases hxy2 : (x == y) = true
                  case neg =>
                    simp only [Bool.not_eq_true] at hxy2
                    simp only [hxy2, Bool.false_eq_true, if_false] at h ⊢
                    exact h
                  simp only [hxy2, if_true] at h ⊢
                  cases hk1 : getArg a0Args 1 with
                  | error e => rw [hk1, resBindErr] at h; rw [resBindErr]; exact h
                  | ok k1 =>
                    rw [hk1, resBindOk] at h; rw [resBindOk]
                    cases hk2 : getArg a1Args 1 with
                    | error e => rw [hk2, resBindErr] at h; rw [resBindErr]; exact h
                    | ok k2 =>
                      rw [hk2, resBindOk] at h; rw [resBindOk]
                      cases hr : fp1 (im.call op [k1, k2]) with
                      | error e =>
                        rw [hr, resBindErr] at h
                        rw [href _ _ hr (by intro hh; injection hh with he; subst he; exact hv h.symm), resBindErr]
                        exact h
                      | ok r =>
                        rw [hr, resBindOk] at h
                        rw [href _ _ hr (by simp), resBindOk]
                        exact h
              | lit v2 t => exact h
              | symRef i => exact h
              | lam ps b => exact h
        | lit v2 t => exact h
        | symRef i => exact h
        | lam ps b => exact h
    | lit v2 t => exact h
    | lam ps b => exact h
    | funCall f2 a2 => exact h


/-- A non-fuel-exhausted engine pass is stable under refining the
self-application function. -/
theorem tryRules_refines (fp1 fp2 : Expr → Res Expr)
    (href : ∀ x v, fp1 x = v → v ≠ .error .outOfFuel → fp2 x = v)
    {n : Expr} {w : Res (Option Expr)}
    (h : tryRules fp1 n = w) (hw : w ≠ .error .outOfFuel) :
    tryRules fp2 n = w := by
  unfold tryRules at h ⊢
  cases h1 : transform_canonicalize_op_funcall_symref_literal n with
  | error e => rw [h1, resBindErr] at h; rw [resBindErr]; exact h
  | ok o =>
    rw [h1, resBindOk] at h; rw [resBindOk]
    cases o with
    | some r => exact h
    | none =>
    dsimp only at h ⊢
    cases h2 : transform_canonicalize_minus fp1 n with
    | error e =>
      rw [h2, resBindErr] at h
      rw [canonMinus_refines fp1 fp2 href h2
        (by intro hh; injection hh with he; subst he; exact hw h.symm), resBindErr]
      exact h
    | ok o =>
      rw [h2, resBindOk] at h
      rw [canonMinus_refines fp1 fp2 href h2 (by simp), resBindOk]
      cases o with
      | some r => exact h
      | none =>
      dsimp only at h ⊢
      cases h3 : transform_canonicalize_min_max n with
      | error e => rw [h3, resBindErr] at h; rw [resBindErr]; exact h
      | ok o =>
        rw [h3, resBindOk] at h; rw [resBindOk]
        cases o with
        | some r => exact h
        | none =>
        dsimp only at h ⊢
        cases h4 : transform_fold_funcall_literal fp1 n with
        | error e =>
          rw [h4, resBindErr] at h
          rw [foldFuncallLit_refines fp1 fp2 href h4
            (by intro hh; injection hh with he; subst he; exact hw h.symm), resBindErr]
          exact h
        | ok o =>
          rw [h4, resBindOk] at h
          rw [foldFuncallLit_refines fp1 fp2 href h4 (by simp), resBindOk]
          cases o with
          | some r => exact h
          | none =>
          dsimp only at h ⊢
          cases h5 : transform_fold_min_max n with
          | error e => rw [h5, resBindErr] at h; rw [resBindErr]; exact h
          | ok o =>
            rw [h5, resBindOk] at h; rw [resBindOk]
            cases o with
            | some r => exact h
            | none =>
            dsimp only at h ⊢
            cases h6 : transform_fold_min_max_plus fp1 n with
            | error e =>
              rw [h6, resBindErr] at h
              rw [foldMinMaxPlus_refines fp1 fp2 href h6
                (by intro hh; injection hh with he; subst he; exact hw h.symm), resBindErr]
              exact h
            | ok o =>
              rw [h6, resBindOk] at h
              rw [foldMinMaxPlus_refines fp1 fp2 href h6 (by simp), resBindOk]
              cases o with
              | some r => exact h
              | none =>
              dsimp only at h ⊢
              cases h7 : transform_fold_neutral_op n with
              | error e => rw [h7, resBindErr] at h; rw [resBindErr]; exact h
              | ok o =>
                rw [h7, resBindOk] at h; rw [resBindOk]
                cases o with
                | some r => exact h
                | none =>
                dsimp only at h ⊢
                cases h8 : transform_fold_arithmetic_builtins n with
                | error e => rw [h8, resBindErr] at h; rw [resBindErr]; exact h
                | ok o =>
                  rw [h8, resBindOk] at h; rw [resBindOk]
                  cases o with
                  | some r => exact h
                  | none =>
                  dsimp only at h ⊢
                  cases h9 : transform_fold_min_max_literals n with
                  | error e => rw [h9, resBindErr] at h; rw [resBindErr]; exact h
                  | ok o =>
                    rw [h9, resBindOk] at h; rw [resBindOk]
                    cases o with
                    | some r => exact h
                    | none =>
                    dsimp only at h ⊢
                    exact h

/-- Fuel monotonicity for the per-node fixed-point loop: any outcome
other than fuel exhaustion is preserved by one more unit of fuel. -/
theorem fpTransform_refines : ∀ f : Nat, ∀ x v, fpTransform f x = v →
    v ≠ .error .outOfFuel → fpTransform (f + 1) x = v := by
  intro f
  induction f with
  | zero =>
    intro x v h hv
    rw [fpTransform] at h
    exact absurd h.symm hv
  | succ f ih =>
    intro x v h hv
    rw [fpTransform] at h
    rw [fpTransform]
    cases hw : tryRules (fpTransform f) x with
    | error e =>
      rw [hw, resBindErr] at h
      rw [tryRules_refines _ _ ih hw
        (by intro hh; injection hh with he; subst he; exact hv h.symm), resBindErr]
      exact h
    | ok o =>
      rw [hw, resBindOk] at h
      rw [tryRules_refines _ _ ih hw (by simp), resBindOk]
      cases o with
      | none => exact h
      | some n2 =>
        dsimp only at h ⊢
        exact ih _ _ h hv

/-- Fuel monotonicity, arbitrary increments. -/
theorem fpTransform_refines_le {f g : Nat} (hfg : f ≤ g) {x : Expr} {v : Res Expr}
    (h : fpTransform f x = v) (hv : v ≠ .error .outOfFuel) : fpTransform g x = v := by
  induction g with
  | zero =>
    have : f = 0 := Nat.le_zero.mp hfg
    subst this
    exact h
  | succ g ih =>
    rcases Nat.lt_or_ge f (g + 1) with hlt | hge
    · exact fpTransform_refines g x v (ih (Nat.lt_succ_iff.mp hlt)) hv
    · have : f = g + 1 := Nat.le_antisymm hfg hge
      subst this
      exact h

/-- A successfully settled fixed point is unchanged by extra fuel. -/
theorem fp_stable {f g : Nat} (hfg : f ≤ g) {x : Expr}
    (hne : fpTransform f x ≠ .error .outOfFuel) :
    fpTransform g x = fpTransform f x :=
  fpTransform_refines_le hfg rfl hne


/-- The engine is the identity on literals. -/
theorem fp_lit : ∀ (f : Nat) (v t : String) (r : Expr),
    fpTransform f (.lit v t) = .ok r → r = .lit v t := by
  intro f v t r h
  cases f with
  | zero => rw [fpTransform] at h; exact absurd h (by simp)
  | succ f =>
    rw [fpTransform] at h
    rw [declines_lit v t (fpTransform f), resBindOk] at h
    dsimp only at h
    simp only [pure, Except.pure, Except.ok.injEq] at h
    exact h.symm

/-- A plus of two literals either survives the loop unchanged or folds
to a literal. -/
theorem fp_litlit_shape : ∀ (f : Nat) (v1 t1 v2 t2 : String) (r : Expr),
    fpTransform f (im.plus (.lit v1 t1) (.lit v2 t2)) = .ok r →
    r = im.plus (.lit v1 t1) (.lit v2 t2) ∨ isLit r = true := by
  intro f v1 t1 v2 t2 r h
  cases f with
  | zero => rw [fpTransform] at h; exact absurd h (by simp)
  | succ f =>
    rw [fpTransform] at h
    unfold tryRules at h
    have hR1 : transform_canonicalize_op_funcall_symref_literal
        (im.plus (.lit v1 t1) (.lit v2 t2)) = .ok none := rfl
    have hR3 : transform_canonicalize_min_max
        (im.plus (.lit v1 t1) (.lit v2 t2)) = .ok none := rfl
    have hR5 : transform_fold_min_max
        (im.plus (.lit v1 t1) (.lit v2 t2)) = .ok none := rfl
    have hR9 : transform_fold_min_max_literals
        (im.plus (.lit v1 t1) (.lit v2 t2)) = .ok none := rfl
    have hR10 : transform_fold_if
        (im.plus (.lit v1 t1) (.lit v2 t2)) = .ok none := rfl
    have hR2 : transform_canonicalize_minus (fpTransform f)
        (im.plus (.lit v1 t1) (.lit v2 t2)) = .ok none := rfl
    have hR4 : transform_fold_funcall_literal (fpTransform f)
        (im.plus (.lit v1 t1) (.lit v2 t2)) = .ok none := rfl
    have hR6 : transform_fold_min_max_plus (fpTransform f)
        (im.plus (.lit v1 t1) (.lit v2 t2)) = .ok none := rfl
    rw [hR1, resBindOk] at h
    dsimp only at h
    rw [hR2, resBindOk] at h
    dsimp only at h
    rw [hR3, resBindOk] at h
    dsimp only at h
    rw [hR4, resBindOk] at h
    dsimp only at h
    rw [hR5, resBindOk] at h
    dsimp only at h
    rw [hR6, resBindOk] at h
    dsimp only at h
    by_cases hd : isDigitValue v2 0 = true
    · have hR7 : transform_fold_neutral_op
          (im.plus (.lit v1 t1) (.lit v2 t2)) = .ok (some (.lit v1 t1)) := by
        unfold transform_fold_neutral_op
        simp [im.plus, im.call, is_call_to, getArg, hd, resBindOk, pure, Except.pure]
      rw [hR7, resBindOk] at h
      dsimp only at h
      simp only [pure, Except.pure] at h
      rw [resBindOk] at h
      dsimp only at h
      right
      rw [fp_lit f v1 t1 r h]
      rfl
    · simp only [Bool.not_eq_true] at hd
      have hR7 : transform_fold_neutral_op
          (im.plus (.lit v1 t1) (.lit v2 t2)) = .ok none := by
        unfold transform_fold_neutral_op
        simp [im.plus, im.call, is_call_to, getArg, hd, resBindOk, pure, Except.pure]
      rw [hR7, resBindOk] at h
      dsimp only at h
      cases he : arithEval "plus" [.lit v1 t1, .lit v2 t2] with
      | some l =>
        have hR8 : transform_fold_arithmetic_builtins
            (im.plus (.lit v1 t1) (.lit v2 t2)) = .ok (some l) := by
          unfold transform_fold_arithmetic_builtins
          simp [im.plus, im.call, isLit, ARITHMETIC_BUILTINS, he, resBindOk, pure, Except.pure]
        rw [hR8, resBindOk] at h
        dsimp only at h
        simp only [pure, Except.pure] at h
        rw [resBindOk] at h
        dsimp only at h
        obtain ⟨lv, lt, rfl⟩ := isLit_shape (arithEval_isLit he)
        right
        rw [fp_lit f lv lt r h]
        rfl
      | none =>
        have hR8 : transform_fold_arithmetic_builtins
            (im.plus (.lit v1 t1) (.lit v2 t2)) = .ok none := by
          unfold transform_fold_arithmetic_builtins
          simp [im.plus, im.call, isLit, ARITHMETIC_BUILTINS, he, resBindOk, pure, Except.pure]
        rw [hR8, resBindOk] at h
        dsimp only at h
        rw [hR9, resBindOk] at h
        dsimp only at h
        rw [hR10, resBindOk] at h
        dsimp only at h
        simp only [pure, Except.pure, Except.ok.injEq] at h
        exact Or.inl h.symm

/-- The engine never increases the potential of a node it settles. -/
theorem fpTransform_pot : ∀ (f : Nat) (n r : Expr),
    fpTransform f n = .ok r → pot r ≤ pot n := by
  intro f
  induction f with
  | zero => intro n r h; rw [fpTransform] at h; exact absurd h (by simp)
  | succ f ih =>
    intro n r h
    rw [fpTransform] at h
    cases ht : tryRules (fpTransform f) n with
    | error e => rw [ht, resBindErr] at h; exact absurd h (by simp)
    | ok o =>
      rw [ht, resBindOk] at h
      cases o with
      | none =>
        dsimp only at h
        simp only [pure, Except.pure, Except.ok.injEq] at h
        subst h
        exact le_refl _
      | some n1 =>
        dsimp only at h
        have h1 : MM n1 < MM n := tryRules_decrease ih (fp_litlit_shape f) ht
        have h2 := pot_le_of_MM_lt h1
        exact le_trans (ih _ _ h) h2


/-- Decomposition of a fuel-exhausted bind. -/
theorem bind_oof {α β : Type} {x : Res α} {g : α → Res β}
    (h : (x >>= g) = .error .outOfFuel) :
    x = .error .outOfFuel ∨ ∃ a, x = .ok a ∧ g a = .error .outOfFuel := by
  cases x with
  | error e =>
    rw [resBindErr] at h
    injection h with he
    subst he
    exact Or.inl rfl
  | ok a => exact Or.inr ⟨a, rfl, by rwa [resBindOk] at h⟩

theorem getArg_not_oof {args : List Expr} {i : Nat} :
    getArg args i ≠ .error .outOfFuel := by
  intro h
  have := getArg_error h
  simp at this

theorem unpack2_not_oof {args : List Expr} :
    unpack2 args ≠ .error (.outOfFuel) := by
  intro h
  have := unpack2_error h
  simp at this

/-- The fresh subtrees on which one engine pass at a node may re-enter
the fixed-point transformation (self-application arguments of
CANONICALIZE_MINUS, FOLD_FUNCALL_LITERAL and FOLD_MIN_MAX_PLUS, over-
approximated purely structurally). -/
def nestedCalls : Expr → List Expr
  | .funCall (.symRef op) (a0 :: a1 :: _) =>
    im.call "neg" [a1] ::
    (match a0 with
     | .funCall _ (_ :: k1 :: _) =>
       im.plus k1 a1 :: im.call op [k1, im.literalZero] ::
       (match a1 with
        | .funCall _ (_ :: k2 :: _) => [im.call op [k1, k2]]
        | _ => [])
     | _ => [])
  | _ => []

theorem pot_neg_cand (a1 : Expr) : pot (im.call "neg" [a1]) = 2 + pot a1 := by
  rw [im.call, pot_call, potL_cons, potL_nil]
  have hx : (("neg" == "minus") = false) := by decide
  simp only [hx, Bool.false_eq_true, if_false]
  omega

theorem MM_of_plus_root (x y : Expr) :
    MM (im.plus x y) ≤ 10 * (2 + pot x + pot y) + 4 := by
  have h1 := rank_le (im.plus x y)
  have h2 : opRank (im.plus x y) = 0 := by
    rw [im.plus, im.call]
    exact opRank_plus_root _
  have h3 := pot_plus x y
  unfold MM
  omega

/-- Every re-entered subtree is strictly smaller in the measure. -/
theorem nestedCalls_MM {n c : Expr} (hc : c ∈ nestedCalls n) : MM c < MM n := by
  cases n with
  | lit v t => simp [nestedCalls] at hc
  | symRef i => simp [nestedCalls] at hc
  | lam ps b => simp [nestedCalls] at hc
  | funCall fn args =>
    cases fn with
    | symRef op =>
      cases args with
      | nil => simp [nestedCalls] at hc
      | cons a0 rest0 =>
        cases rest0 with
        | nil => simp [nestedCalls] at hc
        | cons a1 rest =>
          have hMMn : 10 * pot (Expr.funCall (.symRef op) (a0 :: a1 :: rest)) ≤
              MM (Expr.funCall (.symRef op) (a0 :: a1 :: rest)) := by
            unfold MM; omega
          have hpn : 2 + pot a0 + pot a1 ≤
              pot (Expr.funCall (.symRef op) (a0 :: a1 :: rest)) := by
            have h1 := pot_call_ge op (a0 :: a1 :: rest)
            rw [potL_cons, potL_cons] at h1
            have h2 : 0 ≤ potL rest := Nat.zero_le _
            omega
          have hc1 : MM (im.call "neg" [a1]) <
              MM (Expr.funCall (.symRef op) (a0 :: a1 :: rest)) := by
            have h1 : MM (im.call "neg" [a1]) = 20 + 10 * pot a1 := by
              have h2 : rank (im.call "neg" [a1]) = 0 := rfl
              have h3 : opRank (im.call "neg" [a1]) = 0 := rfl
              unfold MM
              rw [h2, h3, pot_neg_cand]
              omega
            have h2 := pot_pos a0
            omega
          rcases List.mem_cons.mp hc with rfl | hc
          · exact hc1
          cases a0 with
          | funCall g a0Args =>
            cases a0Args with
            | nil => simp at hc
            | cons x rest1 =>
              cases rest1 with
              | nil => simp at hc
              | cons k1 t2 =>
                have hpa0 : 3 + pot k1 ≤ pot (Expr.funCall g (x :: k1 :: t2)) := by
                  have h1 := pot_funCall_ge g (x :: k1 :: t2)
                  rw [potL_cons, potL_cons] at h1
                  have h2 := pot_pos g
                  have h3 := pot_pos x
                  omega
                have hpa1 := pot_pos a1
                -- potential of the whole node, with or without a minus root
                have hpc3 : pot (im.call op [k1, im.literalZero]) ≤
                    3 + pot k1 + (if (op == "minus") = true then 3 else 0) := by
                  rw [im.call, pot_call, potL_cons, potL_cons, potL_nil]
                  rw [show pot im.literalZero = 1 from rfl]
                  split <;> omega
                have hpnm : pot (Expr.funCall (.symRef op)
                      (Expr.funCall g (x :: k1 :: t2) :: a1 :: rest)) =
                    2 + potL (Expr.funCall g (x :: k1 :: t2) :: a1 :: rest) +
                      (if (op == "minus") = true then 3 else 0) := pot_call op _
                rcases List.mem_cons.mp hc with rfl | hc
                · -- c = im.plus k1 a1
                  have h1 := MM_of_plus_root k1 a1
                  have h2 : 2 + pot (Expr.funCall g (x :: k1 :: t2)) + pot a1 ≤
                      pot (Expr.funCall (.symRef op)
                        (Expr.funCall g (x :: k1 :: t2) :: a1 :: rest)) := hpn
                  omega
                rcases List.mem_cons.mp hc with rfl | hc
                · -- c = im.call op [k1, literalZero]
                  have h1 : MM (im.call op [k1, im.literalZero]) ≤
                      10 * pot (im.call op [k1, im.literalZero]) + 9 := by
                    have h2 := rank_le (im.call op [k1, im.literalZero])
                    have h3 := opRank_le (im.call op [k1, im.literalZero])
                    unfold MM
                    omega
                  rw [potL_cons, potL_cons] at hpnm
                  by_cases hm : (op == "minus") = true
                  · simp only [hm, if_true] at hpc3 hpnm
                    have h4 : 0 ≤ potL rest := Nat.zero_le _
                    omega
                  · simp only [Bool.not_eq_true] at hm
                    simp only [hm, Bool.false_eq_true, if_false] at hpc3 hpnm
                    have h4 : 0 ≤ potL rest := Nat.zero_le _
                    omega
                · -- c = im.call op [k1, k2] with a1 of call shape
                  cases a1 with
                  | funCall g3 a1Args =>
                    cases a1Args with
                    | nil => simp at hc
                    | cons y rest2 =>
                      cases rest2 with
                      | nil => simp at hc
                      | cons k2 t3 =>
                        simp only [List.mem_singleton] at hc
                        subst hc
                        have hpa1b : 3 + pot k2 ≤
                            pot (Expr.funCall g3 (y :: k2 :: t3)) := by
                          have h1 := pot_funCall_ge g3 (y :: k2 :: t3)
                          rw [potL_cons, potL_cons] at h1
                          have h2 := pot_pos g3
                          have h3 := pot_pos y
                          omega
                        have hpc4 : pot (im.call op [k1, k2]) ≤
                            2 + pot k1 + pot k2 +
                              (if (op == "minus") = true then 3 else 0) := by
                          rw [im.call, pot_call, potL_cons, potL_cons, potL_nil]
                          split <;> omega
                        have h1 : MM (im.call op [k1, k2]) ≤
                            10 * pot (im.call op [k1, k2]) + 9 := by
                          have h2 := rank_le (im.call op [k1, k2])
                          have h3 := opRank_le (im.call op [k1, k2])
                          unfold MM
                          omega
                        rw [potL_cons, potL_cons] at hpnm
                        by_cases hm : (op == "minus") = true
                        · simp only [hm, if_true] at hpc4 hpnm
                          have h4 : 0 ≤ potL rest := Nat.zero_le _
                          omega
                        · simp only [Bool.not_eq_true] at hm
                          simp only [hm, Bool.false_eq_true, if_false] at hpc4 hpnm
                          have h4 : 0 ≤ potL rest := Nat.zero_le _
                          omega
                  | lit v t => simp at hc
                  | symRef i => simp at hc
                  | lam ps b => simp at hc
          | lit v t => simp at hc
          | symRef i => simp at hc
          | lam ps b => simp at hc
    | lit v t => simp [nestedCalls] at hc
    | lam ps b => simp [nestedCalls] at hc
    | funCall f2 a2 => simp [nestedCalls] at hc


theorem bind_getArg_oof {args : List Expr} {i : Nat} {α : Type}
    {g : Expr → Res α} (h : (getArg args i >>= g) = .error .outOfFuel) :
    ∃ a, getArg args i = .ok a ∧ g a = .error .outOfFuel := by
  rcases bind_oof h with h0 | hx
  · exact absurd h0 getArg_not_oof
  · exact hx

theorem bind_unpack2_oof {args : List Expr} {α : Type}
    {g : Expr × Expr → Res α} (h : (unpack2 args >>= g) = .error .outOfFuel) :
    ∃ p, unpack2 args = .ok p ∧ g p = .error .outOfFuel := by
  rcases bind_oof h with h0 | hx
  · exact absurd h0 unpack2_not_oof
  · exact hx

theorem canonOp_not_oof (n : Expr) :
    transform_canonicalize_op_funcall_symref_literal n ≠ .error .outOfFuel := by
  intro h
  cases n with
  | lit v t => simp [transform_canonicalize_op_funcall_symref_literal, pure, Except.pure] at h
  | symRef i => simp [transform_canonicalize_op_funcall_symref_literal, pure, Except.pure] at h
  | lam ps b => simp [transform_canonicalize_op_funcall_symref_literal, pure, Except.pure] at h
  | funCall fn args =>
    unfold transform_canonicalize_op_funcall_symref_literal at h
    by_cases hg : is_call_to (Expr.funCall fn args) opFamily = true
    case neg => simp only [Bool.not_eq_true] at hg; simp [hg, pure, Except.pure] at h
    simp only [hg, if_true] at h
    obtain ⟨a0, ha0, h⟩ := bind_getArg_oof h
    by_cases hl0 : isLit a0 = true
    · simp only [hl0, if_true] at h
      obtain ⟨a1, ha1, h⟩ := bind_getArg_oof h
      by_cases hl1 : (!isLit a1) = true
      · simp only [hl1, if_true] at h
        simp [pure, Except.pure] at h
      · simp only [Bool.not_eq_true] at hl1
        simp [hl1, pure, Except.pure] at h
    · simp only [Bool.not_eq_true] at hl0
      simp only [hl0, Bool.false_eq_true, if_false] at h
      by_cases hc0 : is_call_to a0 opFamily = true
      · simp [hc0, pure, Except.pure] at h
      · simp only [Bool.not_eq_true] at hc0
        simp only [hc0, Bool.false_eq_true, if_false] at h
        obtain ⟨a1, ha1, h⟩ := bind_getArg_oof h
        by_cases hc1 : is_call_to a1 opFamily = true
        · simp [hc1, pure, Except.pure] at h
        · simp only [Bool.not_eq_true] at hc1
          simp [hc1, pure, Except.pure] at h

theorem canonMinMax_not_oof (n : Expr) :
    transform_canonicalize_min_max n ≠ .error .outOfFuel := by
  intro h
  cases n with
  | lit v t => simp [transform_canonicalize_min_max, pure, Except.pure] at h
  | symRef i => simp [transform_canonicalize_min_max, pure, Except.pure] at h
  | lam ps b => simp [transform_canonicalize_min_max, pure, Except.pure] at h
  | funCall fn args =>
    cases fn with
    | symRef op =>
      unfold transform_canonicalize_min_max at h
      by_cases hg : (op == "maximum" || op == "minimum") = true
      case neg => simp only [Bool.not_eq_true] at hg; simp [hg, pure, Except.pure] at h
      simp only [hg, if_true] at h
      obtain ⟨a1, ha1, h⟩ := bind_getArg_oof h
      by_cases hc1 : is_call_to a1 [op] = true
      case neg => simp only [Bool.not_eq_true] at hc1; simp [hc1, pure, Except.pure] at h
      simp only [hc1, if_true] at h
      obtain ⟨a0, ha0, h⟩ := bind_getArg_oof h
      by_cases hc0 : (!is_call_to a0 [op]) = true
      · simp [hc0, pure, Except.pure] at h
      · simp only [Bool.not_eq_true] at hc0
        simp [hc0, pure, Except.pure] at h
    | lit v t => simp [transform_canonicalize_min_max, pure, Except.pure] at h
    | lam ps b => simp [transform_canonicalize_min_max, pure, Except.pure] at h
    | funCall f2 a2 => simp [transform_canonicalize_min_max, pure, Except.pure] at h

theorem foldMinMax_not_oof (n : Expr) :
    transform_fold_min_max n ≠ .error .outOfFuel := by
  intro h
  cases n with
  | lit v t => simp [transform_fold_min_max, pure, Except.pure] at h
  | symRef i => simp [transform_fold_min_max, pure, Except.pure] at h
  | lam ps b => simp [transform_fold_min_max, pure, Except.pure] at h
  | funCall fn args =>
    cases fn with
    | symRef op =>
      unfold transform_fold_min_max at h
      by_cases hg : (op == "minimum" || op == "maximum") = true
      case neg => simp only [Bool.not_eq_true] at hg; simp [hg, pure, Except.pure] at h
      simp only [hg, if_true] at h
      obtain ⟨a0, ha0, h⟩ := bind_getArg_oof h
      by_cases hc0 : is_call_to a0 [op] = true
      case neg => simp only [Bool.not_eq_true] at hc0; simp [hc0, pure, Except.pure] at h
      simp only [hc0, if_true] at h
      obtain ⟨p, hp, h⟩ := bind_unpack2_oof h
      obtain ⟨p1, p2⟩ := p
      cases p1 with
      | funCall fc fcArgs =>
        dsimp only at h
        by_cases hm : fcArgs.contains p2 = true
        · simp only [hm, if_true] at h
          simp [pure, Except.pure] at h
        · simp only [Bool.not_eq_true] at hm
          simp only [hm, Bool.false_eq_true, if_false] at h
          simp [pure, Except.pure] at h
      | lit v t => simp [pure, Except.pure] at h
      | symRef i => simp [pure, Except.pure] at h
      | lam ps b => simp [pure, Except.pure] at h
    | lit v t => simp [transform_fold_min_max, pure, Except.pure] at h
    | lam ps b => simp [transform_fold_min_max, pure, Except.pure] at h
    | funCall f2 a2 => simp [transform_fold_min_max, pure, Except.pure] at h

theorem foldNeutral_not_oof (n : Expr) :
    transform_fold_neutral_op n ≠ .error .outOfFuel := by
  intro h
  cases n with
  | lit v t => simp [transform_fold_neutral_op, pure, Except.pure] at h
  | symRef i => simp [transform_fold_neutral_op, pure, Except.pure] at h
  | lam ps b => simp [transform_fold_neutral_op, pure, Except.pure] at h
  | funCall fn args =>
    unfold transform_fold_neutral_op at h
    by_cases hg : is_call_to (Expr.funCall fn args) ["plus"] = true
    · simp only [hg, if_true] at h
      obtain ⟨a1, ha1, h⟩ := bind_getArg_oof h
      cases a1 with
      | lit v ty =>
        dsimp only at h
        by_cases hd : isDigitValue v 0 = true
        · simp only [hd, if_true] at h
          obtain ⟨a0, ha0, h⟩ := bind_getArg_oof h
          simp [pure, Except.pure] at h
        · simp only [Bool.not_eq_true] at hd
          simp [hd, pure, Except.pure] at h
      | symRef i => simp [pure, Except.pure] at h
      | lam ps b => simp [pure, Except.pure] at h
      | funCall f2 a2 => simp [pure, Except.pure] at h
    · simp only [Bool.not_eq_true] at hg
      simp only [hg, Bool.false_eq_true, if_false] at h
      by_cases hg2 : is_call_to (Expr.funCall fn args) ["multiplies"] = true
      case neg =>
        simp only [Bool.not_eq_true] at hg2
        simp [hg2, pure, Except.pure] at h
      simp only [hg2, if_true] at h
      obtain ⟨a1, ha1, h⟩ := bind_getArg_oof h
      cases a1 with
      | lit v ty =>
        dsimp only at h
        by_cases hd : isDigitValue v 1 = true
        · simp only [hd, if_true] at h
          obtain ⟨a0, ha0, h⟩ := bind_getArg_oof h
          simp [pure, Except.pure] at h
        · simp only [Bool.not_eq_true] at hd
          simp [hd, pure, Except.pure] at h
      | symRef i => simp [pure, Except.pure] at h
      | lam ps b => simp [pure, Except.pure] at h
      | funCall f2 a2 => simp [pure, Except.pure] at h

theorem foldArith_not_oof (n : Expr) :
    transform_fold_arithmetic_builtins n ≠ .error .outOfFuel := by
  intro h
  cases n with
  | lit v t => simp [transform_fold_arithmetic_builtins, pure, Except.pure] at h
  | symRef i => simp [transform_fold_arithmetic_builtins, pure, Except.pure] at h
  | lam ps b => simp [transform_fold_arithmetic_builtins, pure, Except.pure] at h
  | funCall fn args =>
    cases fn with
    | symRef f =>
      unfold transform_fold_arithmetic_builtins at h
      by_cases hg : (decide (args.length > 0) && args.all isLit) = true
      case neg =>
        simp only [Bool.not_eq_true] at hg
        simp [hg, pure, Except.pure] at h
      simp only [hg, if_true] at h
      by_cases hb : ARITHMETIC_BUILTINS.contains f = true
      case neg =>
        simp only [Bool.not_eq_true] at hb
        simp only [hb, Bool.false_eq_true, if_false] at h
        simp [pure, Except.pure] at h
      simp only [hb, if_true] at h
      cases he : arithEval f args with
      | none => rw [he] at h; simp [pure, Except.pure] at h
      | some l => rw [he] at h; simp [pure, Except.pure] at h
    | lit v t => simp [transform_fold_arithmetic_builtins, pure, Except.pure] at h
    | lam ps b => simp [transform_fold_arithmetic_builtins, pure, Except.pure] at h
    | funCall f2 a2 => simp [transform_fold_arithmetic_builtins, pure, Except.pure] at h

theorem foldMinMaxLit_not_oof (n : Expr) :
    transform_fold_min_max_literals n ≠ .error .outOfFuel := by
  intro h
  cases n with
  | lit v t => simp [transform_fold_min_max_literals, pure, Except.pure] at h
  | symRef i => simp [transform_fold_min_max_literals, pure, Except.pure] at h
  | lam ps b => simp [transform_fold_min_max_literals, pure, Except.pure] at h
  | funCall fn args =>
    unfold transform_fold_min_max_literals at h
    by_cases hg : is_call_to (Expr.funCall fn args) ["minimum", "maximum"] = true
    case neg => simp only [Bool.not_eq_true] at hg; simp [hg, pure, Except.pure] at h
    simp only [hg, if_true] at h
    obtain ⟨a0, ha0, h⟩ := bind_getArg_oof h
    obtain ⟨a1, ha1, h⟩ := bind_getArg_oof h
    by_cases he : (a0 == a1) = true
    · simp [he, pure, Except.pure] at h
    · simp only [Bool.not_eq_true] at he
      simp [he, pure, Except.pure] at h

theorem foldIf_not_oof (n : Expr) :
    transform_fold_if n ≠ .error .outOfFuel := by
  intro h
  cases n with
  | lit v t => simp [transform_fold_if, pure, Except.pure] at h
  | symRef i => simp [transform_fold_if, pure, Except.pure] at h
  | lam ps b => simp [transform_fold_if, pure, Except.pure] at h
  | funCall fn args =>
    unfold transform_fold_if at h
    by_cases hg : is_call_to (Expr.funCall fn args) ["if_"] = true
    case neg => simp only [Bool.not_eq_true] at hg; simp [hg, pure, Except.pure] at h
    simp only [hg, if_true] at h
    obtain ⟨a0, ha0, h⟩ := bind_getArg_oof h
    cases a0 with
    | lit v ty =>
      dsimp only at h
      by_cases hv : (v == "True") = true
      · simp only [hv, if_true] at h
        obtain ⟨a1, ha1, h⟩ := bind_getArg_oof h
        simp [pure, Except.pure] at h
      · simp only [Bool.not_eq_true] at hv
        simp only [hv, Bool.false_eq_true, if_false] at h
        obtain ⟨a2, ha2, h⟩ := bind_getArg_oof h
        simp [pure, Except.pure] at h
    | symRef i => simp [pure, Except.pure] at h
    | lam ps b => simp [pure, Except.pure] at h
    | funCall f2 a2 => simp [pure, Except.pure] at h


/-- CANONICALIZE_MINUS exhausts fuel only through its self-application,
whose argument is among the node's nested call subtrees. -/
theorem canonMinus_oof {fp : Expr → Res Expr} {n : Expr}
    (h : transform_canonicalize_minus fp n = .error .outOfFuel) :
    ∃ c ∈ nestedCalls n, fp c = .error .outOfFuel := by
  cases n with
  | lit v t => simp [transform_canonicalize_minus, pure, Except.pure] at h
  | symRef i => simp [transform_canonicalize_minus, pure, Except.pure] at h
  | lam ps b => simp [transform_canonicalize_minus, pure, Except.pure] at h
  | funCall fn args =>
    unfold transform_canonicalize_minus at h
    by_cases hg : is_call_to (Expr.funCall fn args) ["minus"] = true
    case neg => simp only [Bool.not_eq_true] at hg; simp [hg, pure, Except.pure] at h
    simp only [hg, if_true] at h
    obtain ⟨a0, ha0, h⟩ := bind_getArg_oof h
    obtain ⟨a1, ha1, h⟩ := bind_getArg_oof h
    rcases bind_oof h with hr | ⟨r, hr, h⟩
    · obtain ⟨op, rfl, hop⟩ := is_call_to_shape hg
      obtain ⟨x, t, rfl⟩ := getArg_one_shape ha1
      exact ⟨im.call "neg" [a1], List.mem_cons_self _ _, hr⟩
    · simp [pure, Except.pure] at h

/-- FOLD_FUNCALL_LITERAL exhausts fuel only through its
self-application, whose argument is among the nested call subtrees. -/
theorem foldFuncallLit_oof {fp : Expr → Res Expr} {n : Expr}
    (h : transform_fold_funcall_literal fp n = .error .outOfFuel) :
    ∃ c ∈ nestedCalls n, fp c = .error .outOfFuel := by
  cases n with
  | lit v t => simp [transform_fold_funcall_literal, pure, Except.pure] at h
  | symRef i => simp [transform_fold_funcall_literal, pure, Except.pure] at h
  | lam ps b => simp [transform_fold_funcall_literal, pure, Except.pure] at h
  | funCall fn args =>
    unfold transform_fold_funcall_literal at h
    by_cases hg : is_call_to (Expr.funCall fn args) ["plus"] = true
    case neg => simp only [Bool.not_eq_true] at hg; simp [hg, pure, Except.pure] at h
    simp only [hg, if_true] at h
    obtain ⟨op, hfn, hop⟩ := is_call_to_shape hg
    obtain rfl : op = "plus" := contains_single hop
    subst hfn
    obtain ⟨a0, ha0, h⟩ := bind_getArg_oof h
    by_cases h0 : is_call_to a0 ["plus"] = true
    case neg =>
      simp only [Bool.not_eq_true] at h0
      simp [h0, pure, Except.pure] at h
    simp only [h0, if_true] at h
    obtain ⟨a1, ha1, h⟩ := bind_getArg_oof h
    by_cases h1 : isLit a1 = true
    case neg =>
      simp only [Bool.not_eq_true] at h1
      simp [h1, pure, Except.pure] at h
    simp only [h1, if_true] at h
    obtain ⟨p, hp, h⟩ := bind_unpack2_oof h
    obtain ⟨p1, p2⟩ := p
    have hargs : args = [p1, p2] := by simpa using unpack2_eq hp
    rw [hargs]
    dsimp only at h
    cases p1 with
    | funCall fn2 fcArgs =>
      dsimp only at h
      obtain ⟨f0, hf0, h⟩ := bind_getArg_oof h
      by_cases h2 : isSymRefOrFunCall f0 = true
      case neg =>
        simp only [Bool.not_eq_true] at h2
        simp [h2, pure, Except.pure] at h
      simp only [h2, if_true] at h
      obtain ⟨f1, hf1, h⟩ := bind_getArg_oof h
      by_cases h3 : isLit f1 = true
      case neg =>
        simp only [Bool.not_eq_true] at h3
        simp [h3, pure, Except.pure] at h
      simp only [h3, if_true] at h
      rcases bind_oof h with hr | ⟨r, hr, h⟩
      · obtain ⟨w, t2, hsh⟩ := getArg_one_shape hf1
        rw [hsh]
        refine ⟨im.plus f1 p2, ?_, hr⟩
        exact List.mem_cons_of_mem _ (List.mem_cons_self _ _)
      · simp [pure, Except.pure] at h
    | lit v t => simp [pure, Except.pure] at h
    | symRef i => simp [pure, Except.pure] at h
    | lam ps b => simp [pure, Except.pure] at h

/-- FOLD_MIN_MAX_PLUS exhausts fuel only through its self-application,
whose argument is among the nested call subtrees. -/
theorem foldMinMaxPlus_oof {fp : Expr → Res Expr} {n : Expr}
    (h : transform_fold_min_max_plus fp n = .error .outOfFuel) :
    ∃ c ∈ nestedCalls n, fp c = .error .outOfFuel := by
  cases n with
  | lit v t => simp [transform_fold_min_max_plus, pure, Except.pure] at h
  | symRef i => simp [transform_fold_min_max_plus, pure, Except.pure] at h
  | lam ps b => simp [transform_fold_min_max_plus, pure, Except.pure] at h
  | funCall fn args =>
    cases fn with
    | symRef op =>
      unfold transform_fold_min_max_plus at h
      by_cases hg : (op == "minimum" || op == "maximum") = true
      case neg => simp only [Bool.not_eq_true] at hg; simp [hg, pure, Except.pure] at h
      simp only [hg, if_true] at h
      obtain ⟨p, hp, h⟩ := bind_unpack2_oof h
      obtain ⟨p1, p2⟩ := p
      have hargs : args = [p1, p2] := by simpa using unpack2_eq hp
      rw [hargs]
      dsimp only at h
      by_cases h0 : is_call_to p1 ["plus"] = true
      case neg =>
        simp only [Bool.not_eq_true] at h0
        simp [h0, pure, Except.pure] at h
      simp only [h0, if_true] at h
      cases p1 with
      | funCall fn2 a0Args =>
        dsimp only at h
        obtain ⟨x, hx, h⟩ := bind_getArg_oof h
        by_cases hxy : (x == p2) = true
        · simp only [hxy, if_true] at h
          obtain ⟨k1, hk1, h⟩ := bind_getArg_oof h
          rcases bind_oof h with hr | ⟨r, hr, h⟩
          · obtain ⟨w, t2, hsh⟩ := getArg_one_shape hk1
            rw [hsh]
            refine ⟨im.call op [k1, im.literalZero], ?_, hr⟩
            exact List.mem_cons_of_mem _
              (List.mem_cons_of_mem _ (List.mem_cons_self _ _))
          · simp [pure, Except.pure] at h
        · simp only [Bool.not_eq_true] at hxy
          simp only [hxy, Bool.false_eq_true, if_false] at h
          by_cases h2 : is_call_to p2 ["plus"] = true
          case neg =>
            simp only [Bool.not_eq_true] at h2
            simp [h2, pure, Except.pure] at h
          simp only [h2, if_true] at h
          cases p2 with
          | funCall fn3 a1Args =>
            dsimp only at h
            obtain ⟨y, hy, h⟩ := bind_getArg_oof h
            by_cases hxy2 : (x == y) = true
            case neg =>
              simp only [Bool.not_eq_true] at hxy2
              simp [hxy2, pure, Except.pure] at h
            simp only [hxy2, if_true] at h
            obtain ⟨k1, hk1, h⟩ := bind_getArg_oof h
            obtain ⟨k2, hk2, h⟩ := bind_getArg_oof h
            rcases bind_oof h with hr | ⟨r, hr, h⟩
            · obtain ⟨w, t2, hsh⟩ := getArg_one_shape hk1
              obtain ⟨w2, t3, hsh2⟩ := getArg_one_shape hk2
              rw [hsh, hsh2]
              refine ⟨im.call op [k1, k2], ?_, hr⟩
              refine List.mem_cons_of_mem _ (List.mem_cons_of_mem _
                (List.mem_cons_of_mem _ ?_))
              exact List.mem_singleton.mpr rfl
            · simp [pure, Except.pure] at h
          | lit v t => simp [pure, Except.pure] at h
          | symRef i => simp [pure, Except.pure] at h
          | lam ps b => simp [pure, Except.pure] at h
      | lit v t => simp [pure, Except.pure] at h
      | symRef i => simp [pure, Except.pure] at h
      | lam ps b => simp [pure, Except.pure] at h
    | lit v t => simp [transform_fold_min_max_plus, pure, Except.pure] at h
    | lam ps b => simp [transform_fold_min_max_plus, pure, Except.pure] at h
    | funCall f2 a2 => simp [transform_fold_min_max_plus, pure, Except.pure] at h


/-- One engine pass exhausts fuel only through a self-application on a
nested call subtree. -/
theorem tryRules_oof {fp : Expr → Res Expr} {n : Expr}
    (h : tryRules fp n = .error .outOfFuel) :
    ∃ c ∈ nestedCalls n, fp c = .error .outOfFuel := by
  unfold tryRules at h
  cases h1 : transform_canonicalize_op_funcall_symref_literal n with
  | error e =>
    rw [h1, resBindErr] at h
    injection h with he
    subst he
    exact absurd h1 (canonOp_not_oof n)
  | ok o =>
    rw [h1, resBindOk] at h
    cases o with
    | some r => simp [pure, Except.pure] at h
    | none =>
    dsimp only at h
    cases h2 : transform_canonicalize_minus fp n with
    | error e =>
      rw [h2, resBindErr] at h
      injection h with he
      subst he
      exact canonMinus_oof h2
    | ok o =>
      rw [h2, resBindOk] at h
      cases o with
      | some r => simp [pure, Except.pure] at h
      | none =>
      dsimp only at h
      cases h3 : transform_canonicalize_min_max n with
      | error e =>
        rw [h3, resBindErr] at h
        injection h with he
        subst he
        exact absurd h3 (canonMinMax_not_oof n)
      | ok o =>
        rw [h3, resBindOk] at h
        cases o with
        | some r => simp [pure, Except.pure] at h
        | none =>
        dsimp only at h
        cases h4 : transform_fold_funcall_literal fp n with
        | error e =>
          rw [h4, resBindErr] at h
          injection h with he
          subst he
          exact foldFuncallLit_oof h4
        | ok o =>
          rw [h4, resBindOk] at h
          cases o with
          | some r => simp [pure, Except.pure] at h
          | none =>
          dsimp only at h
          cases h5 : transform_fold_min_max n with
          | error e =>
            rw [h5, resBindErr] at h
            injection h with he
            subst he
            exact absurd h5 (foldMinMax_not_oof n)
          | ok o =>
            rw [h5, resBindOk] at h
            cases o with
            | some r => simp [pure, Except.pure] at h
            | none =>
            dsimp only at h
            cases h6 : transform_fold_min_max_plus fp n with
            | error e =>
              rw [h6, resBindErr] at h
              injection h with he
              subst he
              exact foldMinMaxPlus_oof h6
            | ok o =>
              rw [h6, resBindOk] at h
              cases o with
              | some r => simp [pure, Except.pure] at h
              | none =>
              dsimp only at h
              cases h7 : transform_fold_neutral_op n with
              | error e =>
                rw [h7, resBindErr] at h
                injection h with he
                subst he
                exact absurd h7 (foldNeutral_not_oof n)
              | ok o =>
                rw [h7, resBindOk] at h
                cases o with
                | some r => simp [pure, Except.pure] at h
                | none =>
                dsimp only at h
                cases h8 : transform_fold_arithmetic_builtins n with
                | error e =>
                  rw [h8, resBindErr] at h
                  injection h with he
                  subst he
                  exact absurd h8 (foldArith_not_oof n)
                | ok o =>
                  rw [h8, resBindOk] at h
                  cases o with
                  | some r => simp [pure, Except.pure] at h
                  | none =>
                  dsimp only at h
                  cases h9 : transform_fold_min_max_literals n with
                  | error e =>
                    rw [h9, resBindErr] at h
                    injection h with he
                    subst he
                    exact absurd h9 (foldMinMaxLit_not_oof n)
                  | ok o =>
                    rw [h9, resBindOk] at h
                    cases o with
                    | some r => simp [pure, Except.pure] at h
                    | none =>
                    dsimp only at h
                    exact absurd h (foldIf_not_oof n)


/-- A common fuel bound settling every member of a list. -/
theorem exists_uniform_fuel : ∀ (L : List Expr),
    (∀ c ∈ L, ∃ F, fpTransform F c ≠ .error .outOfFuel) →
    ∃ F, ∀ c ∈ L, fpTransform F c ≠ .error .outOfFuel := by
  intro L
  induction L with
  | nil => exact fun _ => ⟨0, fun c hc => absurd hc (List.not_mem_nil c)⟩
  | cons a t ih =>
    intro hall
    obtain ⟨Fa, hFa⟩ := hall a (List.mem_cons_self a t)
    obtain ⟨Ft, hFt⟩ := ih (fun c hc => hall c (List.mem_cons_of_mem a hc))
    refine ⟨max Fa Ft, ?_⟩
    intro c hc
    rcases List.mem_cons.mp hc with rfl | hc
    · rw [fp_stable (le_max_left Fa Ft) hFa]; exact hFa
    · rw [fp_stable (le_max_right Fa Ft) (hFt c hc)]; exact hFt c hc

theorem fpTransform_term_aux : ∀ (k : Nat) (n : Expr), MM n < k →
    ∃ F, fpTransform F n ≠ .error .outOfFuel := by
  intro k
  induction k with
  | zero => exact fun n hn => absurd hn (Nat.not_lt_zero _)
  | succ k ih =>
    intro n hn
    have hcand : ∀ c ∈ nestedCalls n, ∃ F, fpTransform F c ≠ .error .outOfFuel :=
      fun c hc => ih c (Nat.lt_of_lt_of_le (nestedCalls_MM hc) (Nat.lt_succ_iff.mp hn))
    obtain ⟨F, hF⟩ := exists_uniform_fuel _ hcand
    cases hw : tryRules (fpTransform F) n with
    | error e =>
      by_cases heo : e = Err.outOfFuel
      · subst heo
        obtain ⟨c, hc, hcf⟩ := tryRules_oof hw
        exact absurd hcf (hF c hc)
      · refine ⟨F + 1, ?_⟩
        rw [fpTransform, hw, resBindErr]
        intro hh
        injection hh with he
        exact heo he
    | ok o =>
      cases o with
      | none =>
        refine ⟨F + 1, ?_⟩
        rw [fpTransform, hw, resBindOk]
        dsimp only
        simp [pure, Except.pure]
      | some n1 =>
        have hdec : MM n1 < MM n :=
          tryRules_decrease (fpTransform_pot F) (fp_litlit_shape F) hw
        obtain ⟨F1, hF1⟩ := ih n1 (Nat.lt_of_lt_of_le hdec (Nat.lt_succ_iff.mp hn))
        refine ⟨max F F1 + 1, ?_⟩
        rw [fpTransform]
        have hw2 : tryRules (fpTransform (max F F1)) n = .ok (some n1) := by
          refine tryRules_refines (fpTransform F) (fpTransform (max F F1)) ?_ hw (by simp)
          intro x v hx hv
          exact fpTransform_refines_le (le_max_left F F1) hx hv
        rw [hw2, resBindOk]
        dsimp only
        rw [fp_stable (le_max_right F F1) hF1]
        exact hF1

/-- The per-node fixed-point loop terminates: some finite fuel settles
every node. -/
theorem fpTransform_term (n : Expr) : ∃ F, fpTransform F n ≠ .error .outOfFuel :=
  fpTransform_term_aux (MM n + 1) n (Nat.lt_succ_self _)

mutual

/-- Fuel monotonicity of the post-order pass. -/
theorem visitExpr_refines : ∀ (F : Nat) (t : Expr) (v : Res Expr),
    visitExpr F t = v → v ≠ .error .outOfFuel → visitExpr (F + 1) t = v
  | F, .lit v0 ty, v => fun h _ => by
      rw [visitExpr] at h
      rw [visitExpr]
      exact h
  | F, .symRef i, v => fun h _ => by
      rw [visitExpr] at h
      rw [visitExpr]
      exact h
  | F, .lam ps b, v => fun h hv => by
      rw [visitExpr] at h
      rw [visitExpr]
      cases hb : visitExpr F b with
      | error e =>
        rw [hb, resBindErr] at h
        rw [visitExpr_refines F b _ hb
          (by intro hh; injection hh with he; subst he; exact hv h.symm), resBindErr]
        exact h
      | ok b1 =>
        rw [hb, resBindOk] at h
        rw [visitExpr_refines F b _ hb (by simp), resBindOk]
        exact h
  | F, .funCall fn args, v => fun h hv => by
      rw [visitExpr] at h
      rw [visitExpr]
      cases hfn : visitExpr F fn with
      | error e =>
        rw [hfn, resBindErr] at h
        rw [visitExpr_refines F fn _ hfn
          (by intro hh; injection hh with he; subst he; exact hv h.symm), resBindErr]
        exact h
      | ok fn1 =>
        rw [hfn, resBindOk] at h
        rw [visitExpr_refines F fn _ hfn (by simp), resBindOk]
        cases hargs : visitArgs F args with
        | error e =>
          rw [hargs, resBindErr] at h
          rw [visitArgs_refines F args _ hargs
            (by intro hh; injection hh with he; subst he; exact hv h.symm), resBindErr]
          exact h
        | ok args1 =>
          rw [hargs, resBindOk] at h
          rw [visitArgs_refines F args _ hargs (by simp), resBindOk]
          exact fpTransform_refines F _ v h hv

theorem visitArgs_refines : ∀ (F : Nat) (l : List Expr) (v : Res (List Expr)),
    visitArgs F l = v → v ≠ .error .outOfFuel → visitArgs (F + 1) l = v
  | F, [], v => fun h _ => by
      rw [visitArgs] at h
      rw [visitArgs]
      exact h
  | F, a :: rest, v => fun h hv => by
      rw [visitArgs] at h
      rw [visitArgs]
      cases ha : visitExpr F a with
      | error e =>
        rw [ha, resBindErr] at h
        rw [visitExpr_refines F a _ ha
          (by intro hh; injection hh with he; subst he; exact hv h.symm), resBindErr]
        exact h
      | ok a1 =>
        rw [ha, resBindOk] at h
        rw [visitExpr_refines F a _ ha (by simp), resBindOk]
        cases hrest : visitArgs F rest with
        | error e =>
          rw [hrest, resBindErr] at h
          rw [visitArgs_refines F rest _ hrest
            (by intro hh; injection hh with he; subst he; exact hv h.symm), resBindErr]
          exact h
        | ok rest1 =>
          rw [hrest, resBindOk] at h
          rw [visitArgs_refines F rest _ hrest (by simp), resBindOk]
          exact h

end

theorem visitExpr_refines_le {F G : Nat} (hFG : F ≤ G) {t : Expr} {v : Res Expr}
    (h : visitExpr F t = v) (hv : v ≠ .error .outOfFuel) : visitExpr G t = v := by
  induction G with
  | zero =>
    have : F = 0 := Nat.le_zero.mp hFG
    subst this
    exact h
  | succ G ih =>
    rcases Nat.lt_or_ge F (G + 1) with hlt | hge
    · exact visitExpr_refines G t v (ih (Nat.lt_succ_iff.mp hlt)) hv
    · have : F = G + 1 := Nat.le_antisymm hFG hge
      subst this
      exact h

theorem visitArgs_refines_le {F G : Nat} (hFG : F ≤ G) {l : List Expr}
    {v : Res (List Expr)}
    (h : visitArgs F l = v) (hv : v ≠ .error .outOfFuel) : visitArgs G l = v := by
  induction G with
  | zero =>
    have : F = 0 := Nat.le_zero.mp hFG
    subst this
    exact h
  | succ G ih =>
    rcases Nat.lt_or_ge F (G + 1) with hlt | hge
    · exact visitArgs_refines G l v (ih (Nat.lt_succ_iff.mp hlt)) hv
    · have : F = G + 1 := Nat.le_antisymm hFG hge
      subst this
      exact h

mutual

/-- The full pass terminates on every tree: some finite fuel settles it
(returning either the rewritten tree or a genuine Python exception,
never the fuel-exhaustion marker). -/
theorem visitExpr_term : ∀ t : Expr, ∃ F, visitExpr F t ≠ .error .outOfFuel
  | .lit v ty => ⟨0, by rw [visitExpr]; simp [pure, Except.pure]⟩
  | .symRef i => ⟨0, by rw [visitExpr]; simp [pure, Except.pure]⟩
  | .lam ps b => by
      obtain ⟨F, hF⟩ := visitExpr_term b
      refine ⟨F, ?_⟩
      rw [visitExpr]
      cases hb : visitExpr F b with
      | error e =>
        rw [resBindErr]
        intro hh
        injection hh with he
        subst he
        exact hF hb
      | ok b1 =>
        rw [resBindOk]
        simp [pure, Except.pure]
  | .funCall fn args => by
      obtain ⟨F1, h1⟩ := visitExpr_term fn
      obtain ⟨F2, h2⟩ := visitArgs_term args
      have h1m : visitExpr (max F1 F2) fn = visitExpr F1 fn :=
        visitExpr_refines_le (le_max_left F1 F2) rfl h1
      have h2m : visitArgs (max F1 F2) args = visitArgs F2 args :=
        visitArgs_refines_le (le_max_right F1 F2) rfl h2
      cases hfn : visitExpr (max F1 F2) fn with
      | error e =>
        refine ⟨max F1 F2, ?_⟩
        rw [visitExpr, hfn, resBindErr]
        intro hh
        injection hh with he
        subst he
        exact h1 (hfn ▸ h1m).symm
      | ok fn1 =>
        cases hargs : visitArgs (max F1 F2) args with
        | error e =>
          refine ⟨max F1 F2, ?_⟩
          rw [visitExpr, hfn, resBindOk, hargs, resBindErr]
          intro hh
          injection hh with he
          subst he
          exact h2 (hargs ▸ h2m).symm
        | ok args1 =>
          obtain ⟨F3, h3⟩ := fpTransform_term (.funCall fn1 args1)
          refine ⟨max (max F1 F2) F3, ?_⟩
          rw [visitExpr]
          rw [visitExpr_refines_le (le_max_left (max F1 F2) F3) hfn (by simp), resBindOk]
          rw [visitArgs_refines_le (le_max_left (max F1 F2) F3) hargs (by simp), resBindOk]
          rw [fp_stable (le_max_right (max F1 F2) F3) h3]
          exact h3

theorem visitArgs_term : ∀ l : List Expr, ∃ F, visitArgs F l ≠ .error .outOfFuel
  | [] => ⟨0, by rw [visitArgs]; simp [pure, Except.pure]⟩
  | a :: rest => by
      obtain ⟨F1, h1⟩ := visitExpr_term a
      obtain ⟨F2, h2⟩ := visitArgs_term rest
      have h1m : visitExpr (max F1 F2) a = visitExpr F1 a :=
        visitExpr_refines_le (le_max_left F1 F2) rfl h1
      have h2m : visitArgs (max F1 F2) rest = visitArgs F2 rest :=
        visitArgs_refines_le (le_max_right F1 F2) rfl h2
      refine ⟨max F1 F2, ?_⟩
      rw [visitArgs]
      cases ha : visitExpr (max F1 F2) a with
      | error e =>
        rw [resBindErr]
        intro hh
        injection hh with he
        subst he
        exact h1 (ha ▸ h1m).symm
      | ok a1 =>
        rw [resBindOk]
        cases hrest : visitArgs (max F1 F2) rest with
        | error e =>
          rw [resBindErr]
          intro hh
          injection hh with he
          subst he
          exact h2 (hrest ▸ h2m).symm
        | ok rest1 =>
          rw [resBindOk]
          simp [pure, Except.pure]

end

/-- Claim C2: ConstantFolding.apply terminates on every finite IR tree.
Some finite budget of rule applications settles the pass (the
fuel-exhaustion marker is avoidable), and any larger budget returns the
identical result: the rewrite engine reaches a fixed point after a
bounded number of rule applications with no rule cycle, witnessed by
the well-founded measure MM that every enabled rule strictly
decreases. -/
theorem C2_apply_terminates (node : Expr) :
    ∃ F, ConstantFolding.apply F node ≠ .error .outOfFuel ∧
      ∀ G, F ≤ G → ConstantFolding.apply G node = ConstantFolding.apply F node := by
  obtain ⟨F, hF⟩ := visitExpr_term node
  exact ⟨F, hF, fun G hG => visitExpr_refines_le hG rfl hF⟩

/-- Witness for C2 at the concrete tree `plus(a, 0)`. -/
theorem C2_apply_terminates_witness :
    ∃ F, ConstantFolding.apply F (im.plus (.symRef "a") (.lit "0" "int32")) ≠
        .error .outOfFuel ∧
      ∀ G, F ≤ G →
        ConstantFolding.apply G (im.plus (.symRef "a") (.lit "0" "int32")) =
          ConstantFolding.apply F (im.plus (.symRef "a") (.lit "0" "int32")) :=
  C2_apply_terminates (im.plus (.symRef "a") (.lit "0" "int32"))

end GT4Py
